import Mathlib

/-!
Shallow embedding of the byte-oriented Huffman codec in `src/huffman.cpp`
(class `huffman_codec` and the two entry points `huffman_encode` /
`huffman_decode`), together with theorems settling the specification claims.

Modelling conventions, used consistently below:

* `unsigned int` arithmetic is `Nat` arithmetic reduced `% 2^32` wherever the
  C computation can wrap; `unsigned long` likewise `% 2^64`.
* Signed `int` shifts follow the gcc/x86 behavior actually produced for this
  translation unit: left shifts wrap modulo `2^32` and right shifts of a
  value whose 32-bit pattern has the sign bit set are arithmetic
  (sign-extending).  Both are made explicit in `shl32` / `sar32`.
* Byte buffers are total functions `Nat → Nat` holding values `< 256`
  (stores reduce `% 256`, exactly as an assignment to `unsigned char` does).
  The output buffer of `huffman_encode` is `memset` to zero before use, so
  it is modelled as the all-zero function updated by the writes.
* The C `while` loops become structural recursion over an explicit fuel
  argument.  For `bitWrite`/`bitRead` the fuel `bits` is always sufficient
  because every iteration strictly decreases `bits`; for the tree-building
  loop the fuel `#nodes + 1` is sufficient because every merge consumes two
  nodes and produces one; the decoder's loop genuinely need not terminate on
  malformed input, so `decode_loop` returns `Option`, with `none` meaning
  the fuel ran out before `uniqueChars` reached zero.
* `std::priority_queue` with comparator `left->count > right->count` is a
  min-queue on `count` whose order among equal keys is unspecified; it is
  modelled as an ascending-sorted list where `push` inserts after existing
  equal counts and `top`/`pop` use the head.  No theorem below depends on
  the order among equal-count internal nodes (in the concrete evaluations
  the queue holds at most one node whenever equal counts could meet).
* The node `parent` pointers are written but never read in the source, so
  the tree is an ordinary inductive value.  The uninitialized `codes`
  member array is a parameter `g` (arbitrary initial table).
-/

namespace Huffman

/-- A byte value, the index type of the frequency table. -/
abbrev Byte := Fin 256

/-- `2^32`, modulus of the 32-bit `unsigned int` arithmetic. -/
def U32 : Nat := 4294967296

/-- `2^64`, modulus of the `unsigned long` arithmetic. -/
def U64 : Nat := 18446744073709551616

/-- `UINT_MAX`, the sentinel count `LAST_NODE` of the source. -/
def LAST_NODE : Nat := 4294967295

/-- A 32-bit left shift with wrap-around (behavior of `value << s` for the
`int`/`unsigned int` values occurring in the source on gcc/x86). -/
def shl32 (x s : Nat) : Nat := (x <<< s) % U32

/-- Right shift of a 32-bit two's-complement pattern: logical when the sign
bit is clear, sign-extending when it is set (gcc/x86 behavior of `value >> s`
for a signed `int`, for shift amounts below 32). -/
def sar32 (x s : Nat) : Nat :=
  if x < 2 ^ 31 then x >>> s else (x >>> s) ||| ((2 ^ s - 1) <<< (32 - s))

/-- A byte buffer: total function from byte index to stored byte. -/
def Buf : Type := Nat → Nat

/-- `struct bit_cursor`: current byte (as an index into the buffer) and the
current bit offset inside it.  The source keeps `curBit` in `0..7`. -/
structure BitCursor where
  byteIdx : Nat
  curBit : Fin 8
deriving DecidableEq, Repr

/-- `struct bit_cursor_read`, same layout as `bit_cursor`. -/
structure BitCursorRead where
  byteIdx : Nat
  curBit : Fin 8
deriving DecidableEq, Repr

/-- The body of `bitWrite`'s `while (bits > 0)` loop; `fuel` bounds the
iteration count (every pass strictly decreases `bits`, so `fuel = bits` at
the call site is always enough). -/
def bitWriteAux (fuel : Nat) (bits value : Nat) (buf : Buf) (cursor : BitCursor) :
    Buf × BitCursor :=
  match fuel with
  | 0 => (buf, cursor)
  | fuel + 1 =>
    if bits = 0 then (buf, cursor)
    else
      let bitsLeftInByte := 8 - cursor.curBit.val
      if h : bits < bitsLeftInByte then
        let buf' := Function.update buf cursor.byteIdx
          ((buf cursor.byteIdx ||| shl32 value (bitsLeftInByte - bits)) % 256)
        let newBit := cursor.curBit.val + bits
        -- the reset below mirrors `if (cursor.curBit >= 8)`, dead in this branch
        if h8 : 8 ≤ newBit then (buf', ⟨cursor.byteIdx + 1, ⟨0, by omega⟩⟩)
        else (buf', ⟨cursor.byteIdx, ⟨newBit, by omega⟩⟩)
      else
        let buf' := Function.update buf cursor.byteIdx
          ((buf cursor.byteIdx ||| sar32 value (bits - bitsLeftInByte)) % 256)
        let value' := value &&& (shl32 1 (bits - bitsLeftInByte) - 1)
        bitWriteAux fuel (bits - bitsLeftInByte) value' buf' ⟨cursor.byteIdx + 1, ⟨0, by omega⟩⟩

/-- `bitWrite(bits, value, cursor)`: OR `bits` bits of `value`, MSB first,
into the buffer at the cursor, advancing the cursor. -/
def bitWrite (bits value : Nat) (buf : Buf) (cursor : BitCursor) : Buf × BitCursor :=
  bitWriteAux bits bits value buf cursor

/-- The `get_bits` lambda of `bitRead`: extract `bits` bits of the current
byte, ending `cursor.curBit + bits` bits below its MSB (callers keep
`cursor.curBit + bits ≤ 8`). -/
def get_bits (buf : Buf) (cursor : BitCursorRead) (bits : Nat) : Nat :=
  let mask := (1 <<< bits - 1) % 256
  (buf cursor.byteIdx >>> (8 - cursor.curBit.val - bits)) &&& mask

/-- The body of `bitRead`'s `while (bits > 0)` loop with the `data`
accumulator; `fuel` as in `bitWriteAux`. -/
def bitReadAux (fuel bits : Nat) (buf : Buf) (cursor : BitCursorRead) (data : Nat) :
    Nat × BitCursorRead :=
  match fuel with
  | 0 => (data, cursor)
  | fuel + 1 =>
    if bits = 0 then (data, cursor)
    else
      let bitsLeftInByte := 8 - cursor.curBit.val
      if h : bits < bitsLeftInByte then
        let dataRead := get_bits buf cursor bits
        (((data <<< bits) % U32) ||| dataRead,
          ⟨cursor.byteIdx, ⟨cursor.curBit.val + bits, by omega⟩⟩)
      else
        let dataRead := get_bits buf cursor bitsLeftInByte
        bitReadAux fuel (bits - bitsLeftInByte) buf ⟨cursor.byteIdx + 1, ⟨0, by omega⟩⟩
          (((data <<< bitsLeftInByte) % U32) ||| dataRead)

/-- `bitRead(bits, cursor)`: read `bits` bits MSB-first from the buffer at
the cursor, advancing the cursor. -/
def bitRead (bits : Nat) (buf : Buf) (cursor : BitCursorRead) : Nat × BitCursorRead :=
  bitReadAux bits bits buf cursor 0

/-- The mutable counting state of the codec: the `char_frequency` member
array and the `max_freq` member. -/
structure CountState where
  char_frequency : Byte → Nat
  max_freq : Nat

/-- One iteration of the `count_chars` loop: increment the character's
count (32-bit unsigned, hence `% U32`) and update the running maximum
against the incremented entry. -/
def count_chars_step (s : CountState) (b : Byte) : CountState :=
  { char_frequency := Function.update s.char_frequency b ((s.char_frequency b + 1) % U32)
    max_freq := if s.max_freq < (s.char_frequency b + 1) % U32 then (s.char_frequency b + 1) % U32
                else s.max_freq }

/-- `count_chars`: one linear pass incrementing `char_frequency[bufin[i]]`
and tracking the running maximum.  Note the source resets `max_freq` but
not `char_frequency`. -/
def count_chars (bufin : List Byte) (st : CountState) : CountState :=
  bufin.foldl count_chars_step { st with max_freq := 0 }

/-- Huffman tree nodes.  Leaves carry `character` and `count`; internal
nodes carry `count` and the two children.  The source's `parent` pointers
are written but never read, so they are not modelled. -/
inductive HTree where
  | leaf (character : Byte) (count : Nat)
  | internal (count : Nat) (left right : HTree)
deriving DecidableEq, Repr

/-- The `count` field of a node. -/
def HTree.count : HTree → Nat
  | .leaf _ n => n
  | .internal n _ _ => n

/-- Decimal digit `r` of the frequency of character `c`
(`(char_frequency[c] / div) % 10` with `div = pow(10, r)`). -/
def digitOf (freq : Byte → Nat) (r : Nat) (c : Byte) : Nat := freq c / 10 ^ r % 10

/-- One iteration of the scatter loop of `sort_radix`:
`out_array[offsets[symbol]++] = in_array[i]`.  The state is the pair of the
mutable `offsets` table and the output array. -/
def scatter_step (freq : Byte → Nat) (r : Nat) (st : (Nat → Nat) × (Nat → Byte)) (c : Byte) :
    (Nat → Nat) × (Nat → Byte) :=
  let symbol := digitOf freq r c
  (Function.update st.1 symbol (st.1 symbol + 1), Function.update st.2 (st.1 symbol) c)

/-- `sort_radix`: one stable counting pass over the 256-entry array by
decimal digit `r` of each character's frequency.  `symbol_count` and
`offsets` are the digit histogram and its exclusive prefix sums (the
source's two preparatory loops), the fold is the scatter loop, and the
result reads the output array back in index order. -/
def sort_radix (freq : Byte → Nat) (r : Nat) (in_array : List Byte) : List Byte :=
  let symbol_count : Nat → Nat := fun d => (in_array.filter (fun c => digitOf freq r c == d)).length
  let offsets : Nat → Nat := fun d => ((List.range d).map symbol_count).sum
  let final := in_array.foldl (scatter_step freq r) (offsets, fun _ => 0)
  (List.range in_array.length).map final.2

/-- Decimal digit count of `n` (0 for 0), computed with fuel so the kernel
can evaluate it; any `fuel ≥ n` is enough. -/
def numDigits : Nat → Nat → Nat
  | 0, _ => 0
  | fuel + 1, n => if n = 0 then 0 else numDigits fuel (n / 10) + 1

/-- `(int)ceil(log10(max_freq))` as the source computes it with exact
`double` math: the least `k` with `max_freq ≤ 10^k`, i.e. for `n ≥ 2` the
decimal digit count of `n - 1`.  For `max_freq = 0` the C expression is
`ceil(-inf)` whose cast is unspecified; the pass loop then runs zero
times, which is what the value 0 models. -/
def ceil_log10 (n : Nat) : Nat := if n ≤ 1 then 0 else numDigits (n - 1) (n - 1)

/-- The sentinel placed after the real leaf nodes: character `'\0'`,
count `LAST_NODE`. -/
def sentinel_leaf : HTree := HTree.leaf 0 LAST_NODE

/-- `sort_chars`: radix-sort the 256 byte values by frequency
(`ceil_log10 max_freq` passes over the two ping-pong arrays), keep those
with nonzero frequency as leaf nodes in sorted order, and append the
sentinel. -/
def sort_chars (freq : Byte → Nat) (max_freq : Nat) : List HTree :=
  let max_radix := ceil_log10 max_freq
  let sorted := (List.range max_radix).foldl (fun arr i => sort_radix freq i arr)
    (List.finRange 256)
  ((sorted.filter (fun c => 0 < freq c)).map (fun c => HTree.leaf c (freq c))) ++ [sentinel_leaf]

/-- The tree builder's working state: the not-yet-consumed tail of
`sorted_leaf_nodes` (always ending in the sentinel in reachable states) and
the priority queue of internal nodes. -/
structure BuildState where
  leaves : List HTree
  q : List HTree
deriving Repr

/-- Push onto the priority queue, modelled as an ascending-by-`count`
sorted list (`std::priority_queue` with the `>`-comparator is a min-queue;
its order among equal keys is unspecified and this model inserts after
existing equal counts). -/
def qpush (t : HTree) : List HTree → List HTree
  | [] => [t]
  | x :: xs => if t.count < x.count then t :: x :: xs else x :: qpush t xs

/-- The `get_min_node` lambda: take the next leaf if the queue is empty or
the leaf's count is strictly below the queue minimum, otherwise pop the
queue (so an exact tie selects the queued internal node).  The two
defensive `[]` cases are unreachable in the runs the source performs
(the sentinel is never consumed while real work remains). -/
def get_min_node (s : BuildState) : HTree × BuildState :=
  match s.q with
  | [] => (s.leaves.headD sentinel_leaf, { s with leaves := s.leaves.tail })
  | x :: xs =>
    match s.leaves with
    | [] => (x, { s with q := xs })
    | l :: ls =>
      if l.count < x.count then (l, { leaves := ls, q := x :: xs })
      else (x, { leaves := l :: ls, q := xs })

/-- The `build_node` lambda: a new internal node whose count is the 32-bit
sum of the children's counts. -/
def build_node (left right : HTree) : HTree :=
  HTree.internal ((left.count + right.count) % U32) left right

/-- The `while (head == nullptr)` merge loop of `huff_tree`.  Each pass
either finishes (next leaf is the sentinel and the queue is empty after
extracting `left`) or merges two minimum nodes, strictly decreasing the
total node population, so fuel `#nodes + 1` suffices. -/
def huff_tree_loop (fuel : Nat) (s : BuildState) : HTree :=
  match fuel with
  | 0 => sentinel_leaf
  | fuel + 1 =>
    let e := get_min_node s
    if (e.2.leaves.headD sentinel_leaf).count = LAST_NODE ∧ e.2.q = [] then e.1
    else
      let e2 := get_min_node e.2
      huff_tree_loop fuel { leaves := e2.2.leaves, q := qpush (build_node e.1 e2.1) e2.2.q }

/-- `huff_tree`: sort the characters into leaves, then run the merge loop
starting with an empty queue. -/
def huff_tree (freq : Byte → Nat) (max_freq : Nat) : HTree :=
  let leaves := sort_chars freq max_freq
  huff_tree_loop (leaves.length + 1) { leaves := leaves, q := [] }

/-- `struct code`: bit length and value of a character's Huffman code.
The `length` field is a C `int` that the generator only ever increments
from 0, and `value` an `unsigned int` (kept `< 2^32` by `% U32`). -/
structure Code where
  length : Nat
  value : Nat
deriving DecidableEq, Repr

/-- The recursive `gen_codes(node*, code)`: descending into an internal
node appends a 0 bit (left) or a 1 bit (right) to the running code —
`length++`, `value <<= 1` (32-bit wrap), `value |= 1` for the right child —
and a leaf stores the running code at its character's slot. -/
def gen_codes_aux (t : HTree) (cur_code : Code) (codes : Byte → Code) : Byte → Code :=
  match t with
  | .internal _ l r =>
    let c : Code := { length := cur_code.length + 1, value := (cur_code.value <<< 1) % U32 }
    gen_codes_aux r { c with value := c.value ||| 1 } (gen_codes_aux l c codes)
  | .leaf ch _ => Function.update codes ch cur_code

/-- `gen_codes()`: walk from the head with the empty code, starting from
the (uninitialized, hence arbitrary) `codes` member array `codes0`. -/
def gen_codes (head : HTree) (codes0 : Byte → Code) : Byte → Code :=
  gen_codes_aux head { length := 0, value := 0 } codes0

/-- `calc_out_buff_size`: accumulate `char_frequency[i] * codes[i].length`
(a 32-bit product) into the `unsigned long` `bit_count`, then return
`(bit_count + 7) / 8 + sizeof(char_frequency)` truncated to
`unsigned int`. -/
def calc_out_buff_size (freq : Byte → Nat) (codes : Byte → Code) : Nat :=
  let bit_count := (List.finRange 256).foldl
    (fun acc i => (acc + freq i * (codes i).length % U32) % U64) 0
  (((bit_count + 7) % U64 / 8 + 1024) % U64) % U32

/-- Store a 32-bit value at byte address `addr`, little-endian (the
`*intPtr = char_frequency[i]` store on x86). -/
def write4 (buf : Buf) (addr x : Nat) : Buf :=
  Function.update (Function.update (Function.update (Function.update buf
    addr (x % 256))
    (addr + 1) (x / 256 % 256))
    (addr + 2) (x / 65536 % 256))
    (addr + 3) (x / 16777216 % 256)

/-- One iteration of the `write_char_freq` loop: store entry `i`. -/
def write_freq_step (freq : Byte → Nat) (b : Buf) (i : Byte) : Buf :=
  write4 b (4 * i.val) (freq i)

/-- `write_char_freq`: the 256 frequency counts, 4 bytes each, written at
byte offsets `0, 4, 8, …` of the output buffer. -/
def write_char_freq (freq : Byte → Nat) (buf : Buf) : Buf :=
  (List.finRange 256).foldl (write_freq_step freq) buf

/-- Load a 32-bit little-endian value from byte address `addr`. -/
def read4 (buf : Buf) (addr : Nat) : Nat :=
  buf addr % 256 + buf (addr + 1) % 256 * 256 + buf (addr + 2) % 256 * 65536 +
    buf (addr + 3) % 256 * 16777216

/-- The state produced by `read_char_freq`: the reloaded frequency table
and `max_freq` member, the accumulated `totalSize` (the caller's
`*pbufoutlen`, an `unsigned int`, which the loop adds into without zeroing
first) and the count `uniqueChars` of nonzero entries. -/
structure ReadFreqState where
  char_frequency : Byte → Nat
  max_freq : Nat
  totalSize : Nat
  uniqueChars : Nat

/-- One iteration of the `read_char_freq` loop: read entry `i`, overwrite
the table, update `max_freq`, accumulate `totalSize` (32-bit wrap) and
count a nonzero entry. -/
def read_freq_step (bufin : Buf) (s : ReadFreqState) (i : Byte) : ReadFreqState :=
  let v := read4 bufin (4 * i.val)
  { char_frequency := Function.update s.char_frequency i v
    max_freq := if s.max_freq < v then v else s.max_freq
    totalSize := (s.totalSize + v) % U32
    uniqueChars := if 0 < v then s.uniqueChars + 1 else s.uniqueChars }

/-- `read_char_freq`: read the 256 header entries, overwriting the
frequency table, recomputing `max_freq`, accumulating `totalSize`
(32-bit wrap) and counting the characters with nonzero frequency. -/
def read_char_freq (bufin : Buf) (totalSize0 : Nat) : ReadFreqState :=
  (List.finRange 256).foldl (read_freq_step bufin)
    { char_frequency := fun _ => 0, max_freq := 0, totalSize := totalSize0, uniqueChars := 0 }

/-- The decoder loop's state: the read cursor into the packed bits, the
walk pointer `currentNode`, the (decrementing) frequency table, the
remaining `uniqueChars`, and the bytes emitted so far through `pbufout`. -/
structure DecodeState where
  cursor : BitCursorRead
  currentNode : HTree
  char_frequency : Byte → Nat
  uniqueChars : Nat
  out : List Byte

/-- The `while (uniqueChars > 0)` loop of `decode`: read one bit, step to a
child if the walk pointer is at an internal node (the leaf-head check of
the source), and on reaching a leaf emit its character, decrement its
frequency count (32-bit unsigned, so a decrement of 0 wraps to `LAST_NODE`),
decrement `uniqueChars` when the count hits zero, and reset the walk to the
head.  `none` means the fuel was exhausted before `uniqueChars` reached 0
(the loop would still be running). -/
def decode_loop (head : HTree) (bufin : Buf) (fuel : Nat) (s : DecodeState) :
    Option DecodeState :=
  match fuel with
  | 0 => if s.uniqueChars = 0 then some s else none
  | fuel + 1 =>
    if s.uniqueChars = 0 then some s
    else
      let rd := bitRead 1 bufin s.cursor
      let moved :=
        match s.currentNode with
        | .internal _ l r => if rd.1 = 0 then l else r
        | t => t
      match moved with
      | .internal c l r =>
        decode_loop head bufin fuel { s with cursor := rd.2, currentNode := .internal c l r }
      | .leaf ch _ =>
        let f := Function.update s.char_frequency ch
          (if s.char_frequency ch = 0 then LAST_NODE else s.char_frequency ch - 1)
        let u := if f ch = 0 then s.uniqueChars - 1 else s.uniqueChars
        decode_loop head bufin fuel
          { cursor := rd.2, currentNode := head, char_frequency := f, uniqueChars := u,
            out := s.out ++ [ch] }

/-- The frequency-count pass of `huffman_encode` on a fresh codec (the
member array is zero-initialized, `max_freq` is 0). -/
def encode_freq (b : List Byte) : CountState :=
  count_chars b { char_frequency := fun _ => 0, max_freq := 0 }

/-- The tree `huffman_encode` builds for input `b`. -/
def encode_tree (b : List Byte) : HTree :=
  huff_tree (encode_freq b).char_frequency (encode_freq b).max_freq

/-- The code table `huffman_encode` generates for input `b`, starting from
the arbitrary initial contents `g` of the uninitialized `codes` member. -/
def encode_codes (b : List Byte) (g : Byte → Code) : Byte → Code :=
  gen_codes (encode_tree b) g

/-- One iteration of the `encode` loop: write the code of one input byte. -/
def encode_step (codes : Byte → Code) (bc : Buf × BitCursor) (ch : Byte) : Buf × BitCursor :=
  bitWrite (codes ch).length (codes ch).value bc.1 bc.2

/-- The packing loop of `encode`: write each input byte's code in input
order at the advancing cursor. -/
def encode_loop (b : List Byte) (codes : Byte → Code) (buf : Buf) (cursor : BitCursor) :
    Buf × BitCursor :=
  b.foldl (encode_step codes) (buf, cursor)

/-- `huffman_encode`: count, build the tree, generate codes, allocate and
zero the output buffer (`calc_out_buff_size` bytes), write the 1024-byte
frequency header, then pack the codes starting at byte 1024.  Returns the
output buffer and the reported output length. -/
def huffman_encode (b : List Byte) (g : Byte → Code) : Buf × Nat :=
  let st := encode_freq b
  let codes := gen_codes (huff_tree st.char_frequency st.max_freq) g
  let outlen := calc_out_buff_size st.char_frequency codes
  let buf1 := write_char_freq st.char_frequency (fun _ => 0)
  ((encode_loop b codes buf1 ⟨1024, 0⟩).1, outlen)

/-- `huffman_decode`: read the header (accumulating into the caller's
`*pbufoutlen`, passed in as `pbufoutlen0`), rebuild the tree, run the
decode loop from byte 1024, then write the decoded bytes into a
`malloc(*pbufoutlen + 1)` buffer of arbitrary prior contents `mallocFill`,
append the `'\0'` at index `totalSize`, and report `totalSize + 1`
(32-bit wrap).  `none` if the decode loop exceeds the fuel. -/
def huffman_decode (fuel : Nat) (bufin : Buf) (pbufoutlen0 : Nat) (mallocFill : Nat → Nat) :
    Option (Buf × Nat) :=
  let r := read_char_freq bufin pbufoutlen0
  let head := huff_tree r.char_frequency r.max_freq
  match decode_loop head bufin fuel
      { cursor := ⟨1024, 0⟩, currentNode := head, char_frequency := r.char_frequency,
        uniqueChars := r.uniqueChars, out := [] } with
  | none => none
  | some s =>
    let outBuf : Buf := fun i =>
      if h : i < s.out.length then (s.out.get ⟨i, h⟩).val else mallocFill i
    some (Function.update outBuf r.totalSize 0, (r.totalSize + 1) % U32)

/-! ## Derived notions used in the statements of the claims -/

/-- Global bit position of a write cursor (8 bits per byte, MSB first). -/
def BitCursor.pos (c : BitCursor) : Nat := 8 * c.byteIdx + c.curBit.val

/-- Global bit position of a read cursor. -/
def BitCursorRead.pos (c : BitCursorRead) : Nat := 8 * c.byteIdx + c.curBit.val

/-- Bit number `p` of a buffer, counting MSB-first inside each byte. -/
def bitAt (buf : Buf) (p : Nat) : Nat := buf (p / 8) >>> (7 - p % 8) &&& 1

/-- Value of the `n` bits at positions `p, …, p + n - 1` of a buffer,
MSB first. -/
def bitsVal (buf : Buf) (p : Nat) : Nat → Nat
  | 0 => 0
  | n + 1 => 2 * bitsVal buf p n + bitAt buf (p + n)

/-- The bit string of a code at its stated length, MSB first. -/
def codeBits (c : Code) : List Nat :=
  (List.range c.length).map (fun i => c.value >>> (c.length - 1 - i) &&& 1)

/-- `startsWith a b`: the bit string `a` is an initial segment of the bit
string `b` (the spec's "is a prefix of"). -/
def startsWith (a b : List Nat) : Prop := b.take a.length = a

/-- The characters at the leaves of a tree, left to right. -/
def HTree.chars : HTree → List Byte
  | .leaf c _ => [c]
  | .internal _ l r => l.chars ++ r.chars

/-- Depth of a tree (a leaf has depth 0). -/
def HTree.depth : HTree → Nat
  | .leaf _ _ => 0
  | .internal _ l r => max l.depth r.depth + 1

/-- The root-to-leaf path of character `ch` (`false` = left, `true` =
right), when `ch` labels a leaf.  When several leaves carry `ch` this
follows the rightmost one, matching `gen_codes_aux`, whose right-subtree
recursion overwrites the left subtree's entries. -/
def findPath : HTree → Byte → Option (List Bool)
  | .leaf c _, ch => if c = ch then some [] else none
  | .internal _ l r, ch =>
    match findPath r ch with
    | some p => some (true :: p)
    | none => (findPath l ch).map (fun p => false :: p)

/-- One branch step of the running code, exactly as `gen_codes` takes it:
`length++`, `value <<= 1` (32-bit wrap), and `value |= 1` on a right
branch. -/
def codeSnoc (c : Code) (b : Bool) : Code :=
  let c' : Code := { length := c.length + 1, value := (c.value <<< 1) % U32 }
  if b then { c' with value := c'.value ||| 1 } else c'

/-- Extending a running code along a whole path. -/
def codeExtend (c : Code) (p : List Bool) : Code := p.foldl codeSnoc c

/-- The numeric value of a path read as MSB-first bits. -/
def pathVal : List Bool → Nat
  | [] => 0
  | b :: p => (if b then 1 else 0) * 2 ^ p.length + pathVal p

/-- A path as a list of 0/1 bits. -/
def pathBits (p : List Bool) : List Nat := p.map (fun b => if b then 1 else 0)

/-- The packed code bits of a whole input, in input order. -/
def flatBits (codes : Byte → Code) (b : List Byte) : List Nat :=
  b.flatMap (fun ch => codeBits (codes ch))

/-- The number of distinct byte values occurring in a list. -/
def suppCard (s : List Byte) : Nat :=
  ((List.finRange 256).filter (fun c => 0 < s.count c)).length

/-- The concatenated root-to-leaf path bits of a byte sequence (the bit
stream an encoder writes when each code is the character's tree path). -/
def flatPaths (head : HTree) (s : List Byte) : List Nat :=
  s.flatMap (fun ch => pathBits ((findPath head ch).getD []))

instance startsWithDec (a b : List Nat) : Decidable (startsWith a b) :=
  inferInstanceAs (Decidable (b.take a.length = a))

/-- An input with the given per-byte-value multiplicities, listed in
ascending byte order. -/
def inputOfCounts (freq : Byte → Nat) : List Byte :=
  (List.finRange 256).flatMap (fun c => List.replicate (freq c) c)

/-- Modelled from the spec: the output size formula
`ceil(total_packed_bits / 8) + 1024` evaluated with exact mathematical
arithmetic, `total_packed_bits` being the exact sum of
frequency times code bit length over the 256 byte values. -/
def specOutBuffSize (freq : Byte → Nat) (codes : Byte → Code) : Nat :=
  (((List.finRange 256).map (fun i => freq i * (codes i).length)).sum + 7) / 8 + 1024

/-! ## A small library on single bits of naturals -/

/-- Bit `i` of `x` as a natural number (0 or 1). -/
def nbit (x i : Nat) : Nat := x >>> i &&& 1

lemma nbit_eq_testBit (x i : Nat) : nbit x i = if x.testBit i then 1 else 0 := by
  rw [nbit, Nat.and_one_is_mod, Nat.testBit_to_div_mod, Nat.shiftRight_eq_div_pow]
  rcases Nat.mod_two_eq_zero_or_one (x / 2 ^ i) with h | h <;> simp [h]

lemma nbit_le_one (x i : Nat) : nbit x i ≤ 1 := by
  rw [nbit_eq_testBit]; split <;> omega

lemma nbit_eq_zero_iff (x i : Nat) : nbit x i = 0 ↔ x.testBit i = false := by
  rw [nbit_eq_testBit]; split <;> simp_all

lemma nbit_eq_one_iff (x i : Nat) : nbit x i = 1 ↔ x.testBit i = true := by
  rw [nbit_eq_testBit]; split <;> simp_all

lemma nbit_zero (i : Nat) : nbit 0 i = 0 := by
  rw [nbit_eq_testBit]; simp

lemma nbit_lor (a b i : Nat) : nbit (a ||| b) i = max (nbit a i) (nbit b i) := by
  rw [nbit_eq_testBit, nbit_eq_testBit, nbit_eq_testBit, Nat.testBit_lor]
  cases ha : a.testBit i <;> cases hb : b.testBit i <;> simp

lemma nbit_of_lt_two_pow {x m : Nat} (h : x < 2 ^ m) {i : Nat} (hi : m ≤ i) : nbit x i = 0 := by
  rw [nbit_eq_zero_iff]
  exact Nat.testBit_eq_false_of_lt (lt_of_lt_of_le h (Nat.pow_le_pow_right (by norm_num) hi))

lemma nbit_shiftLeft (v s i : Nat) : nbit (v <<< s) i = if s ≤ i then nbit v (i - s) else 0 := by
  rw [nbit_eq_testBit, Nat.testBit_shiftLeft]
  rcases le_or_lt s i with h | h
  · simp [h, nbit_eq_testBit]
  · simp [Nat.not_le_of_lt h, h]

lemma nbit_shiftRight (v s i : Nat) : nbit (v >>> s) i = nbit v (s + i) := by
  rw [nbit_eq_testBit, Nat.testBit_shiftRight, nbit_eq_testBit]

lemma nbit_mod_two_pow {i n : Nat} (h : i < n) (x : Nat) : nbit (x % 2 ^ n) i = nbit x i := by
  rw [nbit_eq_testBit, Nat.testBit_mod_two_pow, nbit_eq_testBit]
  simp [h]

lemma nbit_mod_U32 {i : Nat} (h : i < 32) (x : Nat) : nbit (x % U32) i = nbit x i := by
  have : U32 = 2 ^ 32 := by norm_num [U32]
  rw [this]
  exact nbit_mod_two_pow h x

/-- Splitting a right shift one bit at a time. -/
lemma shiftRight_succ_decomp (x i : Nat) : x >>> i = 2 * (x >>> (i + 1)) + nbit x i := by
  rw [nbit, Nat.and_one_is_mod, Nat.shiftRight_eq_div_pow, Nat.shiftRight_eq_div_pow,
    pow_succ, ← Nat.div_div_eq_div_mul]
  omega

lemma shiftRight_succ_decomp' (x i : Nat) : x / 2 ^ i = 2 * (x / 2 ^ (i + 1)) + nbit x i := by
  have h : nbit x i = x / 2 ^ i % 2 := by
    rw [nbit, Nat.and_one_is_mod, Nat.shiftRight_eq_div_pow]
  rw [h, pow_succ, ← Nat.div_div_eq_div_mul]
  omega

/-- The value of `a * 2^n + b` with `b < 2^n` is the bitwise or. -/
lemma mul_two_pow_add_eq_lor (a b n : Nat) (hb : b < 2 ^ n) :
    a * 2 ^ n + b = (a <<< n) ||| b := by
  rw [Nat.shiftLeft_eq, Nat.mul_comm a (2 ^ n)]
  exact Nat.mul_add_lt_is_or hb a

/-! ## Buffers, bit positions, and the bit packer / unpacker -/

/-- The all-zero buffer (a `memset(…, 0, …)` result). -/
def zeroBuf : Buf := fun _ => 0

lemma bitAt_eq_nbit (buf : Buf) (p : Nat) : bitAt buf p = nbit (buf (p / 8)) (7 - p % 8) := rfl

lemma bitAt_le_one (buf : Buf) (p : Nat) : bitAt buf p ≤ 1 := nbit_le_one _ _

lemma bitAt_zeroBuf (p : Nat) : bitAt zeroBuf p = 0 := nbit_zero _

lemma bitAt_update_eq (buf : Buf) (B w p : Nat) :
    bitAt (Function.update buf B w) p =
      if p / 8 = B then nbit w (7 - p % 8) else bitAt buf p := by
  rw [bitAt_eq_nbit, bitAt_eq_nbit]
  rcases eq_or_ne (p / 8) B with h | h
  · rw [if_pos h, h, Function.update_same]
  · rw [if_neg h, Function.update_noteq h]

lemma bitsVal_lt (buf : Buf) (p : Nat) : ∀ n, bitsVal buf p n < 2 ^ n := by
  intro n
  induction n with
  | zero => simp [bitsVal]
  | succ n ih =>
    have h := bitAt_le_one buf (p + n)
    rw [bitsVal, pow_succ]
    omega

lemma bitsVal_split (buf : Buf) (p m : Nat) :
    ∀ n, bitsVal buf p (m + n) = bitsVal buf p m * 2 ^ n + bitsVal buf (p + m) n := by
  intro n
  induction n with
  | zero => simp [bitsVal]
  | succ n ih =>
    have h1 : m + (n + 1) = (m + n) + 1 := by omega
    rw [h1, bitsVal, ih, bitsVal, ← Nat.add_assoc p m n, pow_succ]
    ring

/-- If the bits at `p, …, p+n-1` are the MSB-first bits of `v < 2^n`, then
their packed value is `v`. -/
lemma bitsVal_eq_of_bits {buf : Buf} {p n v : Nat} (hv : v < 2 ^ n)
    (h : ∀ j < n, bitAt buf (p + j) = nbit v (n - 1 - j)) :
    bitsVal buf p n = v := by
  suffices hm : ∀ m, m ≤ n → bitsVal buf p m = v >>> (n - m) by
    have h2 := hm n le_rfl
    simpa using h2
  intro m
  induction m with
  | zero =>
    intro _
    rw [bitsVal, Nat.shiftRight_eq_div_pow, Nat.div_eq_of_lt]
    exact lt_of_lt_of_le hv (Nat.pow_le_pow_right (by norm_num) (by omega))
  | succ m ih =>
    intro hm1
    rw [bitsVal, ih (by omega), h m (by omega)]
    have h2 : (n - (m + 1)) + 1 = n - m := by omega
    have h3 : n - 1 - m = n - (m + 1) := by omega
    rw [h3, ← h2, shiftRight_succ_decomp v (n - (m + 1))]

/-- Low bits of the arithmetic shift agree with the logical shift: the
sign-extension only fills positions `32 - s` and above. -/
lemma sar32_nbit_low (v s i : Nat) (hi : i < 32 - s) : nbit (sar32 v s) i = nbit v (s + i) := by
  unfold sar32
  split
  · exact nbit_shiftRight v s i
  · rw [nbit_lor, nbit_shiftRight, nbit_shiftLeft, if_neg (by omega)]
    simp

lemma sar32_of_lt (v s : Nat) (h : v < 2 ^ 31) : sar32 v s = v >>> s := by
  unfold sar32
  rw [if_pos h]

lemma two_mul_add_mod (a r m : Nat) (hr : r ≤ 1) :
    (2 * a + r) % 2 ^ (m + 1) = 2 * (a % 2 ^ m) + r := by
  have hd := Nat.div_add_mod a (2 ^ m)
  have key : 2 * a + r = (2 * (a % 2 ^ m) + r) + 2 ^ (m + 1) * (a / 2 ^ m) := by
    rw [pow_succ]
    nlinarith [hd]
  rw [key, Nat.add_mul_mod_self_left]
  have hm : a % 2 ^ m < 2 ^ m := Nat.mod_lt _ (Nat.pos_pow_of_pos m (by norm_num))
  exact Nat.mod_eq_of_lt (by rw [pow_succ]; omega)

/-- Inside one byte, packed bits are a shifted slice of the byte. -/
lemma bitsVal_within_byte (buf : Buf) (B k : Nat) :
    ∀ m, k + m ≤ 8 → bitsVal buf (8 * B + k) m = (buf B >>> (8 - k - m)) % 2 ^ m := by
  intro m
  induction m with
  | zero => intro _; simp [bitsVal, Nat.mod_one]
  | succ m ih =>
    intro hm
    rw [bitsVal, ih (by omega)]
    have hdiv : (8 * B + k + m) / 8 = B := by omega
    have hmod : (8 * B + k + m) % 8 = k + m := by omega
    rw [bitAt_eq_nbit, hdiv, hmod]
    have h1 : 8 - k - m = (8 - k - (m + 1)) + 1 := by omega
    rw [h1, shiftRight_succ_decomp (buf B) (8 - k - (m + 1)),
      two_mul_add_mod _ _ _ (nbit_le_one _ _)]
    congr 2
    omega

/-- `get_bits` extracts exactly the packed value of the next `m` bits of
the current byte (for the in-range calls the source makes). -/
lemma get_bits_eq_bitsVal (buf : Buf) (c : BitCursorRead) (m : Nat)
    (hm : c.curBit.val + m ≤ 8) :
    get_bits buf c m = bitsVal buf c.pos m := by
  show (buf c.byteIdx >>> (8 - c.curBit.val - m)) &&& ((1 <<< m - 1) % 256) = _
  have hmask : (1 <<< m - 1) % 256 = 2 ^ m - 1 := by
    rw [Nat.shiftLeft_eq, Nat.one_mul]
    have : 2 ^ m - 1 < 256 := by
      have : 2 ^ m ≤ 2 ^ 8 := Nat.pow_le_pow_right (by norm_num) (by omega)
      norm_num at this ⊢
      omega
    exact Nat.mod_eq_of_lt this
  rw [hmask, Nat.and_pow_two_sub_one_eq_mod, BitCursorRead.pos,
    bitsVal_within_byte buf c.byteIdx c.curBit.val m hm]

/-- Full specification of the `bitWrite` loop body for `bits ≤ 32`:
the cursor advances by `bits`; the `bits` target positions (which must
hold zero bits, as after `memset`) receive the MSB-first bits of `value`;
every later position is untouched; and for `bits ≤ 31` (`value` then fits
in a nonnegative `int`, so the `>>` shifts are logical) every earlier
position is untouched as well. -/
lemma bitWriteAux_spec :
    ∀ (fuel bits v : Nat) (buf : Buf) (c : BitCursor),
      bits ≤ fuel → bits ≤ 32 → v < 2 ^ bits →
      (∀ j, j < bits → bitAt buf (c.pos + j) = 0) →
      (bitWriteAux fuel bits v buf c).2.pos = c.pos + bits ∧
      (∀ j, j < bits →
        bitAt (bitWriteAux fuel bits v buf c).1 (c.pos + j) = nbit v (bits - 1 - j)) ∧
      (∀ q, c.pos + bits ≤ q → bitAt (bitWriteAux fuel bits v buf c).1 q = bitAt buf q) ∧
      (bits ≤ 31 → ∀ q, q < c.pos → bitAt (bitWriteAux fuel bits v buf c).1 q = bitAt buf q) := by
  intro fuel
  induction fuel with
  | zero =>
    intro bits v buf c hf _ _ _
    have hb : bits = 0 := by omega
    subst hb
    exact ⟨by simp [bitWriteAux], by intro j hj; omega,
      fun q _ => by simp [bitWriteAux], fun _ q _ => by simp [bitWriteAux]⟩
  | succ fuel ih =>
    intro bits v buf c hf h32 hv h0
    rcases Nat.eq_zero_or_pos bits with rfl | hpos
    · exact ⟨by simp [bitWriteAux], by intro j hj; omega,
        fun q _ => by simp [bitWriteAux], fun _ q _ => by simp [bitWriteAux]⟩
    have hbne : ¬ bits = 0 := by omega
    have hk7 : c.curBit.val ≤ 7 := by have := c.curBit.isLt; omega
    have hcp : c.pos = 8 * c.byteIdx + c.curBit.val := rfl
    have h256 : (256 : Nat) = 2 ^ 8 := by norm_num
    by_cases hlt : bits < 8 - c.curBit.val
    · -- final (partial-byte) iteration
      have hres : bitWriteAux (fuel + 1) bits v buf c =
          (Function.update buf c.byteIdx
            ((buf c.byteIdx ||| shl32 v (8 - c.curBit.val - bits)) % 256),
           ⟨c.byteIdx, ⟨c.curBit.val + bits, by omega⟩⟩) := by
        simp only [bitWriteAux]
        rw [if_neg hbne, dif_pos hlt, dif_neg (show ¬ 8 ≤ c.curBit.val + bits by omega)]
      have hshl : shl32 v (8 - c.curBit.val - bits) = v <<< (8 - c.curBit.val - bits) := by
        apply Nat.mod_eq_of_lt
        rw [Nat.shiftLeft_eq]
        calc v * 2 ^ (8 - c.curBit.val - bits)
            < 2 ^ bits * 2 ^ (8 - c.curBit.val - bits) :=
              Nat.mul_lt_mul_of_lt_of_le hv (le_refl _) (Nat.pos_pow_of_pos _ (by norm_num))
          _ ≤ 2 ^ 8 := by
              rw [← pow_add]
              exact Nat.pow_le_pow_right (by norm_num) (by omega)
          _ < U32 := by norm_num [U32]
      rw [hres]
      refine ⟨?_, ?_, ?_, ?_⟩
      · show 8 * c.byteIdx + (c.curBit.val + bits) = c.pos + bits
        rw [hcp]
        omega
      · intro j hj
        rw [bitAt_update_eq, hcp]
        have hdiv : (8 * c.byteIdx + c.curBit.val + j) / 8 = c.byteIdx := by omega
        have hmod : (8 * c.byteIdx + c.curBit.val + j) % 8 = c.curBit.val + j := by omega
        rw [if_pos hdiv, hmod, h256, nbit_mod_two_pow (by omega), nbit_lor, hshl]
        have hz : nbit (buf c.byteIdx) (7 - (c.curBit.val + j)) = 0 := by
          have hb := h0 j hj
          rw [bitAt_eq_nbit, hcp, hdiv, hmod] at hb
          exact hb
        rw [hz, nbit_shiftLeft, if_pos (by omega)]
        have harg : 7 - (c.curBit.val + j) - (8 - c.curBit.val - bits) = bits - 1 - j := by omega
        rw [harg]
        simp
      · intro q hq
        rw [hcp] at hq
        rw [bitAt_update_eq]
        split
        · next hdiv =>
          have hq8 : c.curBit.val + bits ≤ q % 8 := by omega
          rw [h256, nbit_mod_two_pow (by omega), nbit_lor, hshl, nbit_shiftLeft,
            if_neg (by omega), bitAt_eq_nbit, hdiv]
          simp
        · rfl
      · intro _ q hq
        rw [hcp] at hq
        rw [bitAt_update_eq]
        split
        · next hdiv =>
          have hq8 : q % 8 < c.curBit.val := by omega
          rw [h256, nbit_mod_two_pow (by omega), nbit_lor, hshl, nbit_shiftLeft,
            if_pos (by omega), nbit_of_lt_two_pow hv (by omega), bitAt_eq_nbit, hdiv]
          simp
        · rfl
    · -- full-byte iteration followed by the recursive call
      have hL : 8 - c.curBit.val ≤ bits := by omega
      have hs31 : bits - (8 - c.curBit.val) ≤ 31 := by omega
      have hval : v &&& (shl32 1 (bits - (8 - c.curBit.val)) - 1) =
          v % 2 ^ (bits - (8 - c.curBit.val)) := by
        have hmask : shl32 1 (bits - (8 - c.curBit.val)) = 2 ^ (bits - (8 - c.curBit.val)) := by
          unfold shl32
          rw [Nat.shiftLeft_eq, Nat.one_mul]
          apply Nat.mod_eq_of_lt
          calc 2 ^ (bits - (8 - c.curBit.val)) ≤ 2 ^ 31 :=
                Nat.pow_le_pow_right (by norm_num) hs31
            _ < U32 := by norm_num [U32]
        rw [hmask, Nat.and_pow_two_sub_one_eq_mod]
      have hres : bitWriteAux (fuel + 1) bits v buf c =
          bitWriteAux fuel (bits - (8 - c.curBit.val)) (v % 2 ^ (bits - (8 - c.curBit.val)))
            (Function.update buf c.byteIdx
              ((buf c.byteIdx ||| sar32 v (bits - (8 - c.curBit.val))) % 256))
            ⟨c.byteIdx + 1, ⟨0, by omega⟩⟩ := by
        simp only [bitWriteAux]
        rw [if_neg hbne, dif_neg hlt, hval]
      have hpos' : (⟨c.byteIdx + 1, ⟨0, by omega⟩⟩ : BitCursor).pos = 8 * c.byteIdx + 8 := by
        show 8 * (c.byteIdx + 1) + 0 = 8 * c.byteIdx + 8
        omega
      have H0' : ∀ j, j < bits - (8 - c.curBit.val) →
          bitAt (Function.update buf c.byteIdx
              ((buf c.byteIdx ||| sar32 v (bits - (8 - c.curBit.val))) % 256))
            ((⟨c.byteIdx + 1, ⟨0, by omega⟩⟩ : BitCursor).pos + j) = 0 := by
        intro j hj
        rw [hpos', bitAt_update_eq, if_neg (by omega)]
        have hb := h0 ((8 - c.curBit.val) + j) (by omega)
        rw [hcp] at hb
        have harg : 8 * c.byteIdx + c.curBit.val + (8 - c.curBit.val + j) =
            8 * c.byteIdx + 8 + j := by omega
        rwa [harg] at hb
      obtain ⟨ihA, ihB, ihCf, ihCb⟩ :=
        ih (bits - (8 - c.curBit.val)) (v % 2 ^ (bits - (8 - c.curBit.val)))
          (Function.update buf c.byteIdx
            ((buf c.byteIdx ||| sar32 v (bits - (8 - c.curBit.val))) % 256))
          ⟨c.byteIdx + 1, ⟨0, by omega⟩⟩ (by omega) (by omega)
          (Nat.mod_lt _ (Nat.pos_pow_of_pos _ (by norm_num))) H0'
      rw [hres]
      refine ⟨?_, ?_, ?_, ?_⟩
      · rw [ihA, hpos', hcp]
        omega
      · intro j hj
        by_cases hjL : j < 8 - c.curBit.val
        · have hstop : c.pos + j < (⟨c.byteIdx + 1, ⟨0, by omega⟩⟩ : BitCursor).pos := by
            rw [hpos', hcp]
            omega
          rw [ihCb hs31 _ hstop, bitAt_update_eq, hcp]
          have hdiv : (8 * c.byteIdx + c.curBit.val + j) / 8 = c.byteIdx := by omega
          have hmod : (8 * c.byteIdx + c.curBit.val + j) % 8 = c.curBit.val + j := by omega
          rw [if_pos hdiv, hmod, h256, nbit_mod_two_pow (by omega), nbit_lor]
          have hz : nbit (buf c.byteIdx) (7 - (c.curBit.val + j)) = 0 := by
            have hb := h0 j hj
            rw [bitAt_eq_nbit, hcp, hdiv, hmod] at hb
            exact hb
          rw [hz, sar32_nbit_low v _ _ (by omega)]
          have harg : bits - (8 - c.curBit.val) + (7 - (c.curBit.val + j)) = bits - 1 - j := by
            omega
          rw [harg]
          simp
        · have hj' : j - (8 - c.curBit.val) < bits - (8 - c.curBit.val) := by omega
          have hb := ihB (j - (8 - c.curBit.val)) hj'
          have harg : (⟨c.byteIdx + 1, ⟨0, by omega⟩⟩ : BitCursor).pos +
              (j - (8 - c.curBit.val)) = c.pos + j := by
            rw [hpos', hcp]
            omega
          rw [harg] at hb
          rw [hb, nbit_mod_two_pow (by omega)]
          congr 1
          omega
      · intro q hq
        have hq' : (⟨c.byteIdx + 1, ⟨0, by omega⟩⟩ : BitCursor).pos +
            (bits - (8 - c.curBit.val)) ≤ q := by
          rw [hpos']
          rw [hcp] at hq
          omega
        rw [ihCf q hq', bitAt_update_eq, if_neg ?hne]
        case hne =>
          rw [hcp] at hq
          omega
      · intro h31 q hq
        have hv31 : v < 2 ^ 31 := lt_of_lt_of_le hv (Nat.pow_le_pow_right (by norm_num) h31)
        have hstop : q < (⟨c.byteIdx + 1, ⟨0, by omega⟩⟩ : BitCursor).pos := by
          rw [hpos']
          rw [hcp] at hq
          omega
        rw [ihCb hs31 q hstop, bitAt_update_eq]
        split
        · next hdiv =>
          have hq8 : q % 8 < c.curBit.val := by
            rw [hcp] at hq
            omega
          rw [h256, nbit_mod_two_pow (by omega), nbit_lor, sar32_of_lt v _ hv31,
            nbit_shiftRight, nbit_of_lt_two_pow hv (by omega), bitAt_eq_nbit, hdiv]
          simp
        · rfl

/-- Full specification of the `bitRead` loop: the cursor advances by
`bits` and the result appends the packed value of the `bits` positions at
the cursor to the accumulator (no wrap occurs while the total stays below
32 bits). -/
lemma bitReadAux_spec :
    ∀ (fuel bits : Nat) (buf : Buf) (c : BitCursorRead) (data : Nat),
      bits ≤ fuel → bits ≤ 32 → data < 2 ^ (32 - bits) →
      (bitReadAux fuel bits buf c data).1 = data * 2 ^ bits + bitsVal buf c.pos bits ∧
      (bitReadAux fuel bits buf c data).2.pos = c.pos + bits := by
  intro fuel
  induction fuel with
  | zero =>
    intro bits buf c data hf _ _
    have hb : bits = 0 := by omega
    subst hb
    exact ⟨by simp [bitReadAux, bitsVal], by simp [bitReadAux]⟩
  | succ fuel ih =>
    intro bits buf c data hf h32 hdata
    rcases Nat.eq_zero_or_pos bits with rfl | hpos
    · exact ⟨by simp [bitReadAux, bitsVal], by simp [bitReadAux]⟩
    have hbne : ¬ bits = 0 := by omega
    have hk7 : c.curBit.val ≤ 7 := by have := c.curBit.isLt; omega
    have hcp : c.pos = 8 * c.byteIdx + c.curBit.val := rfl
    by_cases hlt : bits < 8 - c.curBit.val
    · have hres : bitReadAux (fuel + 1) bits buf c data =
          (((data <<< bits) % U32) ||| get_bits buf c bits,
            ⟨c.byteIdx, ⟨c.curBit.val + bits, by omega⟩⟩) := by
        simp only [bitReadAux]
        rw [if_neg hbne, dif_pos hlt]
      rw [hres]
      constructor
      · show ((data <<< bits) % U32) ||| get_bits buf c bits = _
        have hmod : (data <<< bits) % U32 = data <<< bits := by
          apply Nat.mod_eq_of_lt
          rw [Nat.shiftLeft_eq]
          calc data * 2 ^ bits < 2 ^ (32 - bits) * 2 ^ bits :=
                Nat.mul_lt_mul_of_lt_of_le hdata (le_refl _) (Nat.pos_pow_of_pos _ (by norm_num))
            _ ≤ 2 ^ 32 := by
                rw [← pow_add]
                exact Nat.pow_le_pow_right (by norm_num) (by omega)
            _ = U32 := by norm_num [U32]
        rw [hmod, get_bits_eq_bitsVal buf c bits (by omega),
          ← mul_two_pow_add_eq_lor data _ bits (bitsVal_lt buf c.pos bits)]
      · show 8 * c.byteIdx + (c.curBit.val + bits) = c.pos + bits
        rw [hcp]
        omega
    · have hL : 8 - c.curBit.val ≤ bits := by omega
      have hres : bitReadAux (fuel + 1) bits buf c data =
          bitReadAux fuel (bits - (8 - c.curBit.val)) buf ⟨c.byteIdx + 1, ⟨0, by omega⟩⟩
            (((data <<< (8 - c.curBit.val)) % U32) ||| get_bits buf c (8 - c.curBit.val)) := by
        simp only [bitReadAux]
        rw [if_neg hbne, dif_neg hlt]
      rw [hres]
      have hbv := bitsVal_lt buf c.pos (8 - c.curBit.val)
      have hmod : (data <<< (8 - c.curBit.val)) % U32 = data <<< (8 - c.curBit.val) := by
        apply Nat.mod_eq_of_lt
        rw [Nat.shiftLeft_eq]
        calc data * 2 ^ (8 - c.curBit.val) < 2 ^ (32 - bits) * 2 ^ (8 - c.curBit.val) :=
              Nat.mul_lt_mul_of_lt_of_le hdata (le_refl _) (Nat.pos_pow_of_pos _ (by norm_num))
          _ ≤ 2 ^ 32 := by
              rw [← pow_add]
              exact Nat.pow_le_pow_right (by norm_num) (by omega)
          _ = U32 := by norm_num [U32]
      have hdata' : ((data <<< (8 - c.curBit.val)) % U32) ||| get_bits buf c (8 - c.curBit.val) =
          data * 2 ^ (8 - c.curBit.val) + bitsVal buf c.pos (8 - c.curBit.val) := by
        rw [hmod, get_bits_eq_bitsVal buf c _ (by omega),
          ← mul_two_pow_add_eq_lor data _ _ hbv]
      rw [hdata']
      have hbound : data * 2 ^ (8 - c.curBit.val) + bitsVal buf c.pos (8 - c.curBit.val) <
          2 ^ (32 - (bits - (8 - c.curBit.val))) := by
        have hstep : data * 2 ^ (8 - c.curBit.val) + bitsVal buf c.pos (8 - c.curBit.val) <
            (data + 1) * 2 ^ (8 - c.curBit.val) := by
          have h9 := Nat.add_lt_add_left hbv (data * 2 ^ (8 - c.curBit.val))
          calc data * 2 ^ (8 - c.curBit.val) + bitsVal buf c.pos (8 - c.curBit.val) <
              data * 2 ^ (8 - c.curBit.val) + 2 ^ (8 - c.curBit.val) := h9
            _ = (data + 1) * 2 ^ (8 - c.curBit.val) := by ring
        have hle : (data + 1) * 2 ^ (8 - c.curBit.val) ≤
            2 ^ (32 - bits) * 2 ^ (8 - c.curBit.val) :=
          Nat.mul_le_mul_right _ hdata
        have hpow : 2 ^ (32 - bits) * 2 ^ (8 - c.curBit.val) =
            2 ^ (32 - (bits - (8 - c.curBit.val))) := by
          rw [← pow_add]
          congr 1
          omega
        omega
      obtain ⟨ih1, ih2⟩ := ih (bits - (8 - c.curBit.val)) buf ⟨c.byteIdx + 1, ⟨0, by omega⟩⟩
        (data * 2 ^ (8 - c.curBit.val) + bitsVal buf c.pos (8 - c.curBit.val))
        (by omega) (by omega) hbound
      have hpos9 : (⟨c.byteIdx + 1, ⟨0, by omega⟩⟩ : BitCursorRead).pos =
          c.pos + (8 - c.curBit.val) := by
        show 8 * (c.byteIdx + 1) + 0 = _
        rw [hcp]
        omega
      constructor
      · rw [ih1, hpos9]
        have hsplit := bitsVal_split buf c.pos (8 - c.curBit.val) (bits - (8 - c.curBit.val))
        have hbits : (8 - c.curBit.val) + (bits - (8 - c.curBit.val)) = bits := by omega
        rw [hbits] at hsplit
        rw [hsplit]
        have hpow : 2 ^ (8 - c.curBit.val) * 2 ^ (bits - (8 - c.curBit.val)) = 2 ^ bits := by
          rw [← pow_add, hbits]
        calc (data * 2 ^ (8 - c.curBit.val) + bitsVal buf c.pos (8 - c.curBit.val)) *
              2 ^ (bits - (8 - c.curBit.val)) +
              bitsVal buf (c.pos + (8 - c.curBit.val)) (bits - (8 - c.curBit.val))
            = data * (2 ^ (8 - c.curBit.val) * 2 ^ (bits - (8 - c.curBit.val))) +
              (bitsVal buf c.pos (8 - c.curBit.val) * 2 ^ (bits - (8 - c.curBit.val)) +
                bitsVal buf (c.pos + (8 - c.curBit.val)) (bits - (8 - c.curBit.val))) := by
              ring
          _ = _ := by rw [hpow]
      · rw [ih2, hpos9]
        omega

/-- C6: writing `v < 2^n` with `bitWrite` (`0 ≤ n ≤ 32`) at any cursor of a
pre-zeroed buffer and reading `n` bits back from the same start with
`bitRead` returns `v`; both cursors advance forward by exactly `n` bits,
crossing byte boundaries as needed, and `n = 0` is a no-op that leaves the
cursor (and the buffer) unchanged. -/
theorem C6_bit_roundtrip (n v B : Nat) (k : Fin 8) (hn : n ≤ 32) (hv : v < 2 ^ n) :
    (bitRead n (bitWrite n v zeroBuf ⟨B, k⟩).1 ⟨B, k⟩).1 = v ∧
    (bitWrite n v zeroBuf ⟨B, k⟩).2.pos = (8 * B + k.val) + n ∧
    (bitRead n (bitWrite n v zeroBuf ⟨B, k⟩).1 ⟨B, k⟩).2.pos = (8 * B + k.val) + n ∧
    (n = 0 → bitWrite n v zeroBuf ⟨B, k⟩ = (zeroBuf, ⟨B, k⟩) ∧
      (bitRead n (bitWrite n v zeroBuf ⟨B, k⟩).1 ⟨B, k⟩).2 = ⟨B, k⟩) := by
  obtain ⟨wA, wB, _, _⟩ := bitWriteAux_spec n n v zeroBuf ⟨B, k⟩ le_rfl hn hv
    (fun j _ => bitAt_zeroBuf _)
  obtain ⟨rA, rB⟩ := bitReadAux_spec n n (bitWrite n v zeroBuf ⟨B, k⟩).1 ⟨B, k⟩ 0 le_rfl hn
    (Nat.pos_pow_of_pos _ (by norm_num))
  refine ⟨?_, wA, rB, ?_⟩
  · show (bitReadAux n n (bitWrite n v zeroBuf ⟨B, k⟩).1 ⟨B, k⟩ 0).1 = v
    rw [rA, Nat.zero_mul, Nat.zero_add]
    exact bitsVal_eq_of_bits hv wB
  · intro hn0
    subst hn0
    exact ⟨rfl, rfl⟩

/-- Witness for C6: a concrete 12-bit value written at byte 3, bit offset
5 (crossing a byte boundary). -/
theorem C6_witness :
    (bitRead 12 (bitWrite 12 2748 zeroBuf ⟨3, 5⟩).1 ⟨3, 5⟩).1 = 2748 ∧
    (bitWrite 12 2748 zeroBuf ⟨3, 5⟩).2.pos = (8 * 3 + (5 : Fin 8).val) + 12 ∧
    (bitRead 12 (bitWrite 12 2748 zeroBuf ⟨3, 5⟩).1 ⟨3, 5⟩).2.pos = (8 * 3 + (5 : Fin 8).val) + 12 ∧
    (12 = 0 → bitWrite 12 2748 zeroBuf ⟨3, 5⟩ = (zeroBuf, ⟨3, 5⟩) ∧
      (bitRead 12 (bitWrite 12 2748 zeroBuf ⟨3, 5⟩).1 ⟨3, 5⟩).2 = ⟨3, 5⟩) :=
  C6_bit_roundtrip 12 2748 3 5 (by norm_num) (by norm_num)

/-! ## Frequency counting: `count_chars` -/

lemma count_chars_step_freq (s : CountState) (x c : Byte) :
    (count_chars_step s x).char_frequency c =
      if x = c then (s.char_frequency c + 1) % U32 else s.char_frequency c := by
  rcases eq_or_ne x c with rfl | h
  · simp [count_chars_step]
  · simp [count_chars_step, Function.update_noteq (Ne.symm h), h]

lemma count_chars_step_freq_lt (s : CountState) (x : Byte)
    (hs : ∀ c, s.char_frequency c < U32) :
    ∀ c, (count_chars_step s x).char_frequency c < U32 := by
  intro c
  rw [count_chars_step_freq]
  split
  · exact Nat.mod_lt _ (by norm_num [U32])
  · exact hs c

lemma count_chars_loop_freq :
    ∀ (b : List Byte) (s : CountState), (∀ c, s.char_frequency c < U32) →
      ∀ c, (List.foldl count_chars_step s b).char_frequency c =
        (s.char_frequency c + b.count c) % U32 := by
  intro b
  induction b with
  | nil =>
    intro s hs c
    simpa using (Nat.mod_eq_of_lt (hs c)).symm
  | cons x xs ih =>
    intro s hs c
    rw [List.foldl_cons, ih _ (count_chars_step_freq_lt s x hs) c, count_chars_step_freq,
      List.count_cons]
    rcases eq_or_ne x c with rfl | h
    · simp only [if_pos rfl, beq_self_eq_true, if_pos]
      rw [Nat.mod_add_mod]
      congr 1
      omega
    · simp only [if_neg h, beq_iff_eq, Ne.symm h, if_neg, ite_false]
      congr 1

/-- On the fly, `count_chars` keeps `max_freq` equal to the supremum of the
accumulating table, provided no 32-bit wrap can occur. -/
lemma sup_update_of_le (f : Byte → Nat) (b : Byte) (v : Nat) (hv : f b ≤ v) :
    Finset.univ.sup (Function.update f b v) = max (Finset.univ.sup f) v := by
  have hb : Function.update f b v b ≤ Finset.univ.sup (Function.update f b v) :=
    Finset.le_sup (Finset.mem_univ b)
  rw [Function.update_same] at hb
  apply le_antisymm
  · refine Finset.sup_le fun c _ => ?_
    rcases eq_or_ne c b with rfl | h
    · rw [Function.update_same]
      exact le_max_right _ _
    · rw [Function.update_noteq h]
      exact le_max_of_le_left (Finset.le_sup (Finset.mem_univ c))
  · refine max_le (Finset.sup_le fun c _ => ?_) hb
    rcases eq_or_ne c b with rfl | h
    · exact le_trans hv hb
    · have hc : Function.update f b v c ≤ Finset.univ.sup (Function.update f b v) :=
        Finset.le_sup (Finset.mem_univ c)
      rwa [Function.update_noteq h] at hc

lemma count_chars_loop_max :
    ∀ (b : List Byte) (s : CountState), (∀ c, s.char_frequency c + b.count c < U32) →
      s.max_freq = Finset.univ.sup s.char_frequency →
      (List.foldl count_chars_step s b).max_freq =
        Finset.univ.sup (List.foldl count_chars_step s b).char_frequency := by
  intro b
  induction b with
  | nil => intro s _ h; simpa using h
  | cons x xs ih =>
    intro s hs hmax
    rw [List.foldl_cons]
    have hx : (s.char_frequency x + 1) % U32 = s.char_frequency x + 1 := by
      have h2 := hs x
      rw [List.count_cons, beq_self_eq_true, if_pos rfl] at h2
      exact Nat.mod_eq_of_lt (by omega)
    refine ih _ (fun c => ?_) ?_
    · rw [count_chars_step_freq]
      have h1 := hs c
      rw [List.count_cons] at h1
      split
      · next heq =>
        subst heq
        rw [beq_self_eq_true, if_pos rfl] at h1
        rw [Nat.mod_eq_of_lt (by omega)]
        omega
      · next heq =>
        rw [if_neg (fun hh => heq (eq_of_beq hh))] at h1
        omega
    · show (if s.max_freq < (s.char_frequency x + 1) % U32 then (s.char_frequency x + 1) % U32
          else s.max_freq) = _
      rw [hx]
      have : (count_chars_step s x).char_frequency =
          Function.update s.char_frequency x (s.char_frequency x + 1) := by
        funext c
        rw [count_chars_step_freq]
        rcases eq_or_ne x c with rfl | h
        · simp [hx]
        · simp [Function.update_noteq (Ne.symm h), h]
      rw [this, sup_update_of_le _ _ _ (Nat.le_succ _), ← hmax]
      split <;> omega

/-- C8, as stated, is false: `count_chars` does not reset the previous
count state — with a prior count of 1 for byte 0, counting the input `[0]`
leaves `char_frequency[0] = 2`, not the occurrence count 1. -/
theorem C8_counterexample :
    (count_chars [(0 : Byte)]
        { char_frequency := Function.update (fun _ => 0) (0 : Byte) 1, max_freq := 0 }).char_frequency
        (0 : Byte) ≠ ([(0 : Byte)] : List Byte).count (0 : Byte) := by
  decide

/-- C8 (amended): `count_chars` accumulates on top of the prior count
state, `char_frequency[c] = (prior[c] + occurrences of c) mod 2^32`; only
`max_freq` is reset.  When the prior state is zero (a fresh codec) and the
input is shorter than `2^32`, the table is exactly the occurrence counts
and `max_freq` is their maximum. -/
theorem C8_count_chars_amended (b : List Byte) (st : CountState)
    (hlt : ∀ c, st.char_frequency c < U32) :
    (∀ c, (count_chars b st).char_frequency c = (st.char_frequency c + b.count c) % U32) ∧
    ((∀ c, st.char_frequency c = 0) → b.length < U32 →
      (∀ c, (count_chars b st).char_frequency c = b.count c) ∧
      (count_chars b st).max_freq = Finset.univ.sup fun c => b.count c) := by
  constructor
  · intro c
    exact count_chars_loop_freq b { st with max_freq := 0 } hlt c
  · intro h0 hlen
    have hexact : ∀ c, (count_chars b st).char_frequency c = b.count c := by
      intro c
      have h : (count_chars b st).char_frequency c = (st.char_frequency c + b.count c) % U32 :=
        count_chars_loop_freq b { st with max_freq := 0 } hlt c
      rw [h, h0 c, Nat.zero_add]
      exact Nat.mod_eq_of_lt (lt_of_le_of_lt (List.count_le_length c b) hlen)
    refine ⟨hexact, ?_⟩
    have hmax := count_chars_loop_max b { st with max_freq := 0 }
      (fun c => by
        show st.char_frequency c + b.count c < U32
        rw [h0 c, Nat.zero_add]
        exact lt_of_le_of_lt (List.count_le_length c b) hlen)
      (by
        show (0 : Nat) = _
        have hz : st.char_frequency = fun _ => 0 := funext h0
        show (0 : Nat) = Finset.univ.sup st.char_frequency
        rw [hz]
        exact le_antisymm (Nat.zero_le _) (Finset.sup_le fun c _ => le_refl 0))
    rw [show count_chars b st = List.foldl count_chars_step { st with max_freq := 0 } b from rfl,
      hmax]
    congr 1
    funext c
    exact hexact c

/-- Witness for C8: a concrete application, prior state zero except for a
stale `max_freq`, input two copies of byte 5. -/
theorem C8_witness :
    (∀ c, (count_chars ([5, 5] : List Byte)
        { char_frequency := (fun _ => 0), max_freq := 7 }).char_frequency c =
      (({ char_frequency := (fun _ => 0), max_freq := 7 } : CountState).char_frequency c +
        ([5, 5] : List Byte).count c) % U32) ∧
    ((∀ c, ({ char_frequency := (fun _ => 0), max_freq := 7 } : CountState).char_frequency c = 0) →
      ([5, 5] : List Byte).length < U32 →
      (∀ c, (count_chars ([5, 5] : List Byte)
          { char_frequency := (fun _ => 0), max_freq := 7 }).char_frequency c =
        ([5, 5] : List Byte).count c) ∧
      (count_chars ([5, 5] : List Byte)
          { char_frequency := (fun _ => 0), max_freq := 7 }).max_freq =
        Finset.univ.sup fun c => ([5, 5] : List Byte).count c) :=
  C8_count_chars_amended [5, 5] { char_frequency := (fun _ => 0), max_freq := 7 }
    (fun _ => by norm_num [U32])

/-! ## Claim C4: the radix sorter -/

lemma digitOf_lt_ten (freq : Byte → Nat) (r : Nat) (c : Byte) : digitOf freq r c < 10 :=
  Nat.mod_lt _ (by norm_num)

/-- Read `len` consecutive cells of a scatter output array. -/
def readRange (out : Nat → Byte) (start len : Nat) : List Byte :=
  (List.range len).map (fun i => out (start + i))

lemma readRange_zero (out : Nat → Byte) (start : Nat) : readRange out start 0 = [] := rfl

lemma readRange_succ (out : Nat → Byte) (start n : Nat) :
    readRange out start (n + 1) = out start :: readRange out (start + 1) n := by
  unfold readRange
  rw [List.range_succ_eq_map, List.map_cons, List.map_map, Nat.add_zero]
  congr 1
  apply List.map_congr_left
  intro i _
  show out (start + (i + 1)) = out (start + 1 + i)
  congr 1
  omega

lemma readRange_add (out : Nat → Byte) (start m : Nat) :
    ∀ n, readRange out start (m + n) = readRange out start m ++ readRange out (start + m) n := by
  induction m generalizing start with
  | zero => intro n; simp [readRange_zero]
  | succ m ih =>
    intro n
    have h1 : m + 1 + n = (m + n) + 1 := by omega
    rw [h1, readRange_succ, readRange_succ, ih (start + 1) n, List.cons_append]
    have h2 : start + 1 + m = start + (m + 1) := by omega
    rw [h2]

/-- The key ordering established after `r` radix passes: ascending
frequency truncated to the low `r` decimal digits, ties by byte value. -/
def radixKeyLE (freq : Byte → Nat) (r : Nat) (a b : Byte) : Prop :=
  freq a % 10 ^ r < freq b % 10 ^ r ∨
    (freq a % 10 ^ r = freq b % 10 ^ r ∧ a.val ≤ b.val)

/-- Modelled from the spec (§4.2 contract): byte values ordered by
ascending frequency, ties broken by ascending byte value. -/
def specLeafOrder (freq : Byte → Nat) (a b : Byte) : Prop :=
  freq a < freq b ∨ (freq a = freq b ∧ a.val ≤ b.val)

instance specLeafOrderDec (freq : Byte → Nat) : DecidableRel (specLeafOrder freq) := fun a b => by
  unfold specLeafOrder
  infer_instance

/-- Modelled from the spec (§4.2 contract): the byte values with nonzero
frequency, in ascending (frequency, byte value) order, as leaf nodes. -/
def specSortedLeaves (freq : Byte → Nat) : List HTree :=
  (List.insertionSort (specLeafOrder freq)
      ((List.finRange 256).filter (fun c => 0 < freq c))).map
    (fun c => HTree.leaf c (freq c))

/-- The scatter loop of `sort_radix`, run from any offset table whose
digit regions are separated widely enough, fills the region of each digit
with that digit's elements in input order, leaves other cells alone, and
ends with each offset advanced past its region. -/
lemma scatter_spec (freq : Byte → Nat) (r : Nat) :
    ∀ (rest : List Byte) (off : Nat → Nat) (out : Nat → Byte),
      (∀ d1 d2, d1 < d2 →
        off d1 + (rest.filter (fun c => digitOf freq r c == d1)).length ≤ off d2) →
      (∀ d, (rest.foldl (scatter_step freq r) (off, out)).1 d =
        off d + (rest.filter (fun c => digitOf freq r c == d)).length) ∧
      (∀ d, readRange (rest.foldl (scatter_step freq r) (off, out)).2 (off d)
          (rest.filter (fun c => digitOf freq r c == d)).length =
        rest.filter (fun c => digitOf freq r c == d)) ∧
      (∀ q, (∀ d, d < 10 →
          ¬(off d ≤ q ∧ q < off d + (rest.filter (fun c => digitOf freq r c == d)).length)) →
        (rest.foldl (scatter_step freq r) (off, out)).2 q = out q) := by
  intro rest
  induction rest with
  | nil =>
    intro off out _
    refine ⟨fun d => by simp, fun d => by simp [readRange_zero], fun q _ => rfl⟩
  | cons x xs ih =>
    intro off out hsep
    have hkey : digitOf freq r x < 10 := digitOf_lt_ten freq r x
    have hfilter : ∀ d, ((x :: xs).filter (fun c => digitOf freq r c == d)) =
        if digitOf freq r x = d then x :: xs.filter (fun c => digitOf freq r c == d)
        else xs.filter (fun c => digitOf freq r c == d) := by
      intro d
      rw [List.filter_cons]
      rcases eq_or_ne (digitOf freq r x) d with h | h
      · rw [if_pos h, if_pos (by simpa using h)]
      · rw [if_neg h, if_neg (by simpa using h)]
    have hstep : (x :: xs).foldl (scatter_step freq r) (off, out) =
        xs.foldl (scatter_step freq r)
          (Function.update off (digitOf freq r x) (off (digitOf freq r x) + 1),
           Function.update out (off (digitOf freq r x)) x) := rfl
    set s := digitOf freq r x with hs
    have hlen_s : ((x :: xs).filter (fun c => digitOf freq r c == s)).length =
        (xs.filter (fun c => digitOf freq r c == s)).length + 1 := by
      rw [hfilter s, if_pos rfl, List.length_cons]
    have hlen_ne : ∀ d, d ≠ s → ((x :: xs).filter (fun c => digitOf freq r c == d)).length =
        (xs.filter (fun c => digitOf freq r c == d)).length := by
      intro d hd
      rw [hfilter d, if_neg (fun h => hd h.symm)]
    have hsep' : ∀ d1 d2, d1 < d2 →
        Function.update off s (off s + 1) d1 +
          (xs.filter (fun c => digitOf freq r c == d1)).length ≤
        Function.update off s (off s + 1) d2 := by
      intro d1 d2 hd
      rcases eq_or_ne d1 s with rfl | h1
      · rw [Function.update_same, Function.update_noteq (by omega)]
        have hyp := hsep s d2 hd
        rw [hlen_s] at hyp
        omega
      · rw [Function.update_noteq h1]
        rcases eq_or_ne d2 s with rfl | h2
        · rw [Function.update_same]
          have hyp := hsep d1 s hd
          rw [hlen_ne d1 h1] at hyp
          omega
        · rw [Function.update_noteq h2]
          have hyp := hsep d1 d2 hd
          rw [hlen_ne d1 h1] at hyp
          omega
    obtain ⟨ihA, ihB, ihC⟩ := ih (Function.update off s (off s + 1))
      (Function.update out (off s) x) hsep'
    have huntouched : (xs.foldl (scatter_step freq r)
        (Function.update off s (off s + 1), Function.update out (off s) x)).2 (off s) =
        Function.update out (off s) x (off s) := by
      apply ihC
      intro d hd10
      rcases eq_or_ne d s with rfl | hne
      · rw [Function.update_same]
        omega
      · rw [Function.update_noteq hne]
        rcases Nat.lt_or_ge d s with hlt | hge
        · have hyp := hsep d s hlt
          rw [hlen_ne d hne] at hyp
          omega
        · have hgt : s < d := by omega
          have hyp := hsep s d hgt
          rw [hlen_s] at hyp
          omega
    refine ⟨?_, ?_, ?_⟩
    · intro d
      rw [hstep, ihA d]
      rcases eq_or_ne d s with rfl | hne
      · rw [Function.update_same, hlen_s]
        omega
      · rw [Function.update_noteq hne, hlen_ne d hne]
    · intro d
      rw [hstep]
      rcases eq_or_ne d s with rfl | hne
      · rw [hfilter s, if_pos rfl, List.length_cons, readRange_succ]
        have hB := ihB s
        rw [Function.update_same] at hB
        rw [hB, huntouched, Function.update_same]
      · rw [hfilter d, if_neg (fun h => hne h.symm)]
        have hB := ihB d
        rw [Function.update_noteq hne] at hB
        exact hB
    · intro q hq
      rw [hstep]
      have hqs : q ≠ off s := by
        have hyp := hq s hkey
        rw [hlen_s] at hyp
        omega
      rw [ihC q ?cond, Function.update_noteq hqs]
      case cond =>
        intro d hd10
        rcases eq_or_ne d s with rfl | hne
        · rw [Function.update_same]
          have hyp := hq s hd10
          rw [hlen_s] at hyp
          omega
        · rw [Function.update_noteq hne]
          have hyp := hq d hd10
          rw [hlen_ne d hne] at hyp
          omega

lemma sum_range_single (k v : Nat) : ∀ n,
    ((List.range n).map (fun d => if d = k then v else 0)).sum = if k < n then v else 0 := by
  intro n
  induction n with
  | zero => simp
  | succ n ih =>
    rw [List.range_succ, List.map_append, List.sum_append, ih]
    rcases Nat.lt_trichotomy k n with h | h | h
    · rw [if_pos h, if_pos (by omega), List.map_singleton, List.sum_singleton, if_neg (by omega)]
      omega
    · subst h
      rw [if_neg (by omega), if_pos (by omega), List.map_singleton, List.sum_singleton, if_pos rfl]
      omega
    · rw [if_neg (by omega), if_neg (by omega), List.map_singleton, List.sum_singleton,
        if_neg (by omega)]

/-- Bucketing by digit is a permutation of the input. -/
lemma flatMap_filter_perm (freq : Byte → Nat) (r : Nat) (arr : List Byte) :
    ((List.range 10).flatMap fun d => arr.filter (fun c => digitOf freq r c == d)).Perm arr := by
  rw [List.perm_iff_count]
  intro a
  have hcount : ∀ (dl : List Nat),
      List.count a (dl.flatMap fun d => arr.filter (fun c => digitOf freq r c == d)) =
        ((dl.map fun d => List.count a (arr.filter (fun c => digitOf freq r c == d))).sum) := by
    intro dl
    induction dl with
    | nil => simp
    | cons x xs ih => simp [List.flatMap_cons, List.count_append, ih]
  rw [hcount]
  have hfc : ∀ d, List.count a (arr.filter (fun c => digitOf freq r c == d)) =
      if d = digitOf freq r a then List.count a arr else 0 := by
    intro d
    rcases eq_or_ne d (digitOf freq r a) with rfl | hne
    · rw [if_pos rfl]
      exact List.count_filter (beq_self_eq_true _)
    · rw [if_neg hne]
      rw [List.count_eq_zero]
      intro hmem
      have hbeq := List.of_mem_filter hmem
      exact hne (eq_of_beq hbeq).symm
  have hmapc : (List.range 10).map
      (fun d => List.count a (arr.filter (fun c => digitOf freq r c == d))) =
      (List.range 10).map (fun d => if d = digitOf freq r a then List.count a arr else 0) := by
    apply List.map_congr_left
    intro d _
    exact hfc d
  rw [hmapc, sum_range_single, if_pos (digitOf_lt_ten freq r a)]

/-- Congruence for `flatMap`. -/
lemma flatMap_congr {f g : Nat → List Byte} :
    ∀ (l : List Nat), (∀ x ∈ l, f x = g x) → l.flatMap f = l.flatMap g := by
  intro l
  induction l with
  | nil => intro _; rfl
  | cons x xs ih =>
    intro h
    rw [List.flatMap_cons, List.flatMap_cons, h x (by simp), ih (fun y hy => h y (by simp [hy]))]

/-- One radix pass equals stable bucketing by the digit: digit buckets in
digit order, each preserving the input order. -/
lemma sort_radix_eq_flatMap (freq : Byte → Nat) (r : Nat) (arr : List Byte) :
    sort_radix freq r arr =
      (List.range 10).flatMap fun d => arr.filter (fun c => digitOf freq r c == d) := by
  have hoff0 : ∀ d, (((List.range (d + 1)).map
      (fun d => (arr.filter (fun c => digitOf freq r c == d)).length)).sum) =
      (((List.range d).map
        (fun d => (arr.filter (fun c => digitOf freq r c == d)).length)).sum) +
        (arr.filter (fun c => digitOf freq r c == d)).length := by
    intro d
    rw [List.range_succ, List.map_append, List.sum_append, List.map_singleton,
      List.sum_singleton]
  have hmono : ∀ b a, a ≤ b →
      ((List.range a).map (fun d => (arr.filter (fun c => digitOf freq r c == d)).length)).sum ≤
      ((List.range b).map (fun d => (arr.filter (fun c => digitOf freq r c == d)).length)).sum := by
    intro b
    induction b with
    | zero =>
      intro a ha
      have h0 : a = 0 := by omega
      subst h0
      exact le_refl _
    | succ b ihb =>
      intro a ha
      rcases Nat.lt_or_ge a (b + 1) with h | h
      · have h2 := hoff0 b
        have h3 := ihb a (by omega)
        omega
      · have h0 : a = b + 1 := by omega
        subst h0
        exact le_refl _
  have hsep : ∀ d1 d2, d1 < d2 →
      ((List.range d1).map (fun d => (arr.filter (fun c => digitOf freq r c == d)).length)).sum +
        (arr.filter (fun c => digitOf freq r c == d1)).length ≤
      ((List.range d2).map (fun d => (arr.filter (fun c => digitOf freq r c == d)).length)).sum := by
    intro d1 d2 hd
    have h1 := hoff0 d1
    have h2 := hmono d2 (d1 + 1) (by omega)
    omega
  obtain ⟨hA, hB, _⟩ := scatter_spec freq r arr
    (fun d => ((List.range d).map
      (fun d => (arr.filter (fun c => digitOf freq r c == d)).length)).sum)
    (fun _ => 0) hsep
  have hlenflat : ((List.range 10).flatMap
      fun d => arr.filter (fun c => digitOf freq r c == d)).length = arr.length :=
    (flatMap_filter_perm freq r arr).length_eq
  have hlen10 : ((List.range 10).map
      (fun d => (arr.filter (fun c => digitOf freq r c == d)).length)).sum = arr.length := by
    rw [List.length_flatMap] at hlenflat
    exact hlenflat
  have hconsec : ∀ k, ((List.range k).flatMap fun d =>
      readRange (arr.foldl (scatter_step freq r)
          ((fun d => ((List.range d).map
            (fun d => (arr.filter (fun c => digitOf freq r c == d)).length)).sum),
           fun _ => 0)).2
        (((List.range d).map
          (fun d => (arr.filter (fun c => digitOf freq r c == d)).length)).sum)
        (arr.filter (fun c => digitOf freq r c == d)).length) =
      readRange (arr.foldl (scatter_step freq r)
          ((fun d => ((List.range d).map
            (fun d => (arr.filter (fun c => digitOf freq r c == d)).length)).sum),
           fun _ => 0)).2 0
        (((List.range k).map
          (fun d => (arr.filter (fun c => digitOf freq r c == d)).length)).sum) := by
    intro k
    induction k with
    | zero => simp [readRange_zero]
    | succ k ihk =>
      rw [hoff0 k, List.range_succ, List.flatMap_append, ihk, readRange_add]
      simp
  show (List.range arr.length).map (arr.foldl (scatter_step freq r)
      ((fun d => ((List.range d).map
        (fun d => (arr.filter (fun c => digitOf freq r c == d)).length)).sum),
       fun _ => 0)).2 = _
  have hread : (List.range arr.length).map
      (arr.foldl (scatter_step freq r)
        ((fun d => ((List.range d).map
          (fun d => (arr.filter (fun c => digitOf freq r c == d)).length)).sum),
         fun _ => 0)).2 =
      readRange (arr.foldl (scatter_step freq r)
        ((fun d => ((List.range d).map
          (fun d => (arr.filter (fun c => digitOf freq r c == d)).length)).sum),
         fun _ => 0)).2 0 arr.length := by
    unfold readRange
    apply List.map_congr_left
    intro i _
    rw [Nat.zero_add]
  rw [hread, ← hlen10, ← hconsec 10]
  exact flatMap_congr (List.range 10) (fun d _ => hB d)

lemma mod_pow_succ_digit (freq : Byte → Nat) (r : Nat) (c : Byte) :
    freq c % 10 ^ (r + 1) = freq c % 10 ^ r + 10 ^ r * digitOf freq r c :=
  Nat.mod_pow_succ

/-- One radix pass on an array sorted by the low `r` decimal digits of the
frequencies (ties by byte value) yields an array sorted by the low `r+1`
digits, and permutes its input — the stability argument. -/
lemma sort_radix_sorted (freq : Byte → Nat) (r : Nat) (arr : List Byte)
    (hsort : arr.Pairwise (radixKeyLE freq r)) :
    (sort_radix freq r arr).Pairwise (radixKeyLE freq (r + 1)) ∧
    (sort_radix freq r arr).Perm arr := by
  rw [sort_radix_eq_flatMap]
  refine ⟨?_, flatMap_filter_perm freq r arr⟩
  have hwithin : ∀ d,
      (arr.filter (fun c => digitOf freq r c == d)).Pairwise (radixKeyLE freq (r + 1)) := by
    intro d
    have hp : (arr.filter (fun c => digitOf freq r c == d)).Pairwise (radixKeyLE freq r) :=
      List.Pairwise.filter _ hsort
    refine hp.imp_of_mem ?_
    intro a b ha hb hab
    have hba := List.of_mem_filter ha
    have hbb := List.of_mem_filter hb
    have hda : digitOf freq r a = d := eq_of_beq hba
    have hdb : digitOf freq r b = d := eq_of_beq hbb
    unfold radixKeyLE at hab ⊢
    rw [mod_pow_succ_digit freq r a, mod_pow_succ_digit freq r b, hda, hdb]
    rcases hab with h | ⟨h1, h2⟩
    · left
      omega
    · right
      exact ⟨by omega, h2⟩
  have hcross : ∀ d1 d2, d1 < d2 → ∀ a ∈ arr.filter (fun c => digitOf freq r c == d1),
      ∀ b ∈ arr.filter (fun c => digitOf freq r c == d2), radixKeyLE freq (r + 1) a b := by
    intro d1 d2 hd a ha b hb
    have hba := List.of_mem_filter ha
    have hbb := List.of_mem_filter hb
    have hda : digitOf freq r a = d1 := eq_of_beq hba
    have hdb : digitOf freq r b = d2 := eq_of_beq hbb
    left
    rw [mod_pow_succ_digit freq r a, mod_pow_succ_digit freq r b, hda, hdb]
    have hma : freq a % 10 ^ r < 10 ^ r := Nat.mod_lt _ (Nat.pos_pow_of_pos _ (by norm_num))
    have hmul : 10 ^ r * (d1 + 1) ≤ 10 ^ r * d2 := Nat.mul_le_mul_left _ (by omega)
    have hdist : 10 ^ r * (d1 + 1) = 10 ^ r * d1 + 10 ^ r := by ring
    omega
  have hgen : ∀ (dl : List Nat), dl.Pairwise (· < ·) →
      (dl.flatMap fun d => arr.filter (fun c => digitOf freq r c == d)).Pairwise
        (radixKeyLE freq (r + 1)) := by
    intro dl
    induction dl with
    | nil => intro _; simp
    | cons d ds ih =>
      intro hdl
      rw [List.flatMap_cons, List.pairwise_append]
      refine ⟨hwithin d, ih (List.Pairwise.of_cons hdl), ?_⟩
      intro a ha b hb
      rw [List.mem_flatMap] at hb
      obtain ⟨d2, hd2, hb2⟩ := hb
      exact hcross d d2 (List.rel_of_pairwise_cons hdl hd2) a ha b hb2
  exact hgen (List.range 10) (List.pairwise_lt_range 10)

set_option maxRecDepth 4000 in
/-- The full pass loop: after `n` radix passes the working array is a
permutation of the 256 byte values sorted by their low `n` decimal digits,
ties by byte value. -/
lemma sort_chars_fold_spec (freq : Byte → Nat) : ∀ n,
    ((List.range n).foldl (fun arr i => sort_radix freq i arr) (List.finRange 256)).Pairwise
      (radixKeyLE freq n) ∧
    ((List.range n).foldl (fun arr i => sort_radix freq i arr) (List.finRange 256)).Perm
      (List.finRange 256) := by
  intro n
  induction n with
  | zero =>
    constructor
    · refine (List.pairwise_lt_finRange 256).imp ?_
      intro a b hab
      right
      constructor
      · rw [pow_zero, Nat.mod_one, Nat.mod_one]
      · have hv : a.val < b.val := hab
        omega
    · exact List.Perm.refl _
  | succ n ih =>
    rw [List.range_succ, List.foldl_append]
    obtain ⟨ihs, ihp⟩ := ih
    obtain ⟨hs, hp⟩ := sort_radix_sorted freq n _ ihs
    exact ⟨hs, hp.trans ihp⟩

set_option maxRecDepth 4000 in
/-- Under digit coverage, the radix sorter realises exactly the ascending
(frequency, byte value) order of the nonzero-frequency characters. -/
lemma sort_chars_eq_spec (freq : Byte → Nat) (max_freq : Nat)
    (hle : ∀ c, freq c ≤ max_freq)
    (hcov : max_freq ≤ 1 ∨ ∀ c, freq c < 10 ^ ceil_log10 max_freq) :
    sort_chars freq max_freq = specSortedLeaves freq ++ [sentinel_leaf] := by
  haveI hanti : IsAntisymm Byte (specLeafOrder freq) := ⟨by
    intro a b hab hba
    unfold specLeafOrder at hab hba
    apply Fin.ext
    rcases hab with h | ⟨h1, h2⟩ <;> rcases hba with h' | ⟨h1', h2'⟩ <;> omega⟩
  haveI htotal : IsTotal Byte (specLeafOrder freq) := ⟨by
    intro a b
    unfold specLeafOrder
    rcases Nat.lt_trichotomy (freq a) (freq b) with h | h | h
    · exact Or.inl (Or.inl h)
    · rcases Nat.le_total a.val b.val with h2 | h2
      · exact Or.inl (Or.inr ⟨h, h2⟩)
      · exact Or.inr (Or.inr ⟨h.symm, h2⟩)
    · exact Or.inr (Or.inl h)⟩
  haveI htrans : IsTrans Byte (specLeafOrder freq) := ⟨by
    intro a b c hab hbc
    unfold specLeafOrder at hab hbc ⊢
    rcases hab with h | ⟨h1, h2⟩ <;> rcases hbc with h' | ⟨h1', h2'⟩
    · left; omega
    · left; omega
    · left; omega
    · right; exact ⟨by omega, by omega⟩⟩
  have key : ((List.range (ceil_log10 max_freq)).foldl (fun arr i => sort_radix freq i arr)
      (List.finRange 256)).filter (fun c => 0 < freq c) =
      List.insertionSort (specLeafOrder freq)
        ((List.finRange 256).filter (fun c => 0 < freq c)) := by
    have hsorted : (((List.range (ceil_log10 max_freq)).foldl
        (fun arr i => sort_radix freq i arr)
        (List.finRange 256)).filter (fun c => 0 < freq c)).Pairwise (specLeafOrder freq) := by
      rcases hcov with hmax1 | hcov
      · have hcl : ceil_log10 max_freq = 0 := by
          unfold ceil_log10
          rw [if_pos hmax1]
        rw [hcl]
        show ((List.finRange 256).filter (fun c => 0 < freq c)).Pairwise (specLeafOrder freq)
        refine ((List.pairwise_lt_finRange 256).filter _).imp_of_mem ?_
        intro a b ha hb hab
        have hma := List.of_mem_filter ha
        have hmb := List.of_mem_filter hb
        have hpa : 0 < freq a := of_decide_eq_true hma
        have hpb : 0 < freq b := of_decide_eq_true hmb
        have h1 := hle a
        have h2 := hle b
        have hv : a.val < b.val := hab
        right
        exact ⟨by omega, by omega⟩
      · obtain ⟨hs, _⟩ := sort_chars_fold_spec freq (ceil_log10 max_freq)
        refine (hs.filter _).imp ?_
        intro a b hab
        unfold radixKeyLE at hab
        rw [Nat.mod_eq_of_lt (hcov a), Nat.mod_eq_of_lt (hcov b)] at hab
        exact hab
    obtain ⟨_, hperm⟩ := sort_chars_fold_spec freq (ceil_log10 max_freq)
    exact List.eq_of_perm_of_sorted
      ((hperm.filter _).trans (List.perm_insertionSort _ _).symm)
      hsorted (List.sorted_insertionSort _ _)
  show (((List.range (ceil_log10 max_freq)).foldl (fun arr i => sort_radix freq i arr)
      (List.finRange 256)).filter (fun c => 0 < freq c)).map (fun c => HTree.leaf c (freq c)) ++
      [sentinel_leaf] = _
  unfold specSortedLeaves
  rw [key]

/-- C4 (amended): the leaf sequence is exactly the nonzero-frequency byte
values in ascending (frequency, byte value) order followed by the sentinel
— provided the number of decimal radix passes covers every digit of every
frequency, i.e. `max_freq ≤ 1` or every frequency is below
`10 ^ ceil(log10 max_freq)`.  (When `max_freq` is an exact power of ten
`≥ 10` the top digit is never sorted and the claim fails, see the
counterexample.) -/
theorem C4_sort_chars_amended (freq : Byte → Nat) (max_freq : Nat)
    (hle : ∀ c, freq c ≤ max_freq)
    (hcov : max_freq ≤ 1 ∨ ∀ c, freq c < 10 ^ ceil_log10 max_freq) :
    sort_chars freq max_freq = specSortedLeaves freq ++ [sentinel_leaf] :=
  sort_chars_eq_spec freq max_freq hle hcov

set_option maxRecDepth 40000 in
/-- C4, as stated, is false: with 10 copies of byte 0 and 5 copies of
byte 1, `max_freq = 10` makes `ceil(log10(max_freq)) = 1`, so only the
units digit is sorted, and the leaf sequence comes out as byte 0 (count
10) before byte 1 (count 5) — not ascending by frequency. -/
theorem C4_counterexample :
    sort_chars
        (count_chars (List.replicate 10 0 ++ List.replicate 5 1)
          { char_frequency := (fun _ => 0), max_freq := 0 }).char_frequency
        (count_chars (List.replicate 10 0 ++ List.replicate 5 1)
          { char_frequency := (fun _ => 0), max_freq := 0 }).max_freq ≠
      specSortedLeaves
        (count_chars (List.replicate 10 0 ++ List.replicate 5 1)
          { char_frequency := (fun _ => 0), max_freq := 0 }).char_frequency ++
        [sentinel_leaf] := by
  decide

/-- Witness for C4 at a table with a single frequency 2 entry. -/
theorem C4_witness :
    sort_chars (fun c => if c.val = 0 then 2 else 0) 2 =
      specSortedLeaves (fun c => if c.val = 0 then 2 else 0) ++ [sentinel_leaf] :=
  C4_sort_chars_amended (fun c => if c.val = 0 then 2 else 0) 2
    (fun c => by dsimp only; split <;> omega)
    (Or.inr (fun c => by
      show (if c.val = 0 then 2 else 0) < 10 ^ ceil_log10 2
      have h2 : ceil_log10 2 = 1 := by decide
      rw [h2]
      split <;> omega))

/-! ## Claim C3: tie behavior of `get_min_node` -/

/-- C3, as stated, is false: when the next unread leaf's count equals the
queue minimum (here both are 2), `get_min_node` selects the queued internal
node, not the leaf. -/
theorem C3_counterexample :
    (HTree.leaf 5 2).count = (HTree.internal 2 (HTree.leaf 0 1) (HTree.leaf 1 1)).count ∧
    (get_min_node ⟨[HTree.leaf 5 2, sentinel_leaf],
        [HTree.internal 2 (HTree.leaf 0 1) (HTree.leaf 1 1)]⟩).1 ≠
      HTree.leaf 5 2 := by
  decide

/-- C3 (amended): on a tie between the next unread leaf's count and the
priority queue's minimum count, `get_min_node` selects the queued internal
node (the leaf is taken only when its count is strictly smaller or the
queue is empty). -/
theorem C3_get_min_tie_amended (l : HTree) (ls : List HTree) (x : HTree) (xs : List HTree)
    (h : l.count = x.count) :
    get_min_node { leaves := l :: ls, q := x :: xs } = (x, { leaves := l :: ls, q := xs }) := by
  unfold get_min_node
  simp [h]

/-- Witness for C3 at a concrete tied state. -/
theorem C3_witness :
    get_min_node ⟨[HTree.leaf 7 3],
        [HTree.internal 3 (HTree.leaf 1 1) (HTree.leaf 2 2)]⟩ =
      (HTree.internal 3 (HTree.leaf 1 1) (HTree.leaf 2 2),
        ⟨[HTree.leaf 7 3], []⟩) :=
  C3_get_min_tie_amended (HTree.leaf 7 3) [] _ [] rfl

/-! ## The code generator as path extension -/

lemma codeExtend_nil (c : Code) : codeExtend c [] = c := rfl

lemma codeExtend_cons (c : Code) (b : Bool) (p : List Bool) :
    codeExtend c (b :: p) = codeExtend (codeSnoc c b) p := rfl

/-- `gen_codes_aux` stores, at every character that labels a leaf of `t`,
the running code extended along that character's (rightmost) path, and
leaves every other slot untouched. -/
lemma gen_codes_aux_spec (t : HTree) : ∀ (cur : Code) (codes : Byte → Code) (ch : Byte),
    gen_codes_aux t cur codes ch =
      match findPath t ch with
      | some p => codeExtend cur p
      | none => codes ch := by
  induction t with
  | leaf c n =>
    intro cur codes ch
    show Function.update codes c cur ch = _
    unfold findPath
    rcases eq_or_ne c ch with rfl | hne
    · rw [if_pos rfl, Function.update_same]
      rfl
    · rw [if_neg hne, Function.update_noteq (Ne.symm hne)]
  | internal n l r ihl ihr =>
    intro cur codes ch
    show gen_codes_aux r _ (gen_codes_aux l _ codes) ch = _
    rw [ihr, ihl]
    have hfi : findPath (.internal n l r) ch =
        match findPath r ch with
        | some p => some (true :: p)
        | none => (findPath l ch).map (fun p => false :: p) := rfl
    rw [hfi]
    rcases hr : findPath r ch with _ | p
    · rcases hl : findPath l ch with _ | q
      · rfl
      · rfl
    · rfl

lemma codeExtend_length (p : List Bool) : ∀ cur, (codeExtend cur p).length = cur.length + p.length := by
  induction p with
  | nil => intro cur; rfl
  | cons b p ih =>
    intro cur
    rw [codeExtend_cons, ih]
    have h : (codeSnoc cur b).length = cur.length + 1 := by
      unfold codeSnoc
      rcases b <;> rfl
    rw [h, List.length_cons]
    omega

lemma pathVal_lt (p : List Bool) : pathVal p < 2 ^ p.length := by
  induction p with
  | nil => decide
  | cons b p ih =>
    show (if b then 1 else 0) * 2 ^ p.length + pathVal p < 2 ^ (p.length + 1)
    have h2 : 2 ^ (p.length + 1) = 2 ^ p.length + 2 ^ p.length := by ring
    rcases b with _ | _
    · rw [if_neg (by decide)]
      omega
    · rw [if_pos (by decide)]
      omega

lemma codeSnoc_value (cur : Code) (b : Bool) :
    (codeSnoc cur b).value = (2 * cur.value + (if b then 1 else 0)) % U32 := by
  have hshift : cur.value <<< 1 = 2 * cur.value := by
    rw [Nat.shiftLeft_eq, pow_one, Nat.mul_comm]
  have hmod : 2 * cur.value % U32 = 2 * (cur.value % 2147483648) := by
    show 2 * cur.value % (2 * 2147483648) = 2 * (cur.value % 2147483648)
    exact Nat.mul_mod_mul_left 2 cur.value 2147483648
  have hm : cur.value % 2147483648 < 2147483648 := Nat.mod_lt _ (by norm_num)
  rcases b with _ | _
  · show (cur.value <<< 1) % U32 = (2 * cur.value + 0) % U32
    rw [hshift, Nat.add_zero]
  · show ((cur.value <<< 1) % U32) ||| 1 = (2 * cur.value + 1) % U32
    rw [hshift, hmod]
    have hlor : (cur.value % 2147483648) * 2 ^ 1 + 1 = ((cur.value % 2147483648) <<< 1) ||| 1 :=
      mul_two_pow_add_eq_lor _ 1 1 (by norm_num)
    have hsh2 : (cur.value % 2147483648) <<< 1 = 2 * (cur.value % 2147483648) := by
      rw [Nat.shiftLeft_eq, pow_one, Nat.mul_comm]
    rw [hsh2] at hlor
    rw [← hlor]
    have hr : (2 * cur.value + 1) % U32 = 2 * (cur.value % 2147483648) + 1 := by
      rw [Nat.add_mod, hmod]
      have h1 : (1 : Nat) % U32 = 1 := by norm_num [U32]
      rw [h1]
      exact Nat.mod_eq_of_lt (by unfold U32; omega)
    rw [hr]
    ring

lemma codeExtend_value (p : List Bool) : ∀ cur : Code, cur.value < U32 →
    (codeExtend cur p).value = (cur.value * 2 ^ p.length + pathVal p) % U32 := by
  induction p with
  | nil =>
    intro cur h
    show cur.value = (cur.value * 2 ^ 0 + 0) % U32
    rw [pow_zero, Nat.mul_one, Nat.add_zero, Nat.mod_eq_of_lt h]
  | cons b p ih =>
    intro cur h
    have hlt : (codeSnoc cur b).value < U32 := by
      rw [codeSnoc_value]
      exact Nat.mod_lt _ (by norm_num [U32])
    rw [codeExtend_cons, ih _ hlt, codeSnoc_value]
    show ((2 * cur.value + (if b then 1 else 0)) % U32 * 2 ^ p.length + pathVal p) % U32 =
      (cur.value * 2 ^ (p.length + 1) + ((if b then 1 else 0) * 2 ^ p.length + pathVal p)) % U32
    have hme : (2 * cur.value + (if b then 1 else 0)) % U32 * 2 ^ p.length + pathVal p ≡
        (2 * cur.value + (if b then 1 else 0)) * 2 ^ p.length + pathVal p [MOD U32] :=
      Nat.ModEq.add_right _ ((Nat.mod_modEq _ _).mul_right _)
    rw [Nat.ModEq] at hme
    rw [hme]
    congr 1
    ring

/-- The code `gen_codes` produces for a character on a root-to-leaf path
`p`: length `|p|`, value the path bits modulo `2^32`. -/
lemma gen_codes_path (head : HTree) (codes0 : Byte → Code) (ch : Byte) (p : List Bool)
    (hp : findPath head ch = some p) :
    gen_codes head codes0 ch = { length := p.length, value := pathVal p % U32 } := by
  unfold gen_codes
  rw [gen_codes_aux_spec, hp]
  show codeExtend { length := 0, value := 0 } p = { length := p.length, value := pathVal p % U32 }
  have hl := codeExtend_length p { length := 0, value := 0 }
  have hv := codeExtend_value p { length := 0, value := 0 } (by norm_num [U32])
  rw [Nat.zero_add] at hl
  rw [Nat.zero_mul, Nat.zero_add] at hv
  rcases hres : codeExtend { length := 0, value := 0 } p with ⟨len, val⟩
  have hl2 : len = p.length := by rw [hres] at hl; exact hl
  have hv2 : val = pathVal p % U32 := by rw [hres] at hv; exact hv
  rw [hl2, hv2]

/-- A character absent from the tree keeps its garbage slot. -/
lemma gen_codes_absent (head : HTree) (codes0 : Byte → Code) (ch : Byte)
    (hp : findPath head ch = none) :
    gen_codes head codes0 ch = codes0 ch := by
  unfold gen_codes
  rw [gen_codes_aux_spec, hp]

/-- The bit string of a code holding an untruncated path value is the
path itself. -/
lemma codeBits_pathVal : ∀ p : List Bool,
    codeBits { length := p.length, value := pathVal p } = pathBits p := by
  intro p
  induction p with
  | nil => rfl
  | cons b p ih =>
    show (List.range (p.length + 1)).map
        (fun i => pathVal (b :: p) >>> (p.length + 1 - 1 - i) &&& 1) =
      (if b then 1 else 0) :: pathBits p
    have hw : pathVal (b :: p) = (if b then 1 else 0) * 2 ^ p.length + pathVal p := rfl
    rw [List.range_succ_eq_map, List.map_cons, List.map_map]
    congr 1
    · show pathVal (b :: p) >>> (p.length + 1 - 1 - 0) &&& 1 = _
      have h0 : p.length + 1 - 1 - 0 = p.length := by omega
      rw [h0, hw, Nat.shiftRight_eq_div_pow]
      have hdiv : ((if b then 1 else 0) * 2 ^ p.length + pathVal p) / 2 ^ p.length
          = (if b then 1 else 0) := by
        rw [Nat.mul_comm, Nat.mul_add_div (Nat.pos_pow_of_pos _ (by norm_num)),
          Nat.div_eq_of_lt (pathVal_lt p), Nat.add_zero]
      rw [hdiv]
      rcases b <;> rfl
    · rw [← ih]
      apply List.map_congr_left
      intro i hi
      rw [List.mem_range] at hi
      show pathVal (b :: p) >>> (p.length + 1 - 1 - (i + 1)) &&& 1 =
        pathVal p >>> (p.length - 1 - i) &&& 1
      have he : p.length + 1 - 1 - (i + 1) = p.length - 1 - i := by omega
      rw [he, hw,
        mul_two_pow_add_eq_lor (if b then 1 else 0) (pathVal p) p.length (pathVal_lt p)]
      show nbit (((if b then 1 else 0) <<< p.length) ||| pathVal p) (p.length - 1 - i) =
        nbit (pathVal p) (p.length - 1 - i)
      rw [nbit_lor, nbit_shiftLeft, if_neg (by omega), Nat.zero_max]

lemma findPath_length_le_depth : ∀ (t : HTree) (ch : Byte) (p : List Bool),
    findPath t ch = some p → p.length ≤ t.depth := by
  intro t
  induction t with
  | leaf c n =>
    intro ch p hp
    unfold findPath at hp
    rcases eq_or_ne c ch with rfl | hne
    · rw [if_pos rfl] at hp
      cases hp
      exact Nat.le_refl 0
    · rw [if_neg hne] at hp
      cases hp
  | internal n l r ihl ihr =>
    intro ch p hp
    have hfi : findPath (.internal n l r) ch = (match findPath r ch with
      | some q => some (true :: q)
      | none => (findPath l ch).map (fun q => false :: q)) := rfl
    rw [hfi] at hp
    rcases hr : findPath r ch with _ | q
    · rw [hr] at hp
      rcases hl : findPath l ch with _ | q
      · rw [hl] at hp
        cases hp
      · rw [hl] at hp
        have hp' : some (false :: q) = some p := hp
        cases hp'
        have := ihl ch q hl
        show (false :: q).length ≤ max l.depth r.depth + 1
        rw [List.length_cons]
        omega
    · rw [hr] at hp
      have hp' : some (true :: q) = some p := hp
      cases hp'
      have := ihr ch q hr
      show (true :: q).length ≤ max l.depth r.depth + 1
      rw [List.length_cons]
      omega

lemma findPath_some_of_mem : ∀ (t : HTree) (ch : Byte), ch ∈ t.chars →
    ∃ p, findPath t ch = some p := by
  intro t
  induction t with
  | leaf c n =>
    intro ch hch
    have hc : ch ∈ [c] := hch
    have : ch = c := by simpa using hc
    subst this
    exact ⟨[], by unfold findPath; rw [if_pos rfl]⟩
  | internal n l r ihl ihr =>
    intro ch hch
    have hch' : ch ∈ l.chars ++ r.chars := hch
    rw [List.mem_append] at hch'
    have hfi : findPath (.internal n l r) ch = (match findPath r ch with
      | some q => some (true :: q)
      | none => (findPath l ch).map (fun q => false :: q)) := rfl
    rcases hr : findPath r ch with _ | q
    · rcases hch' with hl | hrr
      · obtain ⟨p, hp⟩ := ihl ch hl
        refine ⟨false :: p, ?_⟩
        rw [hfi, hr, hp]
        rfl
      · obtain ⟨p, hp⟩ := ihr ch hrr
        rw [hp] at hr
        cases hr
    · refine ⟨true :: q, ?_⟩
      rw [hfi, hr]

/-- Two root-to-leaf paths of distinct characters: neither is an initial
segment of the other. -/
lemma findPath_no_pref : ∀ (t : HTree) (a b : Byte) (p q : List Bool), a ≠ b →
    findPath t a = some p → findPath t b = some q → q.take p.length ≠ p := by
  intro t
  induction t with
  | leaf c n =>
    intro a b p q hab hpa hpb
    unfold findPath at hpa hpb
    rcases eq_or_ne c a with rfl | hna
    · rcases eq_or_ne c b with rfl | hnb
      · exact absurd rfl hab
      · rw [if_neg hnb] at hpb
        cases hpb
    · rw [if_neg hna] at hpa
      cases hpa
  | internal n l r ihl ihr =>
    intro a b p q hab hpa hpb
    have hfa : findPath (.internal n l r) a = (match findPath r a with
      | some u => some (true :: u)
      | none => (findPath l a).map (fun u => false :: u)) := rfl
    have hfb : findPath (.internal n l r) b = (match findPath r b with
      | some u => some (true :: u)
      | none => (findPath l b).map (fun u => false :: u)) := rfl
    rw [hfa] at hpa
    rw [hfb] at hpb
    rcases hra : findPath r a with _ | pa <;> rw [hra] at hpa
    · rcases hla : findPath l a with _ | pa <;> rw [hla] at hpa
      · cases hpa
      · have hpa' : some (false :: pa) = some p := hpa
        cases hpa'
        rcases hrb : findPath r b with _ | pb <;> rw [hrb] at hpb
        · rcases hlb : findPath l b with _ | pb <;> rw [hlb] at hpb
          · cases hpb
          · have hpb' : some (false :: pb) = some q := hpb
            cases hpb'
            rw [List.length_cons, List.take_succ_cons]
            intro hcontra
            have htail : pb.take pa.length = pa := by
              have := List.tail_eq_of_cons_eq hcontra
              exact this
            exact ihl a b pa pb hab hla hlb htail
        · have hpb' : some (true :: pb) = some q := hpb
          cases hpb'
          rw [List.length_cons, List.take_succ_cons]
          intro hcontra
          cases hcontra
    · have hpa' : some (true :: pa) = some p := hpa
      cases hpa'
      rcases hrb : findPath r b with _ | pb <;> rw [hrb] at hpb
      · rcases hlb : findPath l b with _ | pb <;> rw [hlb] at hpb
        · cases hpb
        · have hpb' : some (false :: pb) = some q := hpb
          cases hpb'
          rw [List.length_cons, List.take_succ_cons]
          intro hcontra
          cases hcontra
      · have hpb' : some (true :: pb) = some q := hpb
        cases hpb'
        rw [List.length_cons, List.take_succ_cons]
        intro hcontra
        have htail : pb.take pa.length = pa := List.tail_eq_of_cons_eq hcontra
        exact ihr a b pa pb hab hra hrb htail

/-! ## The tree builder loses no leaf character -/

lemma qpush_length (t : HTree) : ∀ l : List HTree, (qpush t l).length = l.length + 1 := by
  intro l
  induction l with
  | nil => rfl
  | cons x xs ih =>
    show (if t.count < x.count then t :: x :: xs else x :: qpush t xs).length = xs.length + 1 + 1
    split
    · rfl
    · rw [List.length_cons, ih]

lemma mem_qpush (t : HTree) : ∀ (l : List HTree) (y : HTree), y ∈ qpush t l ↔ y = t ∨ y ∈ l := by
  intro l
  induction l with
  | nil =>
    intro y
    show y ∈ [t] ↔ _
    simp
  | cons x xs ih =>
    intro y
    show y ∈ (if t.count < x.count then t :: x :: xs else x :: qpush t xs) ↔ _
    split
    · rw [List.mem_cons, List.mem_cons]
    · rw [List.mem_cons, ih y, List.mem_cons]
      tauto

/-- One extraction by `get_min_node` from a reachable builder state: a node
comes out, the sentinel stays at the end, the population drops by one, no
leaf character is lost, and the shape and count bounds persist. -/
lemma get_min_node_step (rl qs : List HTree)
    (hrl : ∀ t ∈ rl, ∃ ch n, t = HTree.leaf ch n ∧ n < LAST_NODE)
    (hqs : ∀ t ∈ qs, t.count ≤ LAST_NODE)
    (hne : rl ≠ [] ∨ qs ≠ []) :
    ∃ t rl' qs',
      get_min_node { leaves := rl ++ [sentinel_leaf], q := qs } =
        (t, { leaves := rl' ++ [sentinel_leaf], q := qs' }) ∧
      rl'.length + qs'.length + 1 = rl.length + qs.length ∧
      (∀ u ∈ rl', ∃ ch n, u = HTree.leaf ch n ∧ n < LAST_NODE) ∧
      (∀ u ∈ qs', u.count ≤ LAST_NODE) ∧
      (∀ c, c ∈ rl.flatMap HTree.chars ∨ c ∈ qs.flatMap HTree.chars →
        c ∈ t.chars ∨ c ∈ rl'.flatMap HTree.chars ∨ c ∈ qs'.flatMap HTree.chars) := by
  rcases qs with _ | ⟨x, xs⟩
  · rcases rl with _ | ⟨l, ls⟩
    · rcases hne with h | h <;> exact absurd rfl h
    · refine ⟨l, ls, [], ?_, by simp, fun u hu => hrl u (List.mem_cons_of_mem l hu), by simp, ?_⟩
      · show get_min_node { leaves := l :: (ls ++ [sentinel_leaf]), q := [] } = _
        rfl
      · intro c hc
        rcases hc with hc | hc
        · rw [List.flatMap_cons, List.mem_append] at hc
          rcases hc with hc | hc
          · exact Or.inl hc
          · exact Or.inr (Or.inl hc)
        · simp at hc
  · rcases rl with _ | ⟨l, ls⟩
    · refine ⟨x, [], xs, ?_, by simp, by simp, fun u hu => hqs u (List.mem_cons_of_mem x hu), ?_⟩
      · have hnlt : ¬ sentinel_leaf.count < x.count := by
          have := hqs x (List.mem_cons_self x xs)
          show ¬ LAST_NODE < x.count
          omega
        show (if sentinel_leaf.count < x.count then (sentinel_leaf, ({ leaves := [], q := x :: xs } : BuildState)) else (x, ({ leaves := [sentinel_leaf], q := xs } : BuildState))) = (x, { leaves := [] ++ [sentinel_leaf], q := xs })
        rw [if_neg hnlt]
        rfl
      · intro c hc
        rcases hc with hc | hc
        · simp at hc
        · rw [List.flatMap_cons, List.mem_append] at hc
          rcases hc with hc | hc
          · exact Or.inl hc
          · exact Or.inr (Or.inr hc)
    · obtain ⟨ch, m, hleq, hmlt⟩ := hrl l (List.mem_cons_self l ls)
      by_cases hlt : l.count < x.count
      · refine ⟨l, ls, x :: xs, ?_, by simp only [List.length_cons]; omega,
          fun u hu => hrl u (List.mem_cons_of_mem l hu), hqs, ?_⟩
        · show (if l.count < x.count then (l, ({ leaves := ls ++ [sentinel_leaf], q := x :: xs } : BuildState)) else (x, ({ leaves := l :: (ls ++ [sentinel_leaf]), q := xs } : BuildState))) = (l, { leaves := ls ++ [sentinel_leaf], q := x :: xs })
          rw [if_pos hlt]
        · intro c hc
          rcases hc with hc | hc
          · rw [List.flatMap_cons, List.mem_append] at hc
            rcases hc with hc | hc
            · exact Or.inl hc
            · exact Or.inr (Or.inl hc)
          · exact Or.inr (Or.inr hc)
      · refine ⟨x, l :: ls, xs, ?_, by simp only [List.length_cons]; omega, hrl,
          fun u hu => hqs u (List.mem_cons_of_mem x hu), ?_⟩
        · show (if l.count < x.count then (l, ({ leaves := ls ++ [sentinel_leaf], q := x :: xs } : BuildState)) else (x, ({ leaves := l :: (ls ++ [sentinel_leaf]), q := xs } : BuildState))) = (x, { leaves := (l :: ls) ++ [sentinel_leaf], q := xs })
          rw [if_neg hlt]
          rfl
        · intro c hc
          rcases hc with hc | hc
          · exact Or.inr (Or.inl hc)
          · rw [List.flatMap_cons, List.mem_append] at hc
            rcases hc with hc | hc
            · exact Or.inl hc
            · exact Or.inr (Or.inr hc)

lemma huff_tree_loop_succ (fuel : Nat) (s : BuildState) :
    huff_tree_loop (fuel + 1) s =
      if ((get_min_node s).2.leaves.headD sentinel_leaf).count = LAST_NODE ∧
          (get_min_node s).2.q = [] then (get_min_node s).1
      else huff_tree_loop fuel ⟨(get_min_node (get_min_node s).2).2.leaves, qpush (build_node (get_min_node s).1 (get_min_node (get_min_node s).2).1) (get_min_node (get_min_node s).2).2.q⟩ := rfl

/-- The merge loop never loses a leaf character: anything at a leaf of a
pending real leaf node or of a queued tree ends up at a leaf of the
result. -/
lemma huff_tree_loop_chars : ∀ (fuel : Nat) (rl qs : List HTree) (c : Byte),
    rl.length + qs.length ≤ fuel →
    (∀ t ∈ rl, ∃ ch n, t = HTree.leaf ch n ∧ n < LAST_NODE) →
    (∀ t ∈ qs, t.count ≤ LAST_NODE) →
    (c ∈ rl.flatMap HTree.chars ∨ c ∈ qs.flatMap HTree.chars) →
    c ∈ (huff_tree_loop fuel { leaves := rl ++ [sentinel_leaf], q := qs }).chars := by
  intro fuel
  induction fuel with
  | zero =>
    intro rl qs c hf hrl hqs hc
    have h1 : rl = [] := List.eq_nil_of_length_eq_zero (by omega)
    have h2 : qs = [] := List.eq_nil_of_length_eq_zero (by omega)
    subst h1
    subst h2
    simp at hc
  | succ fuel ih =>
    intro rl qs c hf hrl hqs hc
    rcases Nat.eq_zero_or_pos (rl.length + qs.length) with h0 | hpos
    · have h1 : rl = [] := List.eq_nil_of_length_eq_zero (by omega)
      have h2 : qs = [] := List.eq_nil_of_length_eq_zero (by omega)
      subst h1
      subst h2
      simp at hc
    · have hne : rl ≠ [] ∨ qs ≠ [] := by
        rcases rl with _ | ⟨a, as⟩
        · rcases qs with _ | ⟨b, bs⟩
          · simp at hpos
          · exact Or.inr (by simp)
        · exact Or.inl (by simp)
      obtain ⟨t, rl', qs', heq, hlen, hrl', hqs', hchar⟩ :=
        get_min_node_step rl qs hrl hqs hne
      rw [huff_tree_loop_succ, heq]
      dsimp only
      by_cases hterm : ((rl' ++ [sentinel_leaf]).headD sentinel_leaf).count = LAST_NODE ∧
        qs' = []
      · rw [if_pos hterm]
        rcases rl' with _ | ⟨a, as⟩
        · rcases hchar c hc with h | h | h
          · exact h
          · simp at h
          · rw [hterm.2] at h
            simp at h
        · obtain ⟨ch, m, haeq, hmlt⟩ := hrl' a (List.mem_cons_self a as)
          exfalso
          have hhead : ((a :: as) ++ [sentinel_leaf]).headD sentinel_leaf = a := rfl
          have h1 := hterm.1
          rw [hhead, haeq] at h1
          have h1' : m = LAST_NODE := h1
          omega
      · rw [if_neg hterm]
        have hne' : rl' ≠ [] ∨ qs' ≠ [] := by
          rcases rl' with _ | ⟨a, as⟩
          · rcases qs' with _ | ⟨y, ys⟩
            · exact absurd ⟨rfl, rfl⟩ hterm
            · exact Or.inr (by simp)
          · exact Or.inl (by simp)
        obtain ⟨t2, rl'', qs'', heq2, hlen2, hrl'', hqs'', hchar2⟩ :=
          get_min_node_step rl' qs' hrl' hqs' hne'
        rw [heq2]
        dsimp only
        apply ih
        · rw [qpush_length]
          omega
        · exact hrl''
        · intro u hu
          rw [mem_qpush] at hu
          rcases hu with rfl | hu
          · show (t.count + t2.count) % U32 ≤ LAST_NODE
            have hm : (t.count + t2.count) % U32 < U32 := Nat.mod_lt _ (by norm_num [U32])
            have hU : U32 = LAST_NODE + 1 := by norm_num [U32, LAST_NODE]
            omega
          · exact hqs'' u hu
        · rcases hchar c hc with h | h | h
          · right
            exact List.mem_flatMap.mpr ⟨build_node t t2, (mem_qpush _ _ _).mpr (Or.inl rfl),
              List.mem_append.mpr (Or.inl h)⟩
          · rcases hchar2 c (Or.inl h) with h2 | h2 | h2
            · right
              exact List.mem_flatMap.mpr ⟨build_node t t2, (mem_qpush _ _ _).mpr (Or.inl rfl),
                List.mem_append.mpr (Or.inr h2)⟩
            · exact Or.inl h2
            · right
              rw [List.mem_flatMap] at h2 ⊢
              obtain ⟨u, hu, hcu⟩ := h2
              exact ⟨u, (mem_qpush _ _ _).mpr (Or.inr hu), hcu⟩
          · rcases hchar2 c (Or.inr h) with h2 | h2 | h2
            · right
              exact List.mem_flatMap.mpr ⟨build_node t t2, (mem_qpush _ _ _).mpr (Or.inl rfl),
                List.mem_append.mpr (Or.inr h2)⟩
            · exact Or.inl h2
            · right
              rw [List.mem_flatMap] at h2 ⊢
              obtain ⟨u, hu, hcu⟩ := h2
              exact ⟨u, (mem_qpush _ _ _).mpr (Or.inr hu), hcu⟩

/-- The list `sort_chars` hands to the tree builder: real leaves carrying
exactly the nonzero-frequency characters (each with its frequency as
count), then the sentinel. -/
lemma sort_chars_decomp (freq : Byte → Nat) (mf : Nat) :
    ∃ rl, sort_chars freq mf = rl ++ [sentinel_leaf] ∧
      (∀ t ∈ rl, ∃ ch, t = HTree.leaf ch (freq ch) ∧ 0 < freq ch) ∧
      (∀ c, 0 < freq c → HTree.leaf c (freq c) ∈ rl) := by
  obtain ⟨-, hperm⟩ := sort_chars_fold_spec freq (ceil_log10 mf)
  refine ⟨(((List.range (ceil_log10 mf)).foldl (fun arr i => sort_radix freq i arr) (List.finRange 256)).filter (fun c => 0 < freq c)).map (fun c => HTree.leaf c (freq c)), rfl, ?_, ?_⟩
  · intro t ht
    rw [List.mem_map] at ht
    obtain ⟨c, hc, rfl⟩ := ht
    have := List.of_mem_filter hc
    exact ⟨c, rfl, of_decide_eq_true this⟩
  · intro c hc
    rw [List.mem_map]
    refine ⟨c, ?_, rfl⟩
    rw [List.mem_filter]
    exact ⟨hperm.mem_iff.mpr (List.mem_finRange c), decide_eq_true hc⟩

/-- Every character with nonzero frequency labels a leaf of the built tree
(all frequencies below `LAST_NODE`, so the sentinel is never consumed). -/
lemma huff_tree_chars (freq : Byte → Nat) (mf : Nat) (c : Byte)
    (hLN : ∀ d, freq d < LAST_NODE) (hc : 0 < freq c) :
    c ∈ (huff_tree freq mf).chars := by
  obtain ⟨rl, hdec, hmem, hin⟩ := sort_chars_decomp freq mf
  show c ∈ (huff_tree_loop ((sort_chars freq mf).length + 1)
    { leaves := sort_chars freq mf, q := [] }).chars
  rw [hdec]
  have hflen : (rl ++ [sentinel_leaf]).length + 1 = rl.length + 2 := by
    rw [List.length_append]
    rfl
  rw [hflen]
  apply huff_tree_loop_chars (rl.length + 2) rl [] c
    (by simp only [List.length_nil]; omega) ?_ (by simp) ?_
  · intro t ht
    obtain ⟨ch, rfl, hpos⟩ := hmem t ht
    exact ⟨ch, freq ch, rfl, hLN ch⟩
  · left
    exact List.mem_flatMap.mpr ⟨HTree.leaf c (freq c), hin c hc, by simp [HTree.chars]⟩

/-- C9 (amended): after the tree is built and codes are generated, the
codes of any two distinct byte values with nonzero frequency are
prefix-free — provided all frequencies are below the sentinel count
`2^32 - 1` and the built tree is at most 32 deep, so that no code value is
truncated by the 32-bit `value` field. -/
theorem C9_codes_not_nested_amended (freq : Byte → Nat) (mf : Nat) (g : Byte → Code)
    (hLN : ∀ d, freq d < LAST_NODE)
    (hdepth : (huff_tree freq mf).depth ≤ 32)
    (a b : Byte) (hab : a ≠ b) (ha : 0 < freq a) (hb : 0 < freq b) :
    ¬ startsWith (codeBits (gen_codes (huff_tree freq mf) g a))
      (codeBits (gen_codes (huff_tree freq mf) g b)) := by
  obtain ⟨p, hp⟩ := findPath_some_of_mem _ a (huff_tree_chars freq mf a hLN ha)
  obtain ⟨q, hq⟩ := findPath_some_of_mem _ b (huff_tree_chars freq mf b hLN hb)
  have hpl : p.length ≤ 32 := le_trans (findPath_length_le_depth _ a p hp) hdepth
  have hql : q.length ≤ 32 := le_trans (findPath_length_le_depth _ b q hq) hdepth
  rw [gen_codes_path _ g a p hp, gen_codes_path _ g b q hq]
  have hpow : ∀ n : Nat, n ≤ 32 → (2:Nat) ^ n ≤ U32 := by
    intro n hn
    calc (2:Nat) ^ n ≤ 2 ^ 32 := Nat.pow_le_pow_right (by norm_num) hn
    _ = U32 := by norm_num [U32]
  have hvp : pathVal p % U32 = pathVal p :=
    Nat.mod_eq_of_lt (lt_of_lt_of_le (pathVal_lt p) (hpow _ hpl))
  have hvq : pathVal q % U32 = pathVal q :=
    Nat.mod_eq_of_lt (lt_of_lt_of_le (pathVal_lt q) (hpow _ hql))
  rw [hvp, hvq, codeBits_pathVal p, codeBits_pathVal q]
  unfold startsWith
  intro hcontra
  have hlen : (pathBits p).length = p.length := List.length_map _ _
  rw [hlen] at hcontra
  have htake : pathBits (q.take p.length) = pathBits p := by
    unfold pathBits
    rw [List.map_take]
    exact hcontra
  have finj : Function.Injective (fun b : Bool => if b then (1:Nat) else 0) := by
    intro x y hxy
    rcases x with _ | _ <;> rcases y with _ | _
    · rfl
    · simp at hxy
    · simp at hxy
    · rfl
  have hinj : q.take p.length = p := List.map_injective_iff.mpr finj htake
  exact findPath_no_pref _ a b p q hab hp hq hinj

/-! ## Inputs with prescribed multiplicities, and the counting pass -/

lemma count_flatMap_rep (freq : Byte → Nat) (c : Byte) : ∀ l : List Byte, l.Nodup →
    (l.flatMap (fun d => List.replicate (freq d) d)).count c =
      if c ∈ l then freq c else 0 := by
  intro l
  induction l with
  | nil => intro _; simp
  | cons x xs ih =>
    intro hnd
    rw [List.flatMap_cons, List.count_append, ih (List.Nodup.of_cons hnd),
      List.count_replicate]
    rcases eq_or_ne c x with rfl | hne
    · rw [beq_self_eq_true, if_pos rfl, if_neg ((List.nodup_cons.mp hnd).1),
        if_pos (List.mem_cons_self c xs), Nat.add_zero]
    · rw [if_neg (fun hh => hne (eq_of_beq hh).symm), Nat.zero_add]
      by_cases hm : c ∈ xs
      · rw [if_pos hm, if_pos (List.mem_cons_of_mem x hm)]
      · rw [if_neg hm, if_neg (by rw [List.mem_cons]; rintro (h | h); exacts [hne h, hm h])]

set_option maxRecDepth 4000 in
lemma count_inputOfCounts (freq : Byte → Nat) (c : Byte) :
    (inputOfCounts freq).count c = freq c := by
  have h : inputOfCounts freq =
      (List.finRange 256).flatMap (fun d => List.replicate (freq d) d) := rfl
  rw [h, count_flatMap_rep freq c (List.finRange 256) (List.nodup_finRange 256),
    if_pos (List.mem_finRange c)]

lemma length_inputOfCounts (freq : Byte → Nat) :
    (inputOfCounts freq).length = ((List.finRange 256).map freq).sum := by
  unfold inputOfCounts
  rw [List.length_flatMap]
  apply congrArg List.sum
  apply List.map_congr_left
  intro c _
  exact List.length_replicate _ _

/-- On a fresh codec the per-character count is exact whenever that
character occurs fewer than `2^32` times. -/
lemma encode_freq_counts (b : List Byte) (c : Byte) (hc : b.count c < U32) :
    (encode_freq b).char_frequency c = b.count c := by
  have h := count_chars_loop_freq b { char_frequency := (fun _ => 0), max_freq := 0 }
    (fun d => by norm_num [U32]) c
  have h2 : (encode_freq b).char_frequency c =
      (List.foldl count_chars_step
        { char_frequency := (fun _ => 0), max_freq := 0 } b).char_frequency c := rfl
  rw [h2, h]
  show (0 + b.count c) % U32 = b.count c
  rw [Nat.zero_add]
  exact Nat.mod_eq_of_lt hc

/-- On a fresh codec `max_freq` comes out as the maximum occurrence count,
provided no per-character count wraps. -/
lemma encode_freq_max (b : List Byte) (hc : ∀ c, b.count c < U32) :
    (encode_freq b).max_freq = Finset.univ.sup fun c => b.count c := by
  have hmax := count_chars_loop_max b { char_frequency := (fun _ => 0), max_freq := 0 }
    (fun c => by
      show 0 + b.count c < U32
      rw [Nat.zero_add]
      exact hc c)
    (by
      show (0:Nat) = Finset.univ.sup fun _ : Byte => (0:Nat)
      exact le_antisymm (Nat.zero_le _) (Finset.sup_le fun c _ => le_refl 0))
  have h2 : (encode_freq b).max_freq =
      (List.foldl count_chars_step
        { char_frequency := (fun _ => 0), max_freq := 0 } b).max_freq := rfl
  rw [h2, hmax]
  congr 1
  funext c
  have h := count_chars_loop_freq b { char_frequency := (fun _ => 0), max_freq := 0 }
    (fun d => by norm_num [U32]) c
  rw [h]
  show (0 + b.count c) % U32 = b.count c
  rw [Nat.zero_add]
  exact Nat.mod_eq_of_lt (hc c)

lemma huff_tree_eq (freq : Byte → Nat) (mf : Nat) :
    huff_tree freq mf = huff_tree_loop ((sort_chars freq mf).length + 1)
      { leaves := sort_chars freq mf, q := [] } := rfl

/-! ## Claim C7: the output size computation -/

lemma calc_fold (freq : Byte → Nat) (codes : Byte → Code) :
    ∀ (l : List Byte) (acc : Nat),
      (∀ i ∈ l, freq i * (codes i).length < U32) →
      acc + (l.map (fun i => freq i * (codes i).length)).sum < U64 →
      l.foldl (fun a i => (a + freq i * (codes i).length % U32) % U64) acc =
        acc + (l.map (fun i => freq i * (codes i).length)).sum := by
  intro l
  induction l with
  | nil =>
    intro acc _ _
    show acc = acc + 0
    rw [Nat.add_zero]
  | cons x xs ih =>
    intro acc hp hb
    rw [List.map_cons, List.sum_cons] at hb
    rw [List.foldl_cons, List.map_cons, List.sum_cons]
    have hpx := hp x (List.mem_cons_self x xs)
    rw [Nat.mod_eq_of_lt hpx]
    have hacc : acc + freq x * (codes x).length < U64 := by omega
    rw [Nat.mod_eq_of_lt hacc,
      ih (acc + freq x * (codes x).length) (fun i hi => hp i (List.mem_cons_of_mem x hi))
        (by omega)]
    omega

/-- C7 (amended): when no per-character product frequency times code
length wraps 32 bits and the exact byte count fits in 32 bits,
`calc_out_buff_size` returns exactly ceil(total_packed_bits / 8) + 1024
with exact arithmetic.  In general both the products and the final byte
count are computed in 32 bits and can be truncated (see the
counterexample). -/
theorem C7_out_size_amended (freq : Byte → Nat) (codes : Byte → Code)
    (hprod : ∀ i, freq i * (codes i).length < U32)
    (hfinal : specOutBuffSize freq codes < U32) :
    calc_out_buff_size freq codes = specOutBuffSize freq codes := by
  show ((((List.finRange 256).foldl
      (fun a i => (a + freq i * (codes i).length % U32) % U64) 0) + 7) % U64 / 8 + 1024) %
      U64 % U32 = specOutBuffSize freq codes
  have hU2 : U32 * 8 + 1024 < U64 := by norm_num [U32, U64]
  set S := ((List.finRange 256).map (fun i => freq i * (codes i).length)).sum with hS
  have hfinal' : (S + 7) / 8 + 1024 < U32 := by
    unfold specOutBuffSize at hfinal
    rw [← hS] at hfinal
    exact hfinal
  have hSb : S + 7 < U32 * 8 := (Nat.div_lt_iff_lt_mul (by norm_num)).mp (by omega)
  rw [calc_fold freq codes (List.finRange 256) 0 (fun i _ => hprod i) (by omega),
    Nat.zero_add, ← hS]
  have h1 : (S + 7) % U64 = S + 7 := Nat.mod_eq_of_lt (by omega)
  rw [h1]
  have hdle : (S + 7) / 8 ≤ S + 7 := Nat.div_le_self _ _
  have h2 : ((S + 7) / 8 + 1024) % U64 = (S + 7) / 8 + 1024 := Nat.mod_eq_of_lt (by omega)
  rw [h2, Nat.mod_eq_of_lt hfinal']
  unfold specOutBuffSize
  rw [← hS]

set_option maxRecDepth 100000 in
set_option maxHeartbeats 2000000 in
/-- C7, as stated, is false: for the input holding 1431655766 copies of
each of the byte values 0 through 7, both the per-character products
frequency times code length and the final byte count overflow 32 bits:
the reported size is the truncated 1431656792 instead of the exact
ceil(total_packed_bits / 8) + 1024 = 4652882264. -/
theorem C7_counterexample :
    (huffman_encode (inputOfCounts (fun c => if c.val < 8 then 1431655766 else 0))
        (fun _ => { length := 0, value := 0 })).2 ≠
      specOutBuffSize
        (encode_freq
          (inputOfCounts (fun c => if c.val < 8 then 1431655766 else 0))).char_frequency
        (encode_codes (inputOfCounts (fun c => if c.val < 8 then 1431655766 else 0))
          (fun _ => { length := 0, value := 0 })) := by
  have hfreq : (encode_freq
      (inputOfCounts (fun c => if c.val < 8 then 1431655766 else 0))).char_frequency =
      (fun c : Byte => if c.val < 8 then 1431655766 else 0) := by
    funext c
    rw [encode_freq_counts _ c
        (by rw [count_inputOfCounts]; split <;> norm_num [U32]),
      count_inputOfCounts]
  have hmax : (encode_freq
      (inputOfCounts (fun c => if c.val < 8 then 1431655766 else 0))).max_freq =
      1431655766 := by
    rw [encode_freq_max _
      (fun c => by rw [count_inputOfCounts]; split <;> norm_num [U32])]
    have hc : (fun c : Byte =>
        (inputOfCounts (fun d : Byte => if d.val < 8 then 1431655766 else 0)).count c) =
        (fun c : Byte => if c.val < 8 then 1431655766 else 0) :=
      funext fun c => count_inputOfCounts _ c
    rw [hc]
    apply le_antisymm
    · apply Finset.sup_le
      intro c _
      dsimp only
      split <;> omega
    · have h := @Finset.le_sup Nat Byte _ _ Finset.univ
        (fun c : Byte => if c.val < 8 then 1431655766 else 0) 0 (Finset.mem_univ 0)
      exact h
  show calc_out_buff_size
      (encode_freq
        (inputOfCounts (fun c => if c.val < 8 then 1431655766 else 0))).char_frequency
      (gen_codes (huff_tree
        (encode_freq
          (inputOfCounts (fun c => if c.val < 8 then 1431655766 else 0))).char_frequency
        (encode_freq
          (inputOfCounts (fun c => if c.val < 8 then 1431655766 else 0))).max_freq)
        (fun _ => { length := 0, value := 0 })) ≠
    specOutBuffSize
      (encode_freq
        (inputOfCounts (fun c => if c.val < 8 then 1431655766 else 0))).char_frequency
      (gen_codes (huff_tree
        (encode_freq
          (inputOfCounts (fun c => if c.val < 8 then 1431655766 else 0))).char_frequency
        (encode_freq
          (inputOfCounts (fun c => if c.val < 8 then 1431655766 else 0))).max_freq)
        (fun _ => { length := 0, value := 0 }))
  have hsort : sort_chars (fun c : Byte => if c.val < 8 then 1431655766 else 0) 1431655766 =
      [HTree.leaf 0 1431655766, HTree.leaf 1 1431655766, HTree.leaf 2 1431655766,
       HTree.leaf 3 1431655766, HTree.leaf 4 1431655766, HTree.leaf 5 1431655766,
       HTree.leaf 6 1431655766, HTree.leaf 7 1431655766, sentinel_leaf] := by
    rw [sort_chars_eq_spec (fun c : Byte => if c.val < 8 then 1431655766 else 0) 1431655766
      (fun c => by dsimp only; split <;> omega)
      (Or.inr (fun c => by dsimp only; split <;> decide))]
    decide
  have htree : huff_tree_loop
      (([HTree.leaf 0 1431655766, HTree.leaf 1 1431655766, HTree.leaf 2 1431655766,
         HTree.leaf 3 1431655766, HTree.leaf 4 1431655766, HTree.leaf 5 1431655766,
         HTree.leaf 6 1431655766, HTree.leaf 7 1431655766, sentinel_leaf] : List HTree).length + 1)
      { leaves := [HTree.leaf 0 1431655766, HTree.leaf 1 1431655766, HTree.leaf 2 1431655766,
         HTree.leaf 3 1431655766, HTree.leaf 4 1431655766, HTree.leaf 5 1431655766,
         HTree.leaf 6 1431655766, HTree.leaf 7 1431655766, sentinel_leaf], q := [] } =
      HTree.internal 2863311536
        (HTree.internal 4
          (HTree.internal 1431655768
            (HTree.internal 2863311532 (HTree.leaf 0 1431655766) (HTree.leaf 1 1431655766))
            (HTree.internal 2863311532 (HTree.leaf 2 1431655766) (HTree.leaf 3 1431655766)))
          (HTree.internal 2863311532 (HTree.leaf 4 1431655766) (HTree.leaf 5 1431655766)))
        (HTree.internal 2863311532 (HTree.leaf 6 1431655766) (HTree.leaf 7 1431655766)) := by
    decide
  rw [hfreq, hmax, huff_tree_eq, hsort, htree]
  decide

/-! ## The frequency header: write and read -/

lemma write4_ne (buf : Buf) (a x q : Nat) (h : q < a ∨ a + 4 ≤ q) : write4 buf a x q = buf q := by
  unfold write4
  rw [Function.update_noteq (by omega), Function.update_noteq (by omega),
    Function.update_noteq (by omega), Function.update_noteq (by omega)]

lemma read4_write4 (buf : Buf) (a x : Nat) : read4 (write4 buf a x) a = x % U32 := by
  have h0 : write4 buf a x a = x % 256 := by
    unfold write4
    rw [Function.update_noteq (by omega : a ≠ a + 3),
      Function.update_noteq (by omega : a ≠ a + 2),
      Function.update_noteq (by omega : a ≠ a + 1), Function.update_same]
  have h1 : write4 buf a x (a + 1) = x / 256 % 256 := by
    unfold write4
    rw [Function.update_noteq (by omega : a + 1 ≠ a + 3),
      Function.update_noteq (by omega : a + 1 ≠ a + 2), Function.update_same]
  have h2 : write4 buf a x (a + 2) = x / 65536 % 256 := by
    unfold write4
    rw [Function.update_noteq (by omega : a + 2 ≠ a + 3), Function.update_same]
  have h3 : write4 buf a x (a + 3) = x / 16777216 % 256 := by
    unfold write4
    rw [Function.update_same]
  show write4 buf a x a % 256 + write4 buf a x (a + 1) % 256 * 256 +
    write4 buf a x (a + 2) % 256 * 65536 + write4 buf a x (a + 3) % 256 * 16777216 = x % U32
  rw [h0, h1, h2, h3]
  have hU : U32 = 4294967296 := rfl
  rw [hU]
  omega

lemma read4_congr (b1 b2 : Buf) (a : Nat) (h0 : b1 a = b2 a) (h1 : b1 (a + 1) = b2 (a + 1))
    (h2 : b1 (a + 2) = b2 (a + 2)) (h3 : b1 (a + 3) = b2 (a + 3)) :
    read4 b1 a = read4 b2 a := by
  unfold read4
  rw [h0, h1, h2, h3]

/-- Bytes at or past offset 1024 are untouched by the header writer. -/
lemma write_freq_fold_ne (freq : Byte → Nat) : ∀ (l : List Byte) (buf : Buf) (q : Nat),
    1024 ≤ q → (l.foldl (write_freq_step freq) buf) q = buf q := by
  intro l
  induction l with
  | nil => intro buf q _; rfl
  | cons x xs ih =>
    intro buf q hq
    rw [List.foldl_cons, ih _ q hq]
    apply write4_ne
    right
    have := x.isLt
    omega

lemma write_char_freq_ne (freq : Byte → Nat) (buf : Buf) (q : Nat) (hq : 1024 ≤ q) :
    write_char_freq freq buf q = buf q :=
  write_freq_fold_ne freq (List.finRange 256) buf q hq

/-- Another character's slot is untouched by the header writer. -/
lemma write_freq_fold_slot (freq : Byte → Nat) : ∀ (l : List Byte) (buf : Buf) (c : Byte)
    (j : Nat), j < 4 → c ∉ l →
    (l.foldl (write_freq_step freq) buf) (4 * c.val + j) = buf (4 * c.val + j) := by
  intro l
  induction l with
  | nil => intro buf c j _ _; rfl
  | cons x xs ih =>
    intro buf c j hj hc
    rw [List.foldl_cons, ih _ c j hj (fun h => hc (List.mem_cons_of_mem x h))]
    apply write4_ne
    have hne : x ≠ c := fun h => hc (h ▸ List.mem_cons_self x xs)
    have hv : x.val ≠ c.val := fun h => hne (Fin.ext h)
    omega

/-- Reading a header slot back gives the written frequency mod `2^32`. -/
lemma write_char_freq_read (freq : Byte → Nat) (buf : Buf) (c : Byte) :
    read4 (write_char_freq freq buf) (4 * c.val) = freq c % U32 := by
  obtain ⟨s, t, hst⟩ := List.append_of_mem (List.mem_finRange c)
  have hnd : (List.finRange 256).Nodup := List.nodup_finRange 256
  rw [hst] at hnd
  have hct : c ∉ t := by
    rw [List.nodup_append] at hnd
    exact (List.nodup_cons.mp hnd.2.1).1
  show read4 ((List.finRange 256).foldl (write_freq_step freq) buf) (4 * c.val) = freq c % U32
  rw [hst, List.foldl_append, List.foldl_cons]
  have key : read4 (t.foldl (write_freq_step freq)
      (write_freq_step freq (s.foldl (write_freq_step freq) buf) c)) (4 * c.val) =
      read4 (write_freq_step freq (s.foldl (write_freq_step freq) buf) c) (4 * c.val) := by
    apply read4_congr
    · have h := write_freq_fold_slot freq t
        (write_freq_step freq (s.foldl (write_freq_step freq) buf) c) c 0 (by omega) hct
      rw [Nat.add_zero] at h
      exact h
    · exact write_freq_fold_slot freq t _ c 1 (by omega) hct
    · exact write_freq_fold_slot freq t _ c 2 (by omega) hct
    · exact write_freq_fold_slot freq t _ c 3 (by omega) hct
  rw [key]
  exact read4_write4 _ _ _

/-- The frequency table read back by `read_char_freq`. -/
lemma read_freq_fold_freq (bufin : Buf) : ∀ (l : List Byte) (s : ReadFreqState) (c : Byte),
    (l.foldl (read_freq_step bufin) s).char_frequency c =
      if c ∈ l then read4 bufin (4 * c.val) else s.char_frequency c := by
  intro l
  induction l with
  | nil =>
    intro s c
    rw [if_neg (List.not_mem_nil c)]
    rfl
  | cons x xs ih =>
    intro s c
    rw [List.foldl_cons, ih]
    by_cases hm : c ∈ xs
    · rw [if_pos hm, if_pos (List.mem_cons_of_mem x hm)]
    · rw [if_neg hm]
      rcases eq_or_ne c x with rfl | hne
      · rw [if_pos (List.mem_cons_self c xs)]
        show Function.update s.char_frequency c (read4 bufin (4 * c.val)) c = _
        rw [Function.update_same]
      · rw [if_neg (by rw [List.mem_cons]; rintro (h | h); exacts [hne h, hm h])]
        show Function.update s.char_frequency x (read4 bufin (4 * x.val)) c = _
        rw [Function.update_noteq hne]

/-- The `totalSize` accumulation of `read_char_freq` (32-bit sum on top of
the caller's value). -/
lemma read_freq_fold_total (bufin : Buf) : ∀ (l : List Byte) (s : ReadFreqState),
    s.totalSize < U32 →
    (l.foldl (read_freq_step bufin) s).totalSize =
      (s.totalSize + (l.map (fun c => read4 bufin (4 * c.val))).sum) % U32 := by
  intro l
  induction l with
  | nil =>
    intro s hs
    show s.totalSize = (s.totalSize + 0) % U32
    rw [Nat.add_zero, Nat.mod_eq_of_lt hs]
  | cons x xs ih =>
    intro s hs
    rw [List.foldl_cons, List.map_cons, List.sum_cons]
    have hstep : (read_freq_step bufin s x).totalSize =
        (s.totalSize + read4 bufin (4 * x.val)) % U32 := rfl
    rw [ih _ (by rw [hstep]; exact Nat.mod_lt _ (by norm_num [U32])), hstep]
    have hme : (s.totalSize + read4 bufin (4 * x.val)) % U32 +
        (xs.map (fun c => read4 bufin (4 * c.val))).sum ≡
        s.totalSize + read4 bufin (4 * x.val) +
        (xs.map (fun c => read4 bufin (4 * c.val))).sum [MOD U32] :=
      Nat.ModEq.add_right _ (Nat.mod_modEq _ _)
    rw [Nat.ModEq] at hme
    rw [hme]
    congr 1
    omega

/-- The `uniqueChars` count of `read_char_freq`. -/
lemma read_freq_fold_unique (bufin : Buf) : ∀ (l : List Byte) (s : ReadFreqState),
    (l.foldl (read_freq_step bufin) s).uniqueChars =
      s.uniqueChars + (l.filter (fun c => 0 < read4 bufin (4 * c.val))).length := by
  intro l
  induction l with
  | nil => intro s; rfl
  | cons x xs ih =>
    intro s
    rw [List.foldl_cons, ih, List.filter_cons]
    by_cases hx : 0 < read4 bufin (4 * x.val)
    · rw [if_pos (decide_eq_true hx), List.length_cons]
      have hstep : (read_freq_step bufin s x).uniqueChars = s.uniqueChars + 1 := by
        show (if 0 < read4 bufin (4 * x.val) then s.uniqueChars + 1 else s.uniqueChars) = _
        rw [if_pos hx]
      rw [hstep]
      omega
    · rw [if_neg (by simpa using hx)]
      have hstep : (read_freq_step bufin s x).uniqueChars = s.uniqueChars := by
        show (if 0 < read4 bufin (4 * x.val) then s.uniqueChars + 1 else s.uniqueChars) = _
        rw [if_neg hx]
      rw [hstep]

/-- The `max_freq` recomputation of `read_char_freq`, as a plain fold. -/
lemma read_freq_fold_max (bufin : Buf) : ∀ (l : List Byte) (s : ReadFreqState),
    (l.foldl (read_freq_step bufin) s).max_freq =
      l.foldl (fun m c => if m < read4 bufin (4 * c.val) then read4 bufin (4 * c.val) else m)
        s.max_freq := by
  intro l
  induction l with
  | nil => intro s; rfl
  | cons x xs ih =>
    intro s
    rw [List.foldl_cons, List.foldl_cons, ih]
    rfl

lemma foldl_max_le (v : Byte → Nat) (K : Nat) : ∀ (l : List Byte) (m : Nat),
    (∀ c ∈ l, v c ≤ K) → m ≤ K →
    l.foldl (fun m c => if m < v c then v c else m) m ≤ K := by
  intro l
  induction l with
  | nil => intro m _ hm; exact hm
  | cons x xs ih =>
    intro m hl hm
    rw [List.foldl_cons]
    apply ih
    · intro c hc
      exact hl c (List.mem_cons_of_mem x hc)
    · split
      · exact hl x (List.mem_cons_self x xs)
      · exact hm

lemma le_foldl_max (v : Byte → Nat) : ∀ (l : List Byte) (m : Nat),
    (∀ c ∈ l, v c ≤ l.foldl (fun m c => if m < v c then v c else m) m) ∧
    m ≤ l.foldl (fun m c => if m < v c then v c else m) m := by
  intro l
  induction l with
  | nil =>
    intro m
    exact ⟨fun c hc => absurd hc (List.not_mem_nil c), Nat.le_refl m⟩
  | cons x xs ih =>
    intro m
    rw [List.foldl_cons]
    obtain ⟨hmem, hbase⟩ := ih (if m < v x then v x else m)
    refine ⟨?_, ?_⟩
    · intro c hc
      rcases List.mem_cons.mp hc with rfl | hc
      · exact le_trans (by split <;> omega) hbase
      · exact hmem c hc
    · exact le_trans (by split <;> omega) hbase

lemma foldl_max_eq_sup (v : Byte → Nat) :
    (List.finRange 256).foldl (fun m c => if m < v c then v c else m) 0 =
      Finset.univ.sup v := by
  apply le_antisymm
  · exact foldl_max_le v (Finset.univ.sup v) (List.finRange 256) 0
      (fun c _ => Finset.le_sup (Finset.mem_univ c)) (Nat.zero_le _)
  · apply Finset.sup_le
    intro c _
    exact (le_foldl_max v (List.finRange 256) 0).1 c (List.mem_finRange c)

/-! ## Single-bit reads, zero-bit writes, and byte-level preservation -/

lemma bitWrite_zero (v : Nat) (buf : Buf) (c : BitCursor) : bitWrite 0 v buf c = (buf, c) := rfl

lemma bitRead_one (buf : Buf) (c : BitCursorRead) :
    (bitRead 1 buf c).1 = bitAt buf c.pos ∧ (bitRead 1 buf c).2.pos = c.pos + 1 := by
  obtain ⟨h1, h2⟩ := bitReadAux_spec 1 1 buf c 0 (le_refl 1) (by omega) (by norm_num)
  refine ⟨?_, h2⟩
  have he : bitRead 1 buf c = bitReadAux 1 1 buf c 0 := rfl
  rw [he, h1]
  show 0 * 2 ^ 1 + (2 * bitsVal buf c.pos 0 + bitAt buf (c.pos + 0)) = bitAt buf c.pos
  show 0 * 2 ^ 1 + (2 * 0 + bitAt buf (c.pos + 0)) = bitAt buf c.pos
  rw [Nat.zero_mul, Nat.mul_zero, Nat.zero_add, Nat.zero_add, Nat.add_zero]

/-- Bytes strictly before the cursor's byte are never touched by the
packer. -/
lemma bitWriteAux_byte_lt : ∀ (fuel bits v : Nat) (buf : Buf) (c : BitCursor) (q : Nat),
    q < c.byteIdx → (bitWriteAux fuel bits v buf c).1 q = buf q := by
  intro fuel
  induction fuel with
  | zero => intro bits v buf c q _; rfl
  | succ fuel ih =>
    intro bits v buf c q hq
    simp only [bitWriteAux]
    by_cases hb : bits = 0
    · rw [if_pos hb]
    · rw [if_neg hb]
      by_cases hlt : bits < 8 - c.curBit.val
      · rw [dif_pos hlt]
        by_cases h8 : 8 ≤ c.curBit.val + bits
        · rw [dif_pos h8]
          exact Function.update_noteq (by omega) _ _
        · rw [dif_neg h8]
          exact Function.update_noteq (by omega) _ _
      · rw [dif_neg hlt]
        rw [ih _ _ _ _ q (by show q < c.byteIdx + 1; omega)]
        exact Function.update_noteq (by omega) _ _

/-- The packer's cursor byte never moves backwards. -/
lemma bitWriteAux_byte_mono : ∀ (fuel bits v : Nat) (buf : Buf) (c : BitCursor),
    c.byteIdx ≤ (bitWriteAux fuel bits v buf c).2.byteIdx := by
  intro fuel
  induction fuel with
  | zero => intro bits v buf c; exact Nat.le_refl _
  | succ fuel ih =>
    intro bits v buf c
    simp only [bitWriteAux]
    by_cases hb : bits = 0
    · rw [if_pos hb]
    · rw [if_neg hb]
      by_cases hlt : bits < 8 - c.curBit.val
      · rw [dif_pos hlt]
        by_cases h8 : 8 ≤ c.curBit.val + bits
        · rw [dif_pos h8]
          show c.byteIdx ≤ c.byteIdx + 1
          omega
        · rw [dif_neg h8]
      · rw [dif_neg hlt]
        exact le_trans (by show c.byteIdx ≤ c.byteIdx + 1; omega) (ih _ _ _ _)

/-! ## The decoder loop -/

lemma decode_loop_succ (head : HTree) (bufin : Buf) (fuel : Nat) (s : DecodeState) :
    decode_loop head bufin (fuel + 1) s =
      if s.uniqueChars = 0 then some s
      else
        match (match s.currentNode with
          | .internal _ l r => if (bitRead 1 bufin s.cursor).1 = 0 then l else r
          | t => t) with
        | .internal c l r =>
          decode_loop head bufin fuel ⟨(bitRead 1 bufin s.cursor).2, .internal c l r,
            s.char_frequency, s.uniqueChars, s.out⟩
        | .leaf ch _ =>
          decode_loop head bufin fuel ⟨(bitRead 1 bufin s.cursor).2, head,
            Function.update s.char_frequency ch
              (if s.char_frequency ch = 0 then LAST_NODE else s.char_frequency ch - 1),
            if Function.update s.char_frequency ch
                (if s.char_frequency ch = 0 then LAST_NODE else s.char_frequency ch - 1) ch = 0
              then s.uniqueChars - 1 else s.uniqueChars,
            s.out ++ [ch]⟩ := rfl

lemma decode_loop_done (head : HTree) (bufin : Buf) (fuel : Nat) (s : DecodeState)
    (hu : s.uniqueChars = 0) : decode_loop head bufin fuel s = some s := by
  rcases fuel with _ | fuel
  · show (if s.uniqueChars = 0 then some s else none) = some s
    rw [if_pos hu]
  · rw [decode_loop_succ, if_pos hu]

lemma findPath_nil_leaf (t : HTree) (ch : Byte) (h : findPath t ch = some []) :
    ∃ n, t = HTree.leaf ch n := by
  rcases t with ⟨c, n⟩ | ⟨n, l, r⟩
  · unfold findPath at h
    rcases eq_or_ne c ch with rfl | hne
    · exact ⟨n, rfl⟩
    · rw [if_neg hne] at h
      cases h
  · exfalso
    have hfi : findPath (.internal n l r) ch = (match findPath r ch with
      | some q => some (true :: q)
      | none => (findPath l ch).map (fun q => false :: q)) := rfl
    rw [hfi] at h
    rcases hr : findPath r ch with _ | q <;> rw [hr] at h
    · rcases hl : findPath l ch with _ | q <;> rw [hl] at h
      · cases h
      · have h' : some (false :: q) = some ([] : List Bool) := h
        cases h'
    · have h' : some (true :: q) = some ([] : List Bool) := h
      cases h'

lemma findPath_cons_internal (t : HTree) (ch : Byte) (b : Bool) (p : List Bool)
    (h : findPath t ch = some (b :: p)) : ∃ n l r, t = HTree.internal n l r := by
  rcases t with ⟨c, n⟩ | ⟨n, l, r⟩
  · exfalso
    unfold findPath at h
    rcases eq_or_ne c ch with rfl | hne
    · rw [if_pos rfl] at h
      cases h
    · rw [if_neg hne] at h
      cases h
  · exact ⟨n, l, r, rfl⟩

lemma pathBits_length (p : List Bool) : (pathBits p).length = p.length := List.length_map _ _

lemma codeBits_length (c : Code) : (codeBits c).length = c.length := by
  unfold codeBits
  rw [List.length_map, List.length_range]

lemma flatPaths_cons (head : HTree) (ch : Byte) (s : List Byte) :
    flatPaths head (ch :: s) = pathBits ((findPath head ch).getD []) ++ flatPaths head s := by
  unfold flatPaths
  rw [List.flatMap_cons]

lemma flatBits_cons (codes : Byte → Code) (ch : Byte) (s : List Byte) :
    flatBits codes (ch :: s) = codeBits (codes ch) ++ flatBits codes s := by
  unfold flatBits
  rw [List.flatMap_cons]

lemma suppCard_ne_zero (ch : Byte) (s : List Byte) (h : ch ∈ s) : suppCard s ≠ 0 := by
  unfold suppCard
  intro hlen
  rw [List.length_eq_zero] at hlen
  have hmem : ch ∈ (List.finRange 256).filter (fun c => 0 < s.count c) :=
    List.mem_filter.mpr ⟨List.mem_finRange ch, decide_eq_true (List.count_pos_iff.mpr h)⟩
  rw [hlen] at hmem
  cases hmem

/-- The decremented frequency table after emitting the head character is
the count table of the tail. -/
lemma counts_tail (ch : Byte) (s' : List Byte) :
    Function.update (fun c => (ch :: s').count c) ch ((ch :: s').count ch - 1) =
      (fun c => s'.count c) := by
  funext c
  rcases eq_or_ne c ch with rfl | hne
  · rw [Function.update_same, List.count_cons, beq_self_eq_true, if_pos rfl]
    omega
  · rw [Function.update_noteq hne, List.count_cons,
      if_neg (fun hh => hne (eq_of_beq hh).symm)]
    omega

/-- Two Boolean predicates that agree off `a`, with the second true at
`a`: their filters differ in length by exactly the `a` entry. -/
lemma length_filter_diff_one : ∀ (l : List Byte) (p q : Byte → Bool) (a : Byte), l.Nodup →
    (∀ c, c ≠ a → p c = q c) → q a = true →
    (l.filter q).length =
      if a ∈ l ∧ p a = false then (l.filter p).length + 1 else (l.filter p).length := by
  intro l
  induction l with
  | nil =>
    intro p q a _ _ _
    rw [if_neg (by rintro ⟨h, _⟩; cases h)]
    rfl
  | cons x xs ih =>
    intro p q a hnd hagree hqa
    obtain ⟨hx, hnds⟩ := List.nodup_cons.mp hnd
    rw [List.filter_cons, List.filter_cons]
    rcases eq_or_ne x a with rfl | hne
    · have htails : xs.filter p = xs.filter q :=
        List.filter_congr (fun c hc => hagree c (fun h => hx (h ▸ hc)))
      rcases hpa : p x with _ | _
      · rw [if_pos hqa, List.length_cons,
          if_pos (show x ∈ x :: xs ∧ (false : Bool) = false from
            ⟨List.mem_cons_self x xs, rfl⟩),
          if_neg (show ¬((false : Bool) = true) from fun h => by cases h), htails]
      · rw [if_pos hqa, if_pos (show (true : Bool) = true from rfl),
          if_neg (show ¬(x ∈ x :: xs ∧ (true : Bool) = false) from by rintro ⟨-, h⟩; cases h),
          List.length_cons, List.length_cons, htails]
    · have hpq : p x = q x := hagree x hne
      have hmemiff : (a ∈ x :: xs ∧ p a = false) ↔ (a ∈ xs ∧ p a = false) := by
        constructor
        · rintro ⟨hm, hf⟩
          rcases List.mem_cons.mp hm with h | h
          · exact absurd h.symm hne
          · exact ⟨h, hf⟩
        · rintro ⟨hm, hf⟩
          exact ⟨List.mem_cons_of_mem x hm, hf⟩
      rw [← hpq]
      by_cases hpx : p x = true
      · rw [if_pos hpx, if_pos hpx, List.length_cons, List.length_cons,
          ih p q a hnds hagree hqa]
        by_cases hm : a ∈ xs ∧ p a = false
        · rw [if_pos hm, if_pos (hmemiff.mpr hm)]
        · rw [if_neg hm, if_neg (fun h => hm (hmemiff.mp h))]
      · rw [if_neg hpx, if_neg hpx, ih p q a hnds hagree hqa]
        by_cases hm : a ∈ xs ∧ p a = false
        · rw [if_pos hm, if_pos (hmemiff.mpr hm)]
        · rw [if_neg hm, if_neg (fun h => hm (hmemiff.mp h))]

/-- The decoder's `uniqueChars` update at an emission matches the distinct
count of the remaining suffix. -/
lemma suppCard_cons_tail (ch : Byte) (s'' : List Byte) :
    (if s''.count ch = 0 then suppCard (ch :: s'') - 1 else suppCard (ch :: s'')) =
      suppCard s'' := by
  have hkey := length_filter_diff_one (List.finRange 256)
    (fun c => decide (0 < s''.count c)) (fun c => decide (0 < (ch :: s'').count c)) ch
    (List.nodup_finRange 256)
    (fun c hc => by
      show decide (0 < s''.count c) = decide (0 < (ch :: s'').count c)
      have hcc : (ch :: s'').count c = s''.count c := by
        rw [List.count_cons, if_neg (fun hh => hc (eq_of_beq hh).symm), Nat.add_zero]
      rw [hcc])
    (by
      show decide (0 < (ch :: s'').count ch) = true
      apply decide_eq_true
      rw [List.count_cons, beq_self_eq_true, if_pos rfl]
      omega)
  show (if s''.count ch = 0
      then ((List.finRange 256).filter (fun c => 0 < (ch :: s'').count c)).length - 1
      else ((List.finRange 256).filter (fun c => 0 < (ch :: s'').count c)).length) =
    ((List.finRange 256).filter (fun c => 0 < s''.count c)).length
  rw [hkey]
  by_cases hc0 : s''.count ch = 0
  · rw [if_pos hc0, if_pos ⟨List.mem_finRange ch,
      by show decide (0 < s''.count ch) = false; rw [hc0]; rfl⟩]
    omega
  · rw [if_neg hc0, if_neg (by
      rintro ⟨-, hf⟩
      rw [decide_eq_false_iff_not] at hf
      exact hf (Nat.pos_of_ne_zero hc0))]

/-- One step of the decode loop from an internal walk node into an
internal child. -/
lemma decode_loop_step_internal (head : HTree) (bufin : Buf) (fuel : Nat) (cur : BitCursorRead)
    (n : Nat) (l r : HTree) (f : Byte → Nat) (u : Nat) (out : List Byte) (hu : u ≠ 0)
    (n2 : Nat) (l2 r2 : HTree)
    (hc2 : (if (bitRead 1 bufin cur).1 = 0 then l else r) = HTree.internal n2 l2 r2) :
    decode_loop head bufin (fuel + 1) ⟨cur, .internal n l r, f, u, out⟩ =
      decode_loop head bufin fuel ⟨(bitRead 1 bufin cur).2, .internal n2 l2 r2, f, u, out⟩ := by
  rw [decode_loop_succ, if_neg hu]
  show (match (if (bitRead 1 bufin cur).1 = 0 then l else r) with
    | .internal c3 l3 r3 => decode_loop head bufin fuel
        ⟨(bitRead 1 bufin cur).2, .internal c3 l3 r3, f, u, out⟩
    | .leaf ch2 _ => decode_loop head bufin fuel
        ⟨(bitRead 1 bufin cur).2, head,
          Function.update f ch2 (if f ch2 = 0 then LAST_NODE else f ch2 - 1),
          if Function.update f ch2 (if f ch2 = 0 then LAST_NODE else f ch2 - 1) ch2 = 0
            then u - 1 else u, out ++ [ch2]⟩) = _
  rw [hc2]

/-- One step of the decode loop from an internal walk node into a leaf
child: the emission step. -/
lemma decode_loop_step_leaf (head : HTree) (bufin : Buf) (fuel : Nat) (cur : BitCursorRead)
    (n : Nat) (l r : HTree) (f : Byte → Nat) (u : Nat) (out : List Byte) (hu : u ≠ 0)
    (ch2 : Byte) (n2 : Nat)
    (hc2 : (if (bitRead 1 bufin cur).1 = 0 then l else r) = HTree.leaf ch2 n2) :
    decode_loop head bufin (fuel + 1) ⟨cur, .internal n l r, f, u, out⟩ =
      decode_loop head bufin fuel ⟨(bitRead 1 bufin cur).2, head,
        Function.update f ch2 (if f ch2 = 0 then LAST_NODE else f ch2 - 1),
        if Function.update f ch2 (if f ch2 = 0 then LAST_NODE else f ch2 - 1) ch2 = 0
          then u - 1 else u, out ++ [ch2]⟩ := by
  rw [decode_loop_succ, if_neg hu]
  show (match (if (bitRead 1 bufin cur).1 = 0 then l else r) with
    | .internal c3 l3 r3 => decode_loop head bufin fuel
        ⟨(bitRead 1 bufin cur).2, .internal c3 l3 r3, f, u, out⟩
    | .leaf ch3 _ => decode_loop head bufin fuel
        ⟨(bitRead 1 bufin cur).2, head,
          Function.update f ch3 (if f ch3 = 0 then LAST_NODE else f ch3 - 1),
          if Function.update f ch3 (if f ch3 = 0 then LAST_NODE else f ch3 - 1) ch3 = 0
            then u - 1 else u, out ++ [ch3]⟩) = _
  rw [hc2]

/-- One step of the decode loop when the walk pointer already sits at a
leaf (the single-leaf tree): a bit is consumed and the leaf's character is
emitted regardless of the stream. -/
lemma decode_loop_step_self (head : HTree) (bufin : Buf) (fuel : Nat) (cur : BitCursorRead)
    (ch0 : Byte) (n : Nat) (f : Byte → Nat) (u : Nat) (out : List Byte) (hu : u ≠ 0) :
    decode_loop head bufin (fuel + 1) ⟨cur, .leaf ch0 n, f, u, out⟩ =
      decode_loop head bufin fuel ⟨(bitRead 1 bufin cur).2, head,
        Function.update f ch0 (if f ch0 = 0 then LAST_NODE else f ch0 - 1),
        if Function.update f ch0 (if f ch0 = 0 then LAST_NODE else f ch0 - 1) ch0 = 0
          then u - 1 else u, out ++ [ch0]⟩ := by
  rw [decode_loop_succ, if_neg hu]

/-- One decoded symbol: with the walk pointer at a subtree holding `ch` at
path `p` and the next `|p|` stream bits spelling `p`, the loop consumes
exactly `|p|` bits and iterations, emits `ch`, updates the counters, and
resets the walk to the head. -/
lemma decode_symbol (head : HTree) (bufin : Buf) :
    ∀ (p : List Bool) (t : HTree) (ch : Byte) (fuel : Nat) (cur : BitCursorRead)
      (f : Byte → Nat) (u : Nat) (out : List Byte),
      findPath t ch = some p → p ≠ [] → u ≠ 0 →
      (∀ j, j < p.length → bitAt bufin (cur.pos + j) = (pathBits p).getD j 0) →
      p.length ≤ fuel →
      ∃ cur' : BitCursorRead, cur'.pos = cur.pos + p.length ∧
        decode_loop head bufin fuel ⟨cur, t, f, u, out⟩ =
          decode_loop head bufin (fuel - p.length)
            ⟨cur', head, Function.update f ch (if f ch = 0 then LAST_NODE else f ch - 1),
              if Function.update f ch (if f ch = 0 then LAST_NODE else f ch - 1) ch = 0
                then u - 1 else u,
              out ++ [ch]⟩ := by
  intro p
  induction p with
  | nil =>
    intro t ch fuel cur f u out _ hne _ _ _
    exact absurd rfl hne
  | cons b p ih =>
    intro t ch fuel cur f u out hp hne hu hstream hfuel
    obtain ⟨n, l, r, rfl⟩ := findPath_cons_internal t ch b p hp
    rcases fuel with _ | fuel
    · exfalso
      rw [List.length_cons] at hfuel
      omega
    · have hbit : (bitRead 1 bufin cur).1 = (if b then 1 else 0) := by
        rw [(bitRead_one bufin cur).1]
        have h0 := hstream 0 (by rw [List.length_cons]; omega)
        rw [Nat.add_zero] at h0
        exact h0
      have hfi : findPath (.internal n l r) ch = (match findPath r ch with
        | some q => some (true :: q)
        | none => (findPath l ch).map (fun q => false :: q)) := rfl
      rw [hfi] at hp
      have hshift : ∀ j, j < p.length →
          bitAt bufin ((bitRead 1 bufin cur).2.pos + j) = (pathBits p).getD j 0 := by
        intro j hj
        rw [(bitRead_one bufin cur).2]
        have h := hstream (j + 1) (by rw [List.length_cons]; omega)
        have he : cur.pos + (j + 1) = cur.pos + 1 + j := by omega
        rw [he] at h
        exact h
      have hflen : (b :: p).length ≤ fuel + 1 := hfuel
      have hsub : fuel + 1 - (b :: p).length = fuel - p.length := by
        rw [List.length_cons]
        omega
      rcases hr : findPath r ch with _ | q <;> rw [hr] at hp
      · rcases hl : findPath l ch with _ | q <;> rw [hl] at hp
        · cases hp
        · have hp' : some (false :: q) = some (b :: p) := hp
          have hinj := Option.some.inj hp'
          have hb : false = b := (List.cons.inj hinj).1
          have hq : q = p := (List.cons.inj hinj).2
          subst hb
          rw [hq] at hl
          have hchild : (if (bitRead 1 bufin cur).1 = 0 then l else r) = l := by
            rw [hbit, if_neg (show ¬(false = true) from by decide),
              if_pos (show (0:Nat) = 0 from rfl)]
          rcases p with _ | ⟨b2, p2⟩
          · obtain ⟨n2, hleaf⟩ := findPath_nil_leaf l ch hl
            refine ⟨(bitRead 1 bufin cur).2,
              by rw [(bitRead_one bufin cur).2]; simp only [List.length_cons,
                List.length_nil], ?_⟩
            rw [hsub]
            have hz : fuel - ([] : List Bool).length = fuel := rfl
            rw [hz]
            exact decode_loop_step_leaf head bufin fuel cur n l r f u out hu ch n2
              (by rw [hchild, hleaf])
          · obtain ⟨n2, l2, r2, hint⟩ := findPath_cons_internal l ch b2 p2 hl
            obtain ⟨cur', hpos, heq⟩ := ih (.internal n2 l2 r2) ch fuel
              (bitRead 1 bufin cur).2 f u out (hint ▸ hl) (by intro h; cases h) hu
              hshift (by rw [List.length_cons] at hflen; omega)
            refine ⟨cur', ?_, ?_⟩
            · rw [hpos, (bitRead_one bufin cur).2]
              simp only [List.length_cons]
              omega
            · rw [hsub, ← heq]
              exact decode_loop_step_internal head bufin fuel cur n l r f u out hu n2 l2 r2
                (by rw [hchild, hint])
      · have hp' : some (true :: q) = some (b :: p) := hp
        have hinj := Option.some.inj hp'
        have hb : true = b := (List.cons.inj hinj).1
        have hq : q = p := (List.cons.inj hinj).2
        subst hb
        rw [hq] at hr
        have hchild : (if (bitRead 1 bufin cur).1 = 0 then l else r) = r := by
          rw [hbit, if_pos (show (true = true) from rfl),
            if_neg (show ¬((1:Nat) = 0) from by decide)]
        rcases p with _ | ⟨b2, p2⟩
        · obtain ⟨n2, hleaf⟩ := findPath_nil_leaf r ch hr
          refine ⟨(bitRead 1 bufin cur).2,
            by rw [(bitRead_one bufin cur).2]; simp only [List.length_cons,
              List.length_nil], ?_⟩
          rw [hsub]
          have hz : fuel - ([] : List Bool).length = fuel := rfl
          rw [hz]
          exact decode_loop_step_leaf head bufin fuel cur n l r f u out hu ch n2
            (by rw [hchild, hleaf])
        · obtain ⟨n2, l2, r2, hint⟩ := findPath_cons_internal r ch b2 p2 hr
          obtain ⟨cur', hpos, heq⟩ := ih (.internal n2 l2 r2) ch fuel
            (bitRead 1 bufin cur).2 f u out (hint ▸ hr) (by intro h; cases h) hu
            hshift (by rw [List.length_cons] at hflen; omega)
          refine ⟨cur', ?_, ?_⟩
          · rw [hpos, (bitRead_one bufin cur).2]
            simp only [List.length_cons]
            omega
          · rw [hsub, ← heq]
            exact decode_loop_step_internal head bufin fuel cur n l r f u out hu n2 l2 r2
              (by rw [hchild, hint])

set_option maxRecDepth 4000 in
lemma suppCard_nil : suppCard [] = 0 := by decide

set_option maxRecDepth 4000 in
/-- The whole decode run: starting at the head with the count table and
distinct count of the remaining input, a stream spelling the concatenated
root-to-leaf paths drives the loop to emit exactly that input and stop at
`uniqueChars = 0`. -/
lemma decode_run (head : HTree) (bufin : Buf) :
    ∀ (s' : List Byte) (fuel : Nat) (cur : BitCursorRead) (out : List Byte),
      (∀ ch ∈ s', ∃ p, findPath head ch = some p ∧ p ≠ []) →
      (∀ j, j < (flatPaths head s').length →
        bitAt bufin (cur.pos + j) = (flatPaths head s').getD j 0) →
      (flatPaths head s').length ≤ fuel →
      ∃ st', decode_loop head bufin fuel
          ⟨cur, head, (fun c => s'.count c), suppCard s', out⟩ = some st' ∧
        st'.out = out ++ s' ∧ st'.uniqueChars = 0 := by
  intro s'
  induction s' with
  | nil =>
    intro fuel cur out _ _ _
    refine ⟨_, decode_loop_done head bufin fuel _ suppCard_nil, ?_, ?_⟩
    · show out = out ++ []
      rw [List.append_nil]
    · exact suppCard_nil
  | cons ch s'' ih =>
    intro fuel cur out hpaths hstream hfuel
    obtain ⟨p, hp, hpne⟩ := hpaths ch (List.mem_cons_self ch s'')
    have hfp : flatPaths head (ch :: s'') = pathBits p ++ flatPaths head s'' := by
      rw [flatPaths_cons, hp, Option.getD_some]
    have hplen : (pathBits p).length = p.length := pathBits_length p
    have htot : (flatPaths head (ch :: s'')).length = p.length + (flatPaths head s'').length := by
      rw [hfp, List.length_append, hplen]
    have hu : suppCard (ch :: s'') ≠ 0 := suppCard_ne_zero ch _ (List.mem_cons_self ch s'')
    obtain ⟨cur2, hpos2, heq⟩ := decode_symbol head bufin p head ch fuel cur
      (fun c => (ch :: s'').count c) (suppCard (ch :: s'')) out hp hpne hu
      (fun j hj => by
        have h := hstream j (by omega)
        rw [hfp] at h
        rw [List.getD_append] at h
        exact h
        rw [hplen]
        omega)
      (by omega)
    rw [heq]
    have hcnt : ¬ ((ch :: s'').count ch = 0) := by
      rw [List.count_cons, beq_self_eq_true, if_pos rfl]
      omega
    show ∃ st', decode_loop head bufin (fuel - p.length)
        ⟨cur2, head,
          Function.update (fun c => (ch :: s'').count c) ch
            (if (ch :: s'').count ch = 0 then LAST_NODE else (ch :: s'').count ch - 1),
          if Function.update (fun c => (ch :: s'').count c) ch
              (if (ch :: s'').count ch = 0 then LAST_NODE else (ch :: s'').count ch - 1) ch = 0
            then suppCard (ch :: s'') - 1 else suppCard (ch :: s''),
          out ++ [ch]⟩ = some st' ∧ st'.out = out ++ ch :: s'' ∧ st'.uniqueChars = 0
    rw [if_neg hcnt, counts_tail]
    show ∃ st', decode_loop head bufin (fuel - p.length)
        ⟨cur2, head, (fun c => s''.count c),
          if s''.count ch = 0 then suppCard (ch :: s'') - 1 else suppCard (ch :: s''),
          out ++ [ch]⟩ = some st' ∧ st'.out = out ++ ch :: s'' ∧ st'.uniqueChars = 0
    rw [suppCard_cons_tail]
    obtain ⟨st', hdone, hout, hu0⟩ := ih (fuel - p.length) cur2 (out ++ [ch])
      (fun c hc => hpaths c (List.mem_cons_of_mem ch hc))
      (fun j hj => by
        have h := hstream (p.length + j) (by omega)
        have he : cur.pos + (p.length + j) = cur2.pos + j := by
          rw [hpos2]
          omega
        rw [he, hfp] at h
        rw [List.getD_append_right] at h
        · rw [hplen, Nat.add_sub_cancel_left] at h
          exact h
        · rw [hplen]
          omega)
      (by omega)
    refine ⟨st', hdone, ?_, hu0⟩
    rw [hout, List.append_assoc]
    rfl

/-- The count of a byte value across the 256 slots of `finRange` is 1. -/
lemma suppCard_replicate_succ (k : Nat) (c : Byte) :
    suppCard (List.replicate (k + 1) c) = 1 := by
  unfold suppCard
  have hcongr : (List.finRange 256).filter
      (fun c' => decide (0 < (List.replicate (k + 1) c).count c')) =
      (List.finRange 256).filter (fun c' => c' == c) := by
    apply List.filter_congr
    intro c' _
    show decide (0 < (List.replicate (k + 1) c).count c') = (c' == c)
    rw [List.count_replicate]
    by_cases hcc : c = c'
    · subst hcc
      rw [if_pos (beq_self_eq_true c), beq_self_eq_true]
      exact decide_eq_true (by omega)
    · rw [if_neg (fun hh => hcc (eq_of_beq hh)),
        show (c' == c) = false from beq_eq_false_iff_ne.mpr (fun h => hcc h.symm)]
      rfl
  rw [hcongr]
  have hle := List.nodup_iff_count_le_one.mp (List.nodup_finRange 256) c
  have hpos : 0 < (List.finRange 256).count c :=
    List.count_pos_iff.mpr (List.mem_finRange c)
  show ((List.finRange 256).filter (fun c' => c' == c)).length = 1
  have hcnt : (List.finRange 256).count c =
      ((List.finRange 256).filter (fun c' => c' == c)).length := by
    rw [List.count, List.countP_eq_length_filter]
  omega

set_option maxRecDepth 4000 in
/-- The decode run on a single-leaf tree: each iteration consumes one
stream bit (whatever it is) and emits the leaf's character, once per
remaining count. -/
lemma decode_run_single (bufin : Buf) (ch0 : Byte) (n : Nat) :
    ∀ (k : Nat) (fuel : Nat) (cur : BitCursorRead) (out : List Byte),
      k ≤ fuel →
      ∃ st', decode_loop (HTree.leaf ch0 n) bufin fuel
          ⟨cur, HTree.leaf ch0 n, (fun c => (List.replicate k ch0).count c),
            suppCard (List.replicate k ch0), out⟩ = some st' ∧
        st'.out = out ++ List.replicate k ch0 ∧ st'.uniqueChars = 0 := by
  intro k
  induction k with
  | zero =>
    intro fuel cur out _
    refine ⟨_, decode_loop_done _ bufin fuel _ suppCard_nil, ?_, ?_⟩
    · show out = out ++ []
      rw [List.append_nil]
    · exact suppCard_nil
  | succ k ih =>
    intro fuel cur out hk
    rcases fuel with _ | fuel
    · omega
    · have hu1 : suppCard (List.replicate (k + 1) ch0) = 1 := suppCard_replicate_succ k ch0
      have hrep : List.replicate (k + 1) ch0 = ch0 :: List.replicate k ch0 :=
        List.replicate_succ ch0 k
      rw [hrep]
      rw [decode_loop_step_self (HTree.leaf ch0 n) bufin fuel cur ch0 n
        (fun c => (ch0 :: List.replicate k ch0).count c)
        (suppCard (ch0 :: List.replicate k ch0)) out
        (by rw [← hrep, hu1]; omega)]
      have hcnt : ¬ ((ch0 :: List.replicate k ch0).count ch0 = 0) := by
        rw [List.count_cons, beq_self_eq_true, if_pos rfl]
        omega
      show ∃ st', decode_loop (HTree.leaf ch0 n) bufin fuel
          ⟨(bitRead 1 bufin cur).2, HTree.leaf ch0 n,
            Function.update (fun c => (ch0 :: List.replicate k ch0).count c) ch0
              (if (ch0 :: List.replicate k ch0).count ch0 = 0 then LAST_NODE
                else (ch0 :: List.replicate k ch0).count ch0 - 1),
            if Function.update (fun c => (ch0 :: List.replicate k ch0).count c) ch0
                (if (ch0 :: List.replicate k ch0).count ch0 = 0 then LAST_NODE
                  else (ch0 :: List.replicate k ch0).count ch0 - 1) ch0 = 0
              then suppCard (ch0 :: List.replicate k ch0) - 1
              else suppCard (ch0 :: List.replicate k ch0),
            out ++ [ch0]⟩ = some st' ∧
        st'.out = out ++ ch0 :: List.replicate k ch0 ∧ st'.uniqueChars = 0
      rw [if_neg hcnt, counts_tail]
      show ∃ st', decode_loop (HTree.leaf ch0 n) bufin fuel
          ⟨(bitRead 1 bufin cur).2, HTree.leaf ch0 n,
            (fun c => (List.replicate k ch0).count c),
            if (List.replicate k ch0).count ch0 = 0
              then suppCard (ch0 :: List.replicate k ch0) - 1
              else suppCard (ch0 :: List.replicate k ch0),
            out ++ [ch0]⟩ = some st' ∧
        st'.out = out ++ ch0 :: List.replicate k ch0 ∧ st'.uniqueChars = 0
      rw [suppCard_cons_tail]
      obtain ⟨st', hdone, hout, hu0⟩ := ih fuel (bitRead 1 bufin cur).2 (out ++ [ch0])
        (by omega)
      refine ⟨st', hdone, ?_, hu0⟩
      rw [hout, List.append_assoc]
      rfl

lemma findPath_internal_ne_nil (n : Nat) (l r : HTree) (ch : Byte) (p : List Bool)
    (h : findPath (.internal n l r) ch = some p) : p ≠ [] := by
  have hfi : findPath (.internal n l r) ch = (match findPath r ch with
    | some q => some (true :: q)
    | none => (findPath l ch).map (fun q => false :: q)) := rfl
  rw [hfi] at h
  rcases hr : findPath r ch with _ | q <;> rw [hr] at h
  · rcases hl : findPath l ch with _ | q <;> rw [hl] at h
    · cases h
    · have h' : some (false :: q) = some p := h
      exact Option.some.inj h' ▸ List.cons_ne_nil false q
  · have h' : some (true :: q) = some p := h
    exact Option.some.inj h' ▸ List.cons_ne_nil true q

lemma bitAt_zero (buf : Buf) (q : Nat) (h : buf (q / 8) = 0) : bitAt buf q = 0 := by
  rw [bitAt, h, Nat.zero_shiftRight, Nat.zero_and]

lemma flatPaths_length_le (head : HTree) (k : Nat)
    (hd : ∀ ch : Byte, ((findPath head ch).getD []).length ≤ k) :
    ∀ s : List Byte, (flatPaths head s).length ≤ k * s.length := by
  intro s
  induction s with
  | nil =>
    rw [show (flatPaths head []).length = 0 from rfl]
    exact Nat.zero_le _
  | cons ch s ih =>
    rw [flatPaths_cons, List.length_append, List.length_cons, Nat.mul_succ]
    have h2 : (pathBits ((findPath head ch).getD [])).length ≤ k := by
      rw [pathBits_length]
      exact hd ch
    omega

lemma flatBits_eq_flatPaths (head : HTree) (codes : Byte → Code) :
    ∀ s : List Byte, (∀ ch ∈ s, codeBits (codes ch) = pathBits ((findPath head ch).getD [])) →
      flatBits codes s = flatPaths head s := by
  intro s
  induction s with
  | nil => intro _; rfl
  | cons ch s ih =>
    intro h
    rw [flatBits_cons, flatPaths_cons, h ch (List.mem_cons_self ch s),
      ih (fun c hc => h c (List.mem_cons_of_mem ch hc))]

set_option maxRecDepth 4000 in
lemma sum_counts_eq_length (l : List Byte) :
    ((List.finRange 256).map (fun c => l.count c)).sum = l.length := by
  rw [← Fin.sum_univ_def]
  simp only [← Multiset.coe_count]
  rw [Multiset.sum_count_eq_card (fun a _ => Finset.mem_univ a)]
  exact Multiset.coe_card l

lemma codeBits_getD (c : Code) (j : Nat) (hj : j < c.length) :
    (codeBits c).getD j 0 = nbit c.value (c.length - 1 - j) := by
  unfold codeBits
  rw [List.getD_eq_getElem?_getD, List.getElem?_map, List.getElem?_range hj]
  rfl

lemma encode_loop_cons (codes : Byte → Code) (ch : Byte) (chs : List Byte) (buf : Buf)
    (c : BitCursor) :
    encode_loop (ch :: chs) codes buf c =
      encode_loop chs codes
        (bitWriteAux (codes ch).length (codes ch).length (codes ch).value buf c).1
        (bitWriteAux (codes ch).length (codes ch).length (codes ch).value buf c).2 := rfl

/-- Bytes strictly before the cursor's byte are never touched by the
packing loop, and the cursor's byte index never moves backwards. -/
lemma encode_loop_byte_lt :
    ∀ (chs : List Byte) (codes : Byte → Code) (buf : Buf) (c : BitCursor) (q : Nat),
      q < c.byteIdx →
      (encode_loop chs codes buf c).1 q = buf q ∧
        c.byteIdx ≤ (encode_loop chs codes buf c).2.byteIdx := by
  intro chs
  induction chs with
  | nil => intro codes buf c q _; exact ⟨rfl, Nat.le_refl _⟩
  | cons ch chs ih =>
    intro codes buf c q hq
    rw [encode_loop_cons]
    have hmono := bitWriteAux_byte_mono (codes ch).length (codes ch).length (codes ch).value buf c
    have hlt := bitWriteAux_byte_lt (codes ch).length (codes ch).length (codes ch).value buf c q hq
    obtain ⟨h1, h2⟩ := ih codes
      (bitWriteAux (codes ch).length (codes ch).length (codes ch).value buf c).1
      (bitWriteAux (codes ch).length (codes ch).length (codes ch).value buf c).2 q (by omega)
    refine ⟨?_, le_trans (by omega) h2⟩
    rw [h1]
    exact hlt

/-- The packing loop: with every bit at or past the cursor zero and every
code at most 31 bits with its value in range, the loop advances the cursor
by the total code bit length, lays down exactly the concatenated code bits,
leaves the bits before the start alone and keeps everything past the
written window zero. -/
lemma encode_loop_bits :
    ∀ (chs : List Byte) (codes : Byte → Code) (buf : Buf) (c : BitCursor),
      (∀ ch ∈ chs, (codes ch).length ≤ 31 ∧ (codes ch).value < 2 ^ (codes ch).length) →
      (∀ q, c.pos ≤ q → bitAt buf q = 0) →
      (encode_loop chs codes buf c).2.pos = c.pos + (flatBits codes chs).length ∧
      (∀ j, j < (flatBits codes chs).length →
        bitAt (encode_loop chs codes buf c).1 (c.pos + j) = (flatBits codes chs).getD j 0) ∧
      (∀ q, q < c.pos → bitAt (encode_loop chs codes buf c).1 q = bitAt buf q) ∧
      (∀ q, c.pos + (flatBits codes chs).length ≤ q →
        bitAt (encode_loop chs codes buf c).1 q = 0) := by
  intro chs
  induction chs with
  | nil =>
    intro codes buf c _ hzero
    refine ⟨rfl, ?_, ?_, ?_⟩
    · intro j hj
      exact absurd hj (by rw [show (flatBits codes []).length = 0 from rfl]; omega)
    · intro q _
      rfl
    · intro q hq
      exact hzero q (by omega)
  | cons ch chs ih =>
    intro codes buf c hcodes hzero
    obtain ⟨h31, hv⟩ := hcodes ch (List.mem_cons_self ch chs)
    obtain ⟨hpos1, hwin1, hhi1, hlo1⟩ := bitWriteAux_spec (codes ch).length (codes ch).length
      (codes ch).value buf c (le_refl _) (by omega) hv
      (fun j hj => hzero (c.pos + j) (by omega))
    have hzero2 : ∀ q,
        (bitWriteAux (codes ch).length (codes ch).length (codes ch).value buf c).2.pos ≤ q →
        bitAt (bitWriteAux (codes ch).length (codes ch).length (codes ch).value buf c).1 q
          = 0 := by
      intro q hq
      rw [hpos1] at hq
      rw [hhi1 q hq]
      exact hzero q (by omega)
    obtain ⟨hpos2, hwin2, hlo2, hhi2⟩ := ih codes
      (bitWriteAux (codes ch).length (codes ch).length (codes ch).value buf c).1
      (bitWriteAux (codes ch).length (codes ch).length (codes ch).value buf c).2
      (fun ch' h => hcodes ch' (List.mem_cons_of_mem ch h)) hzero2
    have hflat : flatBits codes (ch :: chs) = codeBits (codes ch) ++ flatBits codes chs :=
      flatBits_cons codes ch chs
    have hclen : (codeBits (codes ch)).length = (codes ch).length := codeBits_length _
    have hflen : (flatBits codes (ch :: chs)).length =
        (codes ch).length + (flatBits codes chs).length := by
      rw [hflat, List.length_append, hclen]
    refine ⟨?_, ?_, ?_, ?_⟩
    · rw [encode_loop_cons, hpos2, hpos1, hflen]
      omega
    · intro j hj
      rw [hflen] at hj
      rw [encode_loop_cons]
      by_cases hjl : j < (codes ch).length
      · rw [hlo2 (c.pos + j) (by rw [hpos1]; omega), hwin1 j hjl, hflat, List.getD_append]
        · exact (codeBits_getD (codes ch) j hjl).symm
        · rw [hclen]
          omega
      · have he : c.pos + j =
            (bitWriteAux (codes ch).length (codes ch).length (codes ch).value buf c).2.pos
              + (j - (codes ch).length) := by
          rw [hpos1]
          omega
        rw [he, hwin2 (j - (codes ch).length) (by omega), hflat, List.getD_append_right]
        · rw [hclen]
        · rw [hclen]
          omega
    · intro q hq
      rw [encode_loop_cons, hlo2 q (by rw [hpos1]; omega)]
      exact hlo1 h31 q hq
    · intro q hq
      rw [hflen] at hq
      rw [encode_loop_cons]
      exact hhi2 q (by rw [hpos1]; omega)

set_option maxRecDepth 4000 in
/-- The shared encode/decode round-trip development: for a nonempty input
shorter than `LAST_NODE` bytes whose tree is at most 31 deep, and enough
decoder fuel, (1) the written header reads back as the exact occurrence
counts, (2) the decode loop run by `huffman_decode` terminates with
`uniqueChars = 0` having emitted exactly the input, and (3)
`huffman_decode` returns the input bytes followed by a `'\0'` with
reported length `|b| + 1`. -/
lemma huffman_roundtrip (b : List Byte) (g : Byte → Code) (fuel : Nat) (mallocFill : Nat → Nat)
    (hne : b ≠ []) (hsmall : b.length < LAST_NODE)
    (hdepth : (encode_tree b).depth ≤ 31) (hfuel : 32 * b.length ≤ fuel) :
    (∀ c : Byte, read4 (huffman_encode b g).1 (4 * c.val) = b.count c) ∧
    (∃ st', decode_loop
        (huff_tree (read_char_freq (huffman_encode b g).1 0).char_frequency
          (read_char_freq (huffman_encode b g).1 0).max_freq)
        (huffman_encode b g).1 fuel
        { cursor := ⟨1024, 0⟩,
          currentNode := huff_tree (read_char_freq (huffman_encode b g).1 0).char_frequency
            (read_char_freq (huffman_encode b g).1 0).max_freq,
          char_frequency := (read_char_freq (huffman_encode b g).1 0).char_frequency,
          uniqueChars := (read_char_freq (huffman_encode b g).1 0).uniqueChars,
          out := [] } = some st' ∧ st'.out = b ∧ st'.uniqueChars = 0) ∧
    (∃ res, huffman_decode fuel (huffman_encode b g).1 0 mallocFill = some res ∧
      (∀ i, ∀ hi : i < b.length, res.1 i = (b.get ⟨i, hi⟩).val) ∧
      res.1 b.length = 0 ∧ res.2 = b.length + 1) := by
  have hcLN : ∀ c : Byte, b.count c < LAST_NODE := fun c =>
    lt_of_le_of_lt (List.count_le_length c b) hsmall
  have hU : ∀ c : Byte, b.count c < U32 := fun c =>
    lt_trans (hcLN c) (by simp only [LAST_NODE, U32]; omega)
  have hfreq : (encode_freq b).char_frequency = fun c => b.count c :=
    funext fun c => encode_freq_counts b c (hU c)
  have hdeB : (huff_tree (fun c => b.count c) (encode_freq b).max_freq).depth ≤ 31 := by
    have h : encode_tree b = huff_tree (fun c => b.count c) (encode_freq b).max_freq := by
      show huff_tree (encode_freq b).char_frequency (encode_freq b).max_freq = _
      rw [hfreq]
    rw [← h]
    exact hdepth
  have henc : (huffman_encode b g).1 =
      (encode_loop b (gen_codes (huff_tree (fun c => b.count c) (encode_freq b).max_freq) g)
        (write_char_freq (fun c => b.count c) (fun _ => 0)) ⟨1024, 0⟩).1 := by
    show (encode_loop b (gen_codes (huff_tree (encode_freq b).char_frequency
        (encode_freq b).max_freq) g)
      (write_char_freq (encode_freq b).char_frequency (fun _ => 0)) ⟨1024, 0⟩).1 = _
    rw [hfreq]
  have hch : ∀ ch ∈ b, ∃ p,
      findPath (huff_tree (fun c => b.count c) (encode_freq b).max_freq) ch = some p ∧
      gen_codes (huff_tree (fun c => b.count c) (encode_freq b).max_freq) g ch =
        { length := p.length, value := pathVal p } ∧ p.length ≤ 31 := by
    intro ch hmem
    have hc0 : 0 < b.count ch := List.count_pos_iff.mpr hmem
    have hmemchars : ch ∈ (huff_tree (fun c => b.count c) (encode_freq b).max_freq).chars :=
      huff_tree_chars (fun c => b.count c) (encode_freq b).max_freq ch (fun d => hcLN d) hc0
    obtain ⟨p, hp⟩ := findPath_some_of_mem _ ch hmemchars
    have hpl : p.length ≤ 31 := le_trans (findPath_length_le_depth _ ch p hp) hdeB
    have hmod : pathVal p % U32 = pathVal p := Nat.mod_eq_of_lt (lt_of_lt_of_le (pathVal_lt p)
      (le_trans (Nat.pow_le_pow_right (by norm_num) hpl) (by norm_num [U32])))
    refine ⟨p, hp, ?_, hpl⟩
    rw [gen_codes_path _ g ch p hp, hmod]
  have hcodes : ∀ ch ∈ b,
      (gen_codes (huff_tree (fun c => b.count c) (encode_freq b).max_freq) g ch).length ≤ 31 ∧
      (gen_codes (huff_tree (fun c => b.count c) (encode_freq b).max_freq) g ch).value <
        2 ^ (gen_codes (huff_tree (fun c => b.count c) (encode_freq b).max_freq) g ch).length := by
    intro ch hmem
    obtain ⟨p, hp, hcode, hpl⟩ := hch ch hmem
    rw [hcode]
    exact ⟨hpl, pathVal_lt p⟩
  have hzero1 : ∀ q, (⟨1024, 0⟩ : BitCursor).pos ≤ q →
      bitAt (write_char_freq (fun c => b.count c) (fun _ => 0)) q = 0 := by
    intro q hq
    have hq' : 8192 ≤ q := hq
    apply bitAt_zero
    rw [write_char_freq_ne (fun c => b.count c) (fun _ => 0) (q / 8) (by omega)]
  obtain ⟨hpos, hwin, hlo, hhi⟩ := encode_loop_bits b
    (gen_codes (huff_tree (fun c => b.count c) (encode_freq b).max_freq) g)
    (write_char_freq (fun c => b.count c) (fun _ => 0)) ⟨1024, 0⟩ hcodes hzero1
  have hbytes : ∀ q, q < 1024 → (huffman_encode b g).1 q =
      write_char_freq (fun c => b.count c) (fun _ => 0) q := by
    intro q hq
    rw [henc]
    exact (encode_loop_byte_lt b _ _ ⟨1024, 0⟩ q hq).1
  have hread : ∀ c : Byte, read4 (huffman_encode b g).1 (4 * c.val) = b.count c := by
    intro c
    have hlt : c.val < 256 := c.isLt
    rw [read4_congr (huffman_encode b g).1 (write_char_freq (fun c => b.count c) (fun _ => 0))
      (4 * c.val) (hbytes _ (by omega)) (hbytes _ (by omega)) (hbytes _ (by omega))
      (hbytes _ (by omega)),
      write_char_freq_read (fun c => b.count c) (fun _ => 0) c]
    exact Nat.mod_eq_of_lt (hU c)
  have hR : read_char_freq (huffman_encode b g).1 0 =
      (List.finRange 256).foldl (read_freq_step (huffman_encode b g).1)
        { char_frequency := fun _ => 0, max_freq := 0, totalSize := 0,
          uniqueChars := 0 } := rfl
  have hrf : (read_char_freq (huffman_encode b g).1 0).char_frequency =
      fun c => b.count c := by
    funext c
    rw [hR, read_freq_fold_freq (huffman_encode b g).1 (List.finRange 256) _ c,
      if_pos (List.mem_finRange c)]
    exact hread c
  have hrm : (read_char_freq (huffman_encode b g).1 0).max_freq =
      (encode_freq b).max_freq := by
    rw [hR, read_freq_fold_max]
    have hfun : (fun (m : Nat) (c : Byte) =>
        if m < read4 (huffman_encode b g).1 (4 * c.val)
          then read4 (huffman_encode b g).1 (4 * c.val) else m) =
        (fun m c => if m < b.count c then b.count c else m) := by
      funext m c
      rw [hread c]
    rw [hfun]
    have h0 : ({ char_frequency := fun _ => 0, max_freq := 0, totalSize := 0, uniqueChars := 0 } : ReadFreqState).max_freq = 0 := rfl
    rw [h0, foldl_max_eq_sup (fun c => b.count c), encode_freq_max b hU]
  have hrt : (read_char_freq (huffman_encode b g).1 0).totalSize = b.length := by
    rw [hR, read_freq_fold_total (huffman_encode b g).1 (List.finRange 256) _
      (by show (0:Nat) < U32; norm_num [U32])]
    have hmap : (List.finRange 256).map (fun c => read4 (huffman_encode b g).1 (4 * c.val)) =
        (List.finRange 256).map (fun c => b.count c) :=
      List.map_congr_left (fun c _ => hread c)
    rw [hmap, sum_counts_eq_length b]
    show (0 + b.length) % U32 = b.length
    rw [Nat.zero_add]
    exact Nat.mod_eq_of_lt (lt_trans hsmall (by simp only [LAST_NODE, U32]; omega))
  have hru : (read_char_freq (huffman_encode b g).1 0).uniqueChars = suppCard b := by
    rw [hR, read_freq_fold_unique]
    show 0 + ((List.finRange 256).filter
      (fun c => decide (0 < read4 (huffman_encode b g).1 (4 * c.val)))).length = suppCard b
    rw [Nat.zero_add]
    unfold suppCard
    congr 1
    apply List.filter_congr
    intro c _
    show decide (0 < read4 (huffman_encode b g).1 (4 * c.val)) = decide (0 < b.count c)
    rw [hread c]
  have key : ∃ st', decode_loop (huff_tree (fun c => b.count c) (encode_freq b).max_freq)
      (huffman_encode b g).1 fuel
      { cursor := ⟨1024, 0⟩,
        currentNode := huff_tree (fun c => b.count c) (encode_freq b).max_freq,
        char_frequency := fun c => b.count c,
        uniqueChars := suppCard b, out := [] } = some st' ∧
      st'.out = b ∧ st'.uniqueChars = 0 := by
    rcases hhead : huff_tree (fun c => b.count c) (encode_freq b).max_freq with
      ⟨ch0, n0⟩ | ⟨nn, tl, tr⟩
    · have hall : ∀ x ∈ b, x = ch0 := by
        intro x hx
        obtain ⟨p, hp, _, _⟩ := hch x hx
        rw [hhead] at hp
        have hp' : (if ch0 = x then some ([] : List Bool) else none) = some p := hp
        by_cases hcx : ch0 = x
        · exact hcx.symm
        · rw [if_neg hcx] at hp'
          cases hp'
      have hrep : b = List.replicate b.length ch0 := List.eq_replicate_of_mem hall
      obtain ⟨st', hdone, hout, hu0⟩ := decode_run_single (huffman_encode b g).1 ch0 n0
        b.length fuel ⟨1024, 0⟩ [] (by omega)
      refine ⟨st', ?_, ?_, hu0⟩
      · rw [show (fun c => b.count c) = (fun c => (List.replicate b.length ch0).count c) from
            by rw [← hrep],
          show suppCard b = suppCard (List.replicate b.length ch0) from by rw [← hrep]]
        exact hdone
      · rw [hout, List.nil_append, ← hrep]
    · have hpaths : ∀ ch ∈ b, ∃ p,
          findPath (HTree.internal nn tl tr) ch = some p ∧ p ≠ [] := by
        intro ch hmem
        obtain ⟨p, hp, _, _⟩ := hch ch hmem
        rw [hhead] at hp
        exact ⟨p, hp, findPath_internal_ne_nil nn tl tr ch p hp⟩
      have hflat : flatBits
          (gen_codes (huff_tree (fun c => b.count c) (encode_freq b).max_freq) g) b =
          flatPaths (huff_tree (fun c => b.count c) (encode_freq b).max_freq) b := by
        apply flatBits_eq_flatPaths
        intro ch hmem
        obtain ⟨p, hp, hcode, hpl⟩ := hch ch hmem
        rw [hcode, hp, Option.getD_some]
        exact codeBits_pathVal p
      have hflat2 : flatBits
          (gen_codes (huff_tree (fun c => b.count c) (encode_freq b).max_freq) g) b =
          flatPaths (HTree.internal nn tl tr) b := by
        rw [← hhead]
        exact hflat
      have hstream : ∀ j, j < (flatPaths (HTree.internal nn tl tr) b).length →
          bitAt (huffman_encode b g).1 ((⟨1024, 0⟩ : BitCursorRead).pos + j) =
            (flatPaths (HTree.internal nn tl tr) b).getD j 0 := by
        intro j hj
        rw [← hflat2] at hj ⊢
        rw [henc]
        exact hwin j hj
      have hdeB' : (HTree.internal nn tl tr).depth ≤ 31 := by
        rw [← hhead]
        exact hdeB
      have hplen : (flatPaths (HTree.internal nn tl tr) b).length ≤ 31 * b.length := by
        apply flatPaths_length_le
        intro ch
        rcases hfp : findPath (HTree.internal nn tl tr) ch with _ | p
        · decide
        · rw [Option.getD_some]
          have h1 := findPath_length_le_depth (HTree.internal nn tl tr) ch p hfp
          omega
      obtain ⟨st', hdone, hout, hu0⟩ := decode_run (HTree.internal nn tl tr)
        (huffman_encode b g).1 b fuel ⟨1024, 0⟩ [] hpaths hstream (by omega)
      refine ⟨st', hdone, ?_, hu0⟩
      rw [hout, List.nil_append]
  refine ⟨hread, ?_, ?_⟩
  · rw [hrf, hru, hrm]
    exact key
  · obtain ⟨st', hdl, hout, hu0⟩ := key
    have hdl' : decode_loop
        (huff_tree (read_char_freq (huffman_encode b g).1 0).char_frequency
          (read_char_freq (huffman_encode b g).1 0).max_freq) (huffman_encode b g).1 fuel
        { cursor := ⟨1024, 0⟩,
          currentNode := huff_tree (read_char_freq (huffman_encode b g).1 0).char_frequency
            (read_char_freq (huffman_encode b g).1 0).max_freq,
          char_frequency := (read_char_freq (huffman_encode b g).1 0).char_frequency,
          uniqueChars := (read_char_freq (huffman_encode b g).1 0).uniqueChars,
          out := [] } = some st' := by
      rw [hrf, hru, hrm]
      exact hdl
    have hmain : huffman_decode fuel (huffman_encode b g).1 0 mallocFill =
        some (Function.update
            (fun i => if h : i < st'.out.length then (st'.out.get ⟨i, h⟩).val else mallocFill i)
            (read_char_freq (huffman_encode b g).1 0).totalSize 0,
          ((read_char_freq (huffman_encode b g).1 0).totalSize + 1) % U32) := by
      simp only [huffman_decode]
      rw [hdl']
    rw [hrt] at hmain
    refine ⟨_, hmain, ?_, ?_, ?_⟩
    · intro i hi
      show Function.update
          (fun i => if h : i < st'.out.length then (st'.out.get ⟨i, h⟩).val else mallocFill i)
          b.length 0 i = (b.get ⟨i, hi⟩).val
      rw [Function.update_noteq (by omega : i ≠ b.length)]
      have hi' : i < st'.out.length := by rw [hout]; exact hi
      rw [dif_pos hi']
      rw [List.get_of_eq hout ⟨i, hi'⟩]
    · show Function.update
          (fun i => if h : i < st'.out.length then (st'.out.get ⟨i, h⟩).val else mallocFill i)
          b.length 0 b.length = 0
      rw [Function.update_same]
    · show (b.length + 1) % U32 = b.length + 1
      exact Nat.mod_eq_of_lt (by have h := hsmall; simp only [LAST_NODE, U32] at h ⊢; omega)

set_option maxRecDepth 10000 in
/-- Witness for C7: one character with frequency 3 and a 2-bit code. -/
theorem C7_witness :
    calc_out_buff_size (fun c => if c.val = 0 then 3 else 0)
        (fun _ => { length := 2, value := 0 }) =
      specOutBuffSize (fun c => if c.val = 0 then 3 else 0)
        (fun _ => { length := 2, value := 0 }) :=
  C7_out_size_amended (fun c => if c.val = 0 then 3 else 0)
    (fun _ => { length := 2, value := 0 })
    (fun i => by dsimp only; split <;> norm_num [U32])
    (by decide)

end Huffman
